import Mathlib

/-!
Verification of the `containers` repository (persistent HAMT, red-black ordered
map, augmented interval tree) against its specification.

Part 1: the HAMT (hash array mapped trie) of `src/hamt.ts`.
Part 2 (further down): the red-black trees of `src/red-black-common.ts` and
`src/interval-tree.ts` — the read-only traversals as functions of the
unfolded inductive tree, the imperative operations on an explicit heap
(arena) of nodes.

Modelling conventions
  * JavaScript 32-bit integers are modelled as `Nat` holding the unsigned bit
    pattern; every operation that truncates in JavaScript (`| 0`, `Math.imul`)
    is modelled with an explicit `% 4294967296`.
  * JavaScript `V | undefined` results are `Option V` (`none` = `undefined`).
  * A thrown exception is `Except.error`; `HAMT.get` and `HAMT.set` therefore
    return `Except String _`.  The source can throw: `set` contains
    `throw new Error("Bad childIndex ...")`, and past stage 5 a descent can
    dereference `undefined` (a `TypeError`).
  * `null` entries of the `nexts` array are `none`; an out-of-bounds read
    (JavaScript `undefined`, which is distinct from `null`) is the `none`
    result of `l[i]?`.
  * Recursive walks take an explicit fuel argument so that they are structural
    (and hence computable by the kernel).  On every trie reachable by `set`
    operations the descent visits at most seven nodes (hash stages 0 to 6;
    stage-6 nodes never gain children), so the constant fuel 64 passed by the
    public operations is never exhausted; the fuel lemmas below make the
    fuel-irrelevance precise.
-/

/-- Fuelled helper for `countOnes`; the fuel only needs to dominate the
number itself. -/
def countOnesGo : Nat → Nat → Nat
  | 0, _ => 0
  | fuel + 1, n => if n = 0 then 0 else n % 2 + countOnesGo fuel (n / 2)

/-- Spec-level population count: the number of 1 bits of a natural number.
Used as the reference function for the source's SWAR `popCount`. -/
def countOnes (n : Nat) : Nat :=
  countOnesGo n n

theorem countOnesGo_zero (fuel : Nat) : countOnesGo fuel 0 = 0 := by
  cases fuel <;> rfl

theorem countOnesGo_fuel : ∀ f g n, n ≤ f → n ≤ g → countOnesGo f n = countOnesGo g n := by
  intro f
  induction f with
  | zero =>
    intro g n hf _
    have hn : n = 0 := by omega
    subst hn
    rw [countOnesGo_zero, countOnesGo_zero]
  | succ f ih =>
    intro g n hf hg
    match n with
    | 0 => rw [countOnesGo_zero, countOnesGo_zero]
    | m + 1 =>
      match g, hg with
      | g + 1, _ =>
        show (m + 1) % 2 + countOnesGo f ((m + 1) / 2)
           = (m + 1) % 2 + countOnesGo g ((m + 1) / 2)
        rw [ih g ((m + 1) / 2) (by omega) (by omega)]

theorem countOnes_eq (n : Nat) : countOnes n = n % 2 + countOnes (n / 2) := by
  match n with
  | 0 => rfl
  | m + 1 =>
    show countOnesGo (m + 1) (m + 1) = _
    show (m + 1) % 2 + countOnesGo m ((m + 1) / 2) = _
    rw [countOnesGo_fuel m ((m + 1) / 2) ((m + 1) / 2) (by omega) (by omega)]
    rfl

theorem countOnes_zero : countOnes 0 = 0 := rfl

/-- Source `popCount` (hamt.ts): SWAR bit-twiddling population count of the
32-bit integer `n`.  The JavaScript `>>` / `&` operators coerce to 32 bits;
on the values arising here only the final multiply can exceed 32 bits, which
the model truncates explicitly (the JavaScript `>> 24` applies `ToInt32`
first). -/
def popCount (n : Nat) : Nat :=
  let a := n - ((n >>> 1) &&& 0x55555555)
  let b := (a &&& 0x33333333) + ((a >>> 2) &&& 0x33333333)
  ((((b + (b >>> 4)) &&& 0xF0F0F0F) * 0x1010101) % 4294967296) >>> 24

/-- Source `checkBit` (hamt.ts): test bit `bit` of the 32-bit integer `n`. -/
def checkBit (n bit : Nat) : Bool :=
  (n >>> bit) &&& 1 == 1

/-- Source `setBit` (hamt.ts): set bit `bit` of `n` to 1.  All call sites pass
`bit ≤ 31`, so `1 << bit` does not overflow 32 bits. -/
def setBit (n bit : Nat) : Nat :=
  n ||| (1 <<< bit)

/-- Source `getNthPrefix` (hamt.ts): the `stage`-th five bits of the 32-bit
hash `n`, or `none` (JavaScript `undefined`) when `stage > 5`. -/
def getNthPrefix' (n stage : Nat) : Option Nat :=
  if stage > 5 then none else some ((n >>> (5 * stage)) &&& 31)

/-- Source `hashString` (hamt.ts): `h = Math.imul(31, h) + s.charCodeAt(i) | 0`
over the UTF-16 code units.  As unsigned 32-bit patterns this is
`h ↦ (31*h + c) mod 2^32` (all keys used in this file are ASCII, for which
`Char.toNat` is the UTF-16 code unit). -/
def hashString (s : String) : Nat :=
  s.data.foldl (fun h c => (31 * h + c.toNat) % 4294967296) 0

/-- Helper for `copyInsert`: the source's `for` loop with counter `i`. -/
def copyInsertGo (elem : α) (index : Nat) : List α → Nat → List α
  | [], i => if index = i then [elem] else []
  | a :: rest, i =>
    if i = index then elem :: a :: copyInsertGo elem index rest (i + 1)
    else a :: copyInsertGo elem index rest (i + 1)

/-- Source `copyInsert` (hamt.ts): copy `arr`, inserting `elem` at position
`index` (appended at the end when `index = arr.length`; silently dropped by
the source when `index > arr.length`). -/
def copyInsert (elem : α) (index : Nat) (arr : List α) : List α :=
  copyInsertGo elem index arr 0

/-- Source `Node<V>` (hamt.ts): a trie node with a 32-bit occupancy mask and
three parallel arrays.  A `none` entry of `nexts` is the JavaScript `null`. -/
inductive HNode (V : Type) where
  | mk (mask : Nat) (keys : List String) (values : List V)
       (nexts : List (Option (HNode V))) : HNode V

def HNode.mask : HNode V → Nat
  | .mk m _ _ _ => m

def HNode.keys : HNode V → List String
  | .mk _ k _ _ => k

def HNode.values : HNode V → List V
  | .mk _ _ v _ => v

def HNode.nexts : HNode V → List (Option (HNode V))
  | .mk _ _ _ n => n

/-- Source `HAMT.get` (hamt.ts), the body of the `while` loop as a recursion
on the current node.  Past stage 5 `getNthPrefix` returns `undefined`
(`none`); the JavaScript shifts then coerce `undefined`/`NaN` to a shift
count of `0`, which is spelled out in the `none` branches.  When the child
lookup runs off the end of `nexts` (JavaScript `undefined`, which is
`!== null`), the next loop iteration dereferences `undefined` and throws a
`TypeError`. -/
def getAux (key : String) (hash : Nat) : Nat → Nat → HNode V → Except String (Option V)
  | 0, _, _ => Except.error "out of fuel"
  | fuel + 1, stage, .mk mask keys values nexts =>
    let cb : Bool := match getNthPrefix' hash stage with
      | some bitIndex => checkBit mask bitIndex
      | none => checkBit mask 0
    let childIndex : Nat := match getNthPrefix' hash stage with
      | some bitIndex => if bitIndex == 31 then 0 else popCount (mask >>> (bitIndex + 1))
      | none => popCount (mask >>> 0)
    if cb then
      if keys[childIndex]? = some key then Except.ok values[childIndex]?
      else
        match nexts[childIndex]? with
        | some (some child) => getAux key hash fuel (stage + 1) child
        | some none => Except.ok none
        | none => Except.error "TypeError"
    else
      Except.ok none

/-- Source `HAMT.set`'s inner recursive function `f` (hamt.ts).  The closure
captured `isNewKey` flag is threaded as the `Bool` component of the result
(`false` once an existing binding was overwritten).  As in the source, when
the occupied slot's child pointer is `null` a fresh empty node
`{mask: 0, keys: [], values: [], nexts: []}` is created and the recursion
continues into it.  The `none` branches of the bit-index matches spell out
the JavaScript coercion of an `undefined` bit index (stage > 5) to shift
count 0, exactly as in `getAux`. -/
def setAux (key : String) (value : V) (hash : Nat) :
    Nat → Nat → HNode V → Except String (HNode V × Bool)
  | 0, _, _ => Except.error "out of fuel"
  | fuel + 1, stage, .mk mask keys values nexts =>
    let cb : Bool := match getNthPrefix' hash stage with
      | some bitIndex => checkBit mask bitIndex
      | none => checkBit mask 0
    let childIndex : Nat := match getNthPrefix' hash stage with
      | some bitIndex => if bitIndex == 31 then 0 else popCount (mask >>> (bitIndex + 1))
      | none => popCount (mask >>> 0)
    if cb then
      if keys[childIndex]? = some key then
        Except.ok (.mk mask keys (values.set childIndex value) nexts, false)
      else
        match nexts[childIndex]? with
        | none => Except.error "Bad childIndex"
        | some c =>
          let child := match c with
            | none => HNode.mk 0 [] [] []
            | some child => child
          match setAux key value hash fuel (stage + 1) child with
          | Except.error e => Except.error e
          | Except.ok (c', isNewKey) =>
            Except.ok (.mk mask keys values (nexts.set childIndex (some c')), isNewKey)
    else
      Except.ok
        (.mk (match getNthPrefix' hash stage with
              | some bitIndex => setBit mask bitIndex
              | none => setBit mask 0)
             (copyInsert key childIndex keys)
             (copyInsert value childIndex values)
             (copyInsert none childIndex nexts),
         true)

/-- Source `HAMT<V>` (hamt.ts): root node plus element count. -/
structure HAMT (V : Type) where
  root : HNode V
  size : Nat

/-- Source `new HAMT()`: empty root node, size 0. -/
def HAMT.empty (V : Type) : HAMT V :=
  ⟨.mk 0 [] [] [], 0⟩

/-- Source `HAMT.get`. -/
def HAMT.get (m : HAMT V) (key : String) : Except String (Option V) :=
  getAux key (hashString key) 64 0 m.root

/-- Source `HAMT.set`: run the path-copying insertion from the root at stage
0; the new size is `size + 1` exactly when no existing binding was
overwritten. -/
def HAMT.set (m : HAMT V) (key : String) (value : V) : Except String (HAMT V) :=
  match setAux key value (hashString key) 64 0 m.root with
  | Except.error e => Except.error e
  | Except.ok (root', isNewKey) =>
    Except.ok ⟨root', if isNewKey then m.size + 1 else m.size⟩

/-! ### Correctness of the SWAR popCount

`popCount n = countOnes n` for every 32-bit `n`.  The three masked steps of
the SWAR computation operate on the bytes of `n` independently (the masks
have zero bits wherever a shift lets a neighbouring byte leak in), so the
proof decomposes `n` byte by byte using width-parametric replicated masks,
and settles the single-byte case by `decide`. -/

theorem countOnes_two_pow_mul_add :
    ∀ (k a x : Nat), x < 2 ^ k → countOnes (2 ^ k * a + x) = countOnes a + countOnes x := by
  intro k
  induction k with
  | zero =>
    intro a x hx
    have hx0 : x = 0 := by omega
    subst hx0
    simp [countOnes_zero]
  | succ k ih =>
    intro a x hx
    have hp : 2 ^ (k + 1) * a = 2 * (2 ^ k * a) := by ring
    have hpp : 2 ^ (k + 1) = 2 * 2 ^ k := by ring
    rw [countOnes_eq (2 ^ (k + 1) * a + x), hp]
    have h1 : (2 * (2 ^ k * a) + x) % 2 = x % 2 := by omega
    have h2 : (2 * (2 ^ k * a) + x) / 2 = 2 ^ k * a + x / 2 := by omega
    rw [h1, h2, ih a (x / 2) (by omega), countOnes_eq x]
    ring

theorem land_chunk (k a b : Nat) {x y : Nat} (hx : x < 2 ^ k) (hy : y < 2 ^ k) :
    (2 ^ k * a + x) &&& (2 ^ k * b + y) = 2 ^ k * (a &&& b) + (x &&& y) := by
  have hxy : x &&& y < 2 ^ k := lt_of_le_of_lt Nat.and_le_left hx
  apply Nat.eq_of_testBit_eq
  intro j
  rw [Nat.testBit_and, Nat.testBit_mul_pow_two_add _ hx, Nat.testBit_mul_pow_two_add _ hy,
      Nat.testBit_mul_pow_two_add _ hxy]
  by_cases hj : j < k
  · simp [hj]
  · simp [hj, Nat.testBit_and]

/-- Low-byte variant of `land_chunk`: a carry bit leaking into positions at or
above bit `w` is erased by a mask below `2^w`. -/
theorem land_low (w e x y : Nat) (hx : x < 2 ^ w) (hy : y < 2 ^ w) :
    (2 ^ w * e + x) &&& y = x &&& y := by
  have h := land_chunk w e 0 (x := x) (y := y) hx hy
  simpa using h

/-- A mask byte replicated `k` times (`repMask 0x55 4 = 0x55555555`). -/
def repMask (b : Nat) : Nat → Nat
  | 0 => 0
  | k + 1 => b + 256 * repMask b k

/-- First SWAR step: per 2-bit field, the field's popcount. -/
def swarStepA (m1v n : Nat) : Nat :=
  n - ((n >>> 1) &&& m1v)

/-- Second SWAR step: per 4-bit field, the field's popcount. -/
def swarStepB (m2v a : Nat) : Nat :=
  (a &&& m2v) + ((a >>> 2) &&& m2v)

/-- Third SWAR step: per byte, the byte's popcount. -/
def swarStepC (m3v b : Nat) : Nat :=
  (b + (b >>> 4)) &&& m3v

def swarBytes (m1v m2v m3v n : Nat) : Nat :=
  swarStepC m3v (swarStepB m2v (swarStepA m1v n))

/-- The number whose bytes are the popcounts of the bytes of `n`
(`k` bytes considered). -/
def bytePC : Nat → Nat → Nat
  | 0, _ => 0
  | k + 1, n => countOnes (n % 256) + 256 * bytePC k (n / 256)

set_option maxRecDepth 4000 in
theorem swarBytes_byte : ∀ c, c < 256 → swarBytes 0x55 0x33 0x0F c = countOnes c := by
  decide

theorem repMask33_mod16 (k : Nat) : repMask 0x33 k % 16 ≤ 3 := by
  cases k with
  | zero => simp [repMask]
  | succ k => simp [repMask]; omega

theorem swarBytes_eq_bytePC :
    ∀ k n, n < 256 ^ k →
      swarBytes (repMask 0x55 k) (repMask 0x33 k) (repMask 0x0F k) n = bytePC k n := by
  intro k
  induction k with
  | zero =>
    intro n hn
    have hn0 : n = 0 := by omega
    subst hn0
    decide
  | succ k ih =>
    intro n hn
    set c := n % 256 with hc_def
    set m := n / 256 with hm_def
    have hc : c < 256 := Nat.mod_lt _ (by omega)
    have hm : m < 256 ^ k := by
      rw [hm_def]
      have h : 256 ^ (k + 1) = 256 * 256 ^ k := by ring
      exact Nat.div_lt_of_lt_mul (by omega)
    have hn' : n = 256 * m + c := by omega
    set M1 := repMask 0x55 k with hM1
    set M2 := repMask 0x33 k with hM2
    set M3 := repMask 0x0F k with hM3
    have hrep1 : repMask 0x55 (k + 1) = 2 ^ 8 * M1 + 0x55 := by
      show (0x55 + 256 * repMask 0x55 k : Nat) = _
      rw [← hM1]; ring
    have hrep2 : repMask 0x33 (k + 1) = 2 ^ 8 * M2 + 0x33 := by
      show (0x33 + 256 * repMask 0x33 k : Nat) = _
      rw [← hM2]; ring
    have hrep3 : repMask 0x0F (k + 1) = 2 ^ 8 * M3 + 0x0F := by
      show (0x0F + 256 * repMask 0x0F k : Nat) = _
      rw [← hM3]; ring
    -- Step A: subtract the shifted-and-masked odd bits, byte by byte.
    have hdiv1 : n >>> 1 = 2 ^ 8 * (m / 2) + (2 ^ 7 * (m % 2) + c / 2) := by
      rw [Nat.shiftRight_eq_div_pow]
      omega
    have hA1 : (n >>> 1) &&& repMask 0x55 (k + 1)
        = 2 ^ 8 * ((m / 2) &&& M1) + ((c / 2) &&& 0x55) := by
      have hL1 := land_chunk 8 (m / 2) M1 (x := 2 ^ 7 * (m % 2) + c / 2) (y := 0x55)
        (by omega) (by omega)
      have hL2 := land_low 7 (m % 2) (c / 2) 0x55 (by omega) (by omega)
      rw [hdiv1, hrep1, hL1, hL2]
    have hAm_le : (m / 2) &&& M1 ≤ m := le_trans Nat.and_le_left (Nat.div_le_self _ _)
    have hAc_le : (c / 2) &&& 0x55 ≤ c := le_trans Nat.and_le_left (Nat.div_le_self _ _)
    have hmdiv : m >>> 1 = m / 2 := by norm_num [Nat.shiftRight_eq_div_pow]
    have hcdiv : c >>> 1 = c / 2 := by norm_num [Nat.shiftRight_eq_div_pow]
    have hA : swarStepA (repMask 0x55 (k + 1)) n
        = 2 ^ 8 * swarStepA M1 m + swarStepA 0x55 c := by
      simp only [swarStepA, hA1, hmdiv, hcdiv]
      omega
    set aM := swarStepA M1 m with haM
    set aC := swarStepA 0x55 c with haC
    have haC_lt : aC < 256 := by
      have h : aC ≤ c := Nat.sub_le _ _
      omega
    -- Step B: add the 2-bit field counts into 4-bit fields, byte by byte.
    have ha2div : (2 ^ 8 * aM + aC) >>> 2 = 2 ^ 8 * (aM / 4) + (2 ^ 6 * (aM % 4) + aC / 4) := by
      rw [Nat.shiftRight_eq_div_pow]
      omega
    have hB1 : (2 ^ 8 * aM + aC) &&& repMask 0x33 (k + 1)
        = 2 ^ 8 * (aM &&& M2) + (aC &&& 0x33) := by
      rw [hrep2]
      exact land_chunk 8 _ _ haC_lt (by omega)
    have hB2 : ((2 ^ 8 * aM + aC) >>> 2) &&& repMask 0x33 (k + 1)
        = 2 ^ 8 * ((aM / 4) &&& M2) + ((aC / 4) &&& 0x33) := by
      have hL1 := land_chunk 8 (aM / 4) M2 (x := 2 ^ 6 * (aM % 4) + aC / 4) (y := 0x33)
        (by omega) (by omega)
      have hL2 := land_low 6 (aM % 4) (aC / 4) 0x33 (by omega) (by omega)
      rw [ha2div, hrep2, hL1, hL2]
    have haMdiv : aM >>> 2 = aM / 4 := by norm_num [Nat.shiftRight_eq_div_pow]
    have haCdiv : aC >>> 2 = aC / 4 := by norm_num [Nat.shiftRight_eq_div_pow]
    have hB : swarStepB (repMask 0x33 (k + 1)) (2 ^ 8 * aM + aC)
        = 2 ^ 8 * swarStepB M2 aM + swarStepB 0x33 aC := by
      simp only [swarStepB, hB1, hB2, haMdiv, haCdiv]
      ring
    set bM := swarStepB M2 aM with hbM
    set bC := swarStepB 0x33 aC with hbC
    have hbC_le : bC ≤ 102 := by
      have h1 : aC &&& 0x33 ≤ 0x33 := Nat.and_le_right
      have h2 : (aC >>> 2) &&& 0x33 ≤ 0x33 := Nat.and_le_right
      simp only [hbC, swarStepB]
      omega
    have hand15 : ∀ x : Nat, x &&& 15 = x % 16 := by
      intro x
      have h := Nat.and_pow_two_sub_one_eq_mod x 4
      norm_num at h
      exact h
    have hbM_mod : bM % 16 ≤ 6 := by
      have key : ∀ x : Nat, (x &&& M2) % 16 ≤ 3 := by
        intro x
        have h15 : (x &&& M2) % 16 = x &&& (M2 &&& 15) := by
          rw [← Nat.and_assoc, hand15]
        have h1 : x &&& (M2 &&& 15) ≤ M2 &&& 15 := Nat.and_le_right
        have h2 : M2 &&& 15 = M2 % 16 := hand15 M2
        have h3 := repMask33_mod16 k
        rw [← hM2] at h3
        omega
      have k1 := key aM
      have k2 := key (aM >>> 2)
      simp only [hbM, swarStepB]
      omega
    -- Step C: add the 4-bit field counts into bytes and mask with 0x0F.
    have hbdiv : (2 ^ 8 * bM + bC) >>> 4
        = 2 ^ 8 * (bM / 16) + (2 ^ 4 * (bM % 16) + bC / 16) := by
      rw [Nat.shiftRight_eq_div_pow]
      omega
    have hlow : bC + (2 ^ 4 * (bM % 16) + bC / 16) < 256 := by omega
    have hbMdiv : bM >>> 4 = bM / 16 := by norm_num [Nat.shiftRight_eq_div_pow]
    have hbCdiv : bC >>> 4 = bC / 16 := by norm_num [Nat.shiftRight_eq_div_pow]
    have hC : swarStepC (repMask 0x0F (k + 1)) (2 ^ 8 * bM + bC)
        = 2 ^ 8 * swarStepC M3 bM + swarStepC 0x0F bC := by
      simp only [swarStepC, hbMdiv, hbCdiv]
      rw [hbdiv]
      have hsum : 2 ^ 8 * bM + bC + (2 ^ 8 * (bM / 16) + (2 ^ 4 * (bM % 16) + bC / 16))
          = 2 ^ 8 * (bM + bM / 16) + (bC + (2 ^ 4 * (bM % 16) + bC / 16)) := by ring
      have hL1 := land_chunk 8 (bM + bM / 16) M3 (x := bC + (2 ^ 4 * (bM % 16) + bC / 16))
        (y := 0x0F) hlow (by omega)
      rw [hsum, hrep3, hL1]
      congr 1
      have e15 : (0x0F : Nat) = 15 := by norm_num
      rw [e15, hand15, hand15]
      omega
    -- Assemble the three steps and apply the inductive hypothesis.
    have hfinal : swarBytes (repMask 0x55 (k + 1)) (repMask 0x33 (k + 1)) (repMask 0x0F (k + 1)) n
        = 2 ^ 8 * swarBytes M1 M2 M3 m + swarBytes 0x55 0x33 0x0F c := by
      simp only [swarBytes, hA, hB, hC]
    rw [hfinal, ih m hm, swarBytes_byte c hc]
    show _ = countOnes (n % 256) + 256 * bytePC k (n / 256)
    rw [← hc_def, ← hm_def]
    ring

set_option maxRecDepth 4000 in
theorem countOnes_byte_le : ∀ c, c < 256 → countOnes c ≤ 8 := by
  decide

theorem countOnes_split256 (n : Nat) :
    countOnes n = countOnes (n / 256) + countOnes (n % 256) := by
  have h := countOnes_two_pow_mul_add 8 (n / 256) (n % 256) (by omega)
  have hn : 2 ^ 8 * (n / 256) + n % 256 = n := by omega
  rw [hn] at h
  exact h

/-- The source's SWAR `popCount` agrees with the reference `countOnes` on all
32-bit inputs. -/
theorem popCount_eq_countOnes {n : Nat} (hn : n < 4294967296) : popCount n = countOnes n := by
  have hswar : swarBytes 0x55555555 0x33333333 0xF0F0F0F n = bytePC 4 n := by
    have h := swarBytes_eq_bytePC 4 n (by norm_num; omega)
    have e1 : repMask 0x55 4 = 0x55555555 := by norm_num [repMask]
    have e2 : repMask 0x33 4 = 0x33333333 := by norm_num [repMask]
    have e3 : repMask 0x0F 4 = 0xF0F0F0F := by norm_num [repMask]
    rw [e1, e2, e3] at h
    exact h
  set C0 := countOnes (n % 256) with hC0
  set C1 := countOnes (n / 256 % 256) with hC1
  set C2 := countOnes (n / 256 / 256 % 256) with hC2
  set C3 := countOnes (n / 256 / 256 / 256 % 256) with hC3
  have hb0 : C0 ≤ 8 := countOnes_byte_le _ (by omega)
  have hb1 : C1 ≤ 8 := countOnes_byte_le _ (by omega)
  have hb2 : C2 ≤ 8 := countOnes_byte_le _ (by omega)
  have hb3 : C3 ≤ 8 := countOnes_byte_le _ (by omega)
  have hbpc : bytePC 4 n = C0 + 256 * C1 + 65536 * C2 + 16777216 * C3 := by
    show countOnes (n % 256) + 256 * (countOnes (n / 256 % 256) + 256 *
        (countOnes (n / 256 / 256 % 256) + 256 * (countOnes (n / 256 / 256 / 256 % 256) + 256 * 0)))
      = _
    rw [← hC0, ← hC1, ← hC2, ← hC3]
    ring
  have hco : countOnes n = C0 + C1 + C2 + C3 := by
    have e0 := countOnes_split256 n
    have e1 := countOnes_split256 (n / 256)
    have e2 := countOnes_split256 (n / 256 / 256)
    have e4 : n / 256 / 256 / 256 < 256 := by omega
    have e3 : countOnes (n / 256 / 256 / 256)
        = countOnes (n / 256 / 256 / 256 % 256) := by
      rw [Nat.mod_eq_of_lt e4]
    omega
  have hX : (C0 + 256 * C1 + 65536 * C2 + 16777216 * C3) * 0x1010101
      = ((C0 + C1 + C2 + C3) * 16777216 + (C0 + C1 + C2) * 65536 + (C0 + C1) * 256 + C0)
        + 4294967296 * ((C1 + C2 + C3) + 256 * (C2 + C3) + 65536 * C3) := by ring
  have hmod : (C0 + 256 * C1 + 65536 * C2 + 16777216 * C3) * 0x1010101 % 4294967296
      = (C0 + C1 + C2 + C3) * 16777216 + (C0 + C1 + C2) * 65536 + (C0 + C1) * 256 + C0 := by
    rw [hX, Nat.add_mul_mod_self_left]
    apply Nat.mod_eq_of_lt
    omega
  have hdivv : ((C0 + C1 + C2 + C3) * 16777216 + (C0 + C1 + C2) * 65536 + (C0 + C1) * 256 + C0)
      / 16777216 = C0 + C1 + C2 + C3 := by omega
  have hpc : popCount n
      = ((swarBytes 0x55555555 0x33333333 0xF0F0F0F n * 0x1010101) % 4294967296) >>> 24 := rfl
  rw [hpc, hswar, hbpc, hco, Nat.shiftRight_eq_div_pow, hmod]
  norm_num
  exact hdivv

/-! ### Bit-index bookkeeping for the trie invariant

The HAMT stores the data of mask bit `i` at array position
`popCount (mask >>> (i+1))`, the number of set bits strictly *above* `i`
(the arrays are ordered by descending bit position).  `bitsAbove` is the
reference version of that index, `bitsBelow` the count of set bits strictly
below `i` (which the specification claims is the index). -/

/-- Number of set bits of `mask` strictly above bit `i`. -/
def bitsAbove (mask i : Nat) : Nat :=
  countOnes (mask >>> (i + 1))

theorem checkBit_eq_testBit (n i : Nat) : checkBit n i = Nat.testBit n i := by
  simp only [checkBit, Nat.testBit_to_div_mod, Nat.shiftRight_eq_div_pow]
  rcases Nat.mod_two_eq_zero_or_one (n / 2 ^ i) with h | h <;>
    simp [Nat.and_one_is_mod, h]

theorem countOnes_lt_two (e : Nat) (he : e < 2) : countOnes e = e := by
  interval_cases e <;> rfl

theorem countOnes_split (mask i : Nat) :
    countOnes mask
      = countOnes (mask >>> (i + 1)) + (if Nat.testBit mask i then 1 else 0)
        + countOnes (mask % 2 ^ i) := by
  have h1 : 2 ^ (i + 1) * (mask / 2 ^ (i + 1)) + mask % 2 ^ (i + 1) = mask :=
    Nat.div_add_mod mask (2 ^ (i + 1))
  have h2 : countOnes mask = countOnes (mask / 2 ^ (i + 1)) + countOnes (mask % 2 ^ (i + 1)) := by
    conv_lhs => rw [← h1]
    exact countOnes_two_pow_mul_add _ _ _ (Nat.mod_lt _ (Nat.two_pow_pos _))
  have h3 : mask % 2 ^ (i + 1) = 2 ^ i * (mask / 2 ^ i % 2) + mask % 2 ^ i := by
    have hm : mask % (2 ^ i * 2) = mask % 2 ^ i + 2 ^ i * (mask / 2 ^ i % 2) := Nat.mod_mul
    have hp : (2 : Nat) ^ (i + 1) = 2 ^ i * 2 := by ring
    rw [hp, hm]
    omega
  have h4 : countOnes (mask % 2 ^ (i + 1))
      = mask / 2 ^ i % 2 + countOnes (mask % 2 ^ i) := by
    rw [h3, countOnes_two_pow_mul_add _ _ _ (Nat.mod_lt _ (Nat.two_pow_pos _)),
        countOnes_lt_two _ (Nat.mod_lt _ (by omega))]
  have h5 : Nat.testBit mask i = decide (mask / 2 ^ i % 2 = 1) := Nat.testBit_to_div_mod
  have h6 : mask >>> (i + 1) = mask / 2 ^ (i + 1) := Nat.shiftRight_eq_div_pow _ _
  rcases Nat.mod_two_eq_zero_or_one (mask / 2 ^ i) with h | h <;> simp [h5, h, h6] <;> omega

theorem shiftRight_or (x y k : Nat) : (x ||| y) >>> k = (x >>> k) ||| (y >>> k) := by
  apply Nat.eq_of_testBit_eq
  intro j
  simp [Nat.testBit_or]

theorem two_pow_shiftRight_of_le {b k : Nat} (h : k ≤ b) : (2 ^ b) >>> k = 2 ^ (b - k) := by
  rw [Nat.shiftRight_eq_div_pow]
  exact Nat.pow_div h (by omega)

theorem two_pow_shiftRight_of_gt {b k : Nat} (h : b < k) : (2 ^ b) >>> k = 0 := by
  rw [Nat.shiftRight_eq_div_pow]
  exact Nat.div_eq_of_lt (Nat.pow_lt_pow_right (by omega) h)

/-- Setting a clear bit adds one to the popcount. -/
theorem countOnes_or_two_pow {mask b : Nat} (h : Nat.testBit mask b = false) :
    countOnes (mask ||| 2 ^ b) = countOnes mask + 1 := by
  have hs : (mask ||| 2 ^ b) >>> (b + 1) = mask >>> (b + 1) := by
    rw [shiftRight_or, two_pow_shiftRight_of_gt (by omega)]
    simp
  have hm : (mask ||| 2 ^ b) % 2 ^ b = mask % 2 ^ b := by
    apply Nat.eq_of_testBit_eq
    intro j
    simp only [Nat.testBit_mod_two_pow, Nat.testBit_or]
    by_cases hj : j < b
    · simp [hj, Nat.testBit_two_pow_of_ne (by omega : b ≠ j)]
    · simp [hj]
  have hb : Nat.testBit (mask ||| 2 ^ b) b = true := by
    simp [Nat.testBit_or, Nat.testBit_two_pow_self]
  have e1 := countOnes_split (mask ||| 2 ^ b) b
  rw [hs, hm, hb] at e1
  simp at e1
  have e2 := countOnes_split mask b
  rw [h] at e2
  simp at e2
  omega

theorem bitsAbove_or_of_ge {mask b j : Nat} (h : b ≤ j) :
    bitsAbove (mask ||| 2 ^ b) j = bitsAbove mask j := by
  unfold bitsAbove
  rw [shiftRight_or, two_pow_shiftRight_of_gt (by omega)]
  simp

theorem bitsAbove_or_of_lt {mask b j : Nat} (hj : j < b) (h : Nat.testBit mask b = false) :
    bitsAbove (mask ||| 2 ^ b) j = bitsAbove mask j + 1 := by
  unfold bitsAbove
  rw [shiftRight_or, two_pow_shiftRight_of_le (by omega)]
  apply countOnes_or_two_pow
  simp [Nat.testBit_shiftRight]
  have e : j + 1 + (b - (j + 1)) = b := by omega
  rw [e, h]

/-- `countOnes` splits across a shift: the bits above `i` of `mask` are the
bit `j` of `mask >>> (i+1)` picture.  Used to compare the array positions of
two different bits. -/
theorem bitsAbove_split {mask i j : Nat} (hij : i < j) :
    bitsAbove mask i
      = bitsAbove mask j + (if Nat.testBit mask j then 1 else 0)
        + countOnes ((mask >>> (i + 1)) % 2 ^ (j - i - 1)) := by
  have h := countOnes_split (mask >>> (i + 1)) (j - i - 1)
  have hs : (mask >>> (i + 1)) >>> (j - i - 1 + 1) = mask >>> (j + 1) := by
    rw [← Nat.shiftRight_add]
    congr 1
    omega
  have ht : Nat.testBit (mask >>> (i + 1)) (j - i - 1) = Nat.testBit mask j := by
    rw [Nat.testBit_shiftRight]
    congr 1
    omega
  rw [hs, ht] at h
  exact h

theorem bitsAbove_lt_of_testBit {mask i : Nat} (h : Nat.testBit mask i = true) :
    bitsAbove mask i < countOnes mask := by
  have hsp := countOnes_split mask i
  rw [h] at hsp
  simp at hsp
  unfold bitsAbove
  omega

theorem bitsAbove_le (mask i : Nat) : bitsAbove mask i ≤ countOnes mask := by
  have := countOnes_split mask i
  unfold bitsAbove
  by_cases h : Nat.testBit mask i <;> simp [h] at this <;> omega

theorem bitsAbove_lt_of_lt {mask i j : Nat} (hij : i < j) (hj : Nat.testBit mask j = true) :
    bitsAbove mask j < bitsAbove mask i := by
  have := @bitsAbove_split mask i j hij
  rw [hj] at this
  simp at this
  omega

theorem bitsAbove_le_of_lt {mask i j : Nat} (hij : i < j) :
    bitsAbove mask j ≤ bitsAbove mask i := by
  have := @bitsAbove_split mask i j hij
  by_cases h : Nat.testBit mask j <;> simp [h] at this <;> omega

/-- Distinct set bits occupy distinct array positions. -/
theorem bitsAbove_injective {mask i j : Nat} (hi : Nat.testBit mask i = true)
    (hj : Nat.testBit mask j = true) (hne : i ≠ j) :
    bitsAbove mask i ≠ bitsAbove mask j := by
  rcases Nat.lt_or_ge i j with h | h
  · have := bitsAbove_lt_of_lt h hj
    omega
  · have := bitsAbove_lt_of_lt (by omega : j < i) hi
    omega

theorem countOnes_two_pow (b : Nat) : countOnes (2 ^ b) = 1 := by
  have h := countOnes_two_pow_mul_add b 1 0 (Nat.two_pow_pos _)
  simp at h
  rw [h]
  rfl

theorem bitsAbove_two_pow_self (b : Nat) : bitsAbove (2 ^ b) b = 0 := by
  unfold bitsAbove
  rw [two_pow_shiftRight_of_gt (by omega)]
  rfl

/-! ### Indexing facts for `copyInsert` -/

theorem copyInsertGo_skip (e : α) (p : Nat) :
    ∀ (l : List α) (i : Nat), p < i → copyInsertGo e p l i = l := by
  intro l
  induction l with
  | nil =>
    intro i hi
    simp only [copyInsertGo]
    rw [if_neg (by omega : ¬ p = i)]
  | cons a rest ih =>
    intro i hi
    simp only [copyInsertGo, if_neg (by omega : ¬ i = p)]
    rw [ih (i + 1) (by omega)]

theorem copyInsertGo_eq (e : α) :
    ∀ (l : List α) (p i : Nat), i ≤ p → p - i ≤ l.length →
      copyInsertGo e p l i = l.take (p - i) ++ e :: l.drop (p - i) := by
  intro l
  induction l with
  | nil =>
    intro p i h1 h2
    simp only [List.length_nil] at h2
    have hpi : p = i := by omega
    simp [copyInsertGo, hpi]
  | cons a rest ih =>
    intro p i h1 h2
    by_cases hip : i = p
    · simp only [copyInsertGo, if_pos hip, copyInsertGo_skip e p rest (i + 1) (by omega)]
      have : p - i = 0 := by omega
      simp [this]
    · have hlt : i < p := by omega
      simp only [copyInsertGo, if_neg hip]
      rw [ih p (i + 1) (by omega) (by simp at h2 ⊢; omega)]
      have hsub : p - i = (p - (i + 1)) + 1 := by omega
      rw [hsub]
      simp [List.take_succ_cons, List.drop_succ_cons]

theorem copyInsert_eq (e : α) (l : List α) (p : Nat) (hp : p ≤ l.length) :
    copyInsert e p l = l.take p ++ e :: l.drop p := by
  unfold copyInsert
  rw [copyInsertGo_eq e l p 0 (by omega) (by omega)]
  simp

theorem copyInsert_length (e : α) (l : List α) (p : Nat) (hp : p ≤ l.length) :
    (copyInsert e p l).length = l.length + 1 := by
  rw [copyInsert_eq e l p hp]
  simp
  omega

theorem copyInsert_getElem? (e : α) (l : List α) (p q : Nat) (hp : p ≤ l.length) :
    (copyInsert e p l)[q]? =
      if q < p then l[q]? else if q = p then some e else l[q - 1]? := by
  rw [copyInsert_eq e l p hp]
  by_cases h1 : q < p
  · rw [List.getElem?_append_left (by simp; omega)]
    simp [List.getElem?_take_of_lt h1, h1]
  · rw [List.getElem?_append_right (by simp; omega)]
    by_cases h2 : q = p
    · subst h2
      simp [h1, Nat.min_eq_left hp, Nat.sub_self]
    · have hq : q - (l.take p).length = (q - p - 1) + 1 := by simp; omega
      rw [hq]
      simp only [List.getElem?_cons_succ, List.getElem?_drop]
      have : p + (q - p - 1) = q - 1 := by omega
      rw [this]
      simp [h1, h2]

/-! ### The well-formedness invariant of reachable tries -/

/-- The `stage`-th five-bit chunk of a hash (the value of `getNthPrefix` for
stages 0 to 5). -/
def prefixAt (h s : Nat) : Nat :=
  (h >>> (5 * s)) &&& 31

theorem getNthPrefix'_eq {h s : Nat} (hs : s ≤ 5) :
    getNthPrefix' h s = some (prefixAt h s) := by
  unfold getNthPrefix' prefixAt
  rw [if_neg (by omega)]

theorem prefixAt_le (h s : Nat) : prefixAt h s ≤ 31 :=
  Nat.and_le_right

/-- The index expression of `get`/`set` (`bitIndex === 31 ? 0 : popCount(mask
>>> (bitIndex + 1))`) is the number of set bits strictly above `bitIndex`. -/
theorem childIndex_eq {mask b : Nat} (hmask : mask < 4294967296) (hb : b ≤ 31) :
    (if b == 31 then 0 else popCount (mask >>> (b + 1))) = bitsAbove mask b := by
  by_cases h : b = 31
  · subst h
    have h32 : mask >>> 32 = 0 := by
      rw [Nat.shiftRight_eq_div_pow]
      apply Nat.div_eq_of_lt
      calc mask < 4294967296 := hmask
        _ ≤ 2 ^ 32 := by norm_num
    simp [bitsAbove, h32, countOnes_zero]
  · have hlt : mask >>> (b + 1) < 4294967296 :=
      lt_of_le_of_lt (by rw [Nat.shiftRight_eq_div_pow]; exact Nat.div_le_self _ _) hmask
    simp [h, bitsAbove, popCount_eq_countOnes hlt]

theorem getAux_step {V : Type} (key : String) (hash fuel stage mask : Nat)
    (keys : List String) (values : List V) (nexts : List (Option (HNode V)))
    (hst : stage ≤ 5) (hmask : mask < 4294967296) :
    getAux key hash (fuel + 1) stage (.mk mask keys values nexts)
      = if Nat.testBit mask (prefixAt hash stage) then
          (if keys[bitsAbove mask (prefixAt hash stage)]? = some key then
            Except.ok values[bitsAbove mask (prefixAt hash stage)]?
          else
            match nexts[bitsAbove mask (prefixAt hash stage)]? with
            | some (some child) => getAux key hash fuel (stage + 1) child
            | some none => Except.ok none
            | none => Except.error "TypeError")
        else Except.ok none := by
  simp only [getAux, getNthPrefix'_eq hst, checkBit_eq_testBit,
    childIndex_eq hmask (prefixAt_le hash stage)]

theorem setAux_step {V : Type} (key : String) (value : V) (hash fuel stage mask : Nat)
    (keys : List String) (values : List V) (nexts : List (Option (HNode V)))
    (hst : stage ≤ 5) (hmask : mask < 4294967296) :
    setAux key value hash (fuel + 1) stage (.mk mask keys values nexts)
      = if Nat.testBit mask (prefixAt hash stage) then
          (if keys[bitsAbove mask (prefixAt hash stage)]? = some key then
            Except.ok (.mk mask keys (values.set (bitsAbove mask (prefixAt hash stage)) value) nexts, false)
          else
            match nexts[bitsAbove mask (prefixAt hash stage)]? with
            | none => Except.error "Bad childIndex"
            | some c =>
              match setAux key value hash fuel (stage + 1)
                  (match c with
                   | none => HNode.mk 0 [] [] []
                   | some child => child) with
              | Except.error e => Except.error e
              | Except.ok (c', isNewKey) =>
                Except.ok (.mk mask keys values
                  (nexts.set (bitsAbove mask (prefixAt hash stage)) (some c')), isNewKey))
        else
          Except.ok (.mk (mask ||| 2 ^ prefixAt hash stage)
            (copyInsert key (bitsAbove mask (prefixAt hash stage)) keys)
            (copyInsert value (bitsAbove mask (prefixAt hash stage)) values)
            (copyInsert none (bitsAbove mask (prefixAt hash stage)) nexts), true) := by
  simp only [setAux, getNthPrefix'_eq hst, checkBit_eq_testBit,
    childIndex_eq hmask (prefixAt_le hash stage), setBit, Nat.one_shiftLeft]

/-- Whether the insertion of `key` stays within hash stages 0 to 5 (no descent
into a seventh stage).  Mirrors the branch structure of `setAux`: an insertion
does not fit exactly when the descent meets, at stage 5, an occupied slot
holding a different key (or would throw `Bad childIndex`). -/
def fitsAux (key : String) (hash : Nat) : Nat → Nat → HNode V → Bool
  | 0, _, _ => false
  | fuel + 1, stage, .mk mask keys _ nexts =>
    let cb : Bool := match getNthPrefix' hash stage with
      | some bitIndex => checkBit mask bitIndex
      | none => checkBit mask 0
    let childIndex : Nat := match getNthPrefix' hash stage with
      | some bitIndex => if bitIndex == 31 then 0 else popCount (mask >>> (bitIndex + 1))
      | none => popCount (mask >>> 0)
    if cb then
      if keys[childIndex]? = some key then true
      else
        match nexts[childIndex]? with
        | none => false
        | some none => decide (stage + 1 ≤ 5)
        | some (some child) => fitsAux key hash fuel (stage + 1) child
    else
      true

theorem fitsAux_step {V : Type} (key : String) (hash fuel stage mask : Nat)
    (keys : List String) (values : List V) (nexts : List (Option (HNode V)))
    (hst : stage ≤ 5) (hmask : mask < 4294967296) :
    fitsAux key hash (fuel + 1) stage (HNode.mk (V := V) mask keys values nexts)
      = if Nat.testBit mask (prefixAt hash stage) then
          (if keys[bitsAbove mask (prefixAt hash stage)]? = some key then true
          else
            match nexts[bitsAbove mask (prefixAt hash stage)]? with
            | none => false
            | some none => decide (stage + 1 ≤ 5)
            | some (some child) => fitsAux key hash fuel (stage + 1) child)
        else true := by
  simp only [fitsAux, getNthPrefix'_eq hst, checkBit_eq_testBit,
    childIndex_eq hmask (prefixAt_le hash stage)]

/-- `fits m key`: inserting `key` into `m` stays within hash stages 0 to 5.
Always true unless seven keys share all 30 consumed hash bits. -/
def HAMT.fits (m : HAMT V) (key : String) : Bool :=
  fitsAux key (hashString key) 64 0 m.root

/-- Well-formedness of a trie node at `stage` under the path constraint `P`:
the masks are 32-bit, the three arrays have length `popCount mask`, the slot
of set bit `i` sits at array index `bitsAbove mask i` and holds a key whose
stage-`stage` hash chunk is `i`, and children satisfy the same invariant one
stage deeper (so nodes live at stages 0 to 5 only). -/
inductive HWF {V : Type} : Nat → (String → Prop) → HNode V → Prop where
  | mk {stage : Nat} {P : String → Prop} {mask : Nat} {keys : List String}
      {values : List V} {nexts : List (Option (HNode V))}
      (hstage : stage ≤ 5)
      (hmask : mask < 4294967296)
      (hklen : keys.length = countOnes mask)
      (hvlen : values.length = countOnes mask)
      (hnlen : nexts.length = countOnes mask)
      (hkeys : ∀ i, i ≤ 31 → Nat.testBit mask i = true →
        ∃ k, keys[bitsAbove mask i]? = some k ∧ P k ∧ prefixAt (hashString k) stage = i)
      (hchild : ∀ i, i ≤ 31 → Nat.testBit mask i = true → ∀ child,
        nexts[bitsAbove mask i]? = some (some child) →
          HWF (stage + 1) (fun k => P k ∧ prefixAt (hashString k) stage = i) child) :
      HWF stage P (.mk mask keys values nexts)

/-- Well-formedness of a whole map value. -/
def HamtWF (m : HAMT V) : Prop :=
  HWF 0 (fun _ => True) m.root

theorem empty_wf : HamtWF (HAMT.empty V) := by
  refine HWF.mk (by omega) (by norm_num) rfl rfl rfl ?_ ?_
  · intro i _ hbit
    simp [Nat.zero_testBit] at hbit
  · intro i _ hbit
    simp [Nat.zero_testBit] at hbit

theorem setAux_fresh {V : Type} (key : String) (value : V) (hash fuel stage : Nat)
    (hst : stage ≤ 5) :
    setAux key value hash (fuel + 1) stage (.mk 0 [] [] [])
      = .ok (.mk (2 ^ prefixAt hash stage) [key] [value] [none], true) := by
  rw [setAux_step key value hash fuel stage 0 [] [] [] hst (by norm_num)]
  rw [if_neg (by simp [Nat.zero_testBit])]
  simp [bitsAbove, Nat.zero_shiftRight, countOnes_zero, copyInsert, copyInsertGo]

theorem two_pow_le_31_lt (b : Nat) (hb : b ≤ 31) : 2 ^ b < 4294967296 := by
  calc 2 ^ b ≤ 2 ^ 31 := Nat.pow_le_pow_right (by omega) hb
    _ < 4294967296 := by norm_num

theorem getAux_singleton_same {V : Type} (key : String) (value : V) (fuel stage : Nat)
    (hst : stage ≤ 5) :
    getAux key (hashString key) (fuel + 1) stage
      (.mk (2 ^ prefixAt (hashString key) stage) [key] [value] [none])
      = .ok (some value) := by
  rw [getAux_step key _ fuel stage _ _ _ _ hst
    (two_pow_le_31_lt _ (prefixAt_le _ _))]
  rw [if_pos Nat.testBit_two_pow_self, bitsAbove_two_pow_self]
  simp

theorem getAux_singleton_other {V : Type} (key key2 : String) (value : V) (fuel stage : Nat)
    (hst : stage ≤ 5) (hne : key2 ≠ key) :
    getAux key2 (hashString key2) (fuel + 1) stage
      (.mk (2 ^ prefixAt (hashString key) stage) [key] [value] [none])
      = .ok none := by
  rw [getAux_step key2 _ fuel stage _ _ _ _ hst
    (two_pow_le_31_lt _ (prefixAt_le _ _))]
  by_cases h : Nat.testBit (2 ^ prefixAt (hashString key) stage)
      (prefixAt (hashString key2) stage) = true
  · have hbb : prefixAt (hashString key) stage = prefixAt (hashString key2) stage := by
      rw [Nat.testBit_two_pow] at h
      exact of_decide_eq_true h
    rw [if_pos h, ← hbb, bitsAbove_two_pow_self]
    rw [if_neg (by simp; intro hcontra; exact hne hcontra.symm)]
    rfl
  · rw [if_neg h]

theorem singleton_wf {V : Type} (key : String) (value : V) (stage : Nat) (P : String → Prop)
    (hst : stage ≤ 5) (hP : P key) :
    HWF stage P (.mk (2 ^ prefixAt (hashString key) stage) [key] [value] [none]) := by
  refine HWF.mk hst (two_pow_le_31_lt _ (prefixAt_le _ _)) ?_ ?_ ?_ ?_ ?_
  · simp [countOnes_two_pow]
  · simp [countOnes_two_pow]
  · simp [countOnes_two_pow]
  · intro i hi31 hbit
    rw [Nat.testBit_two_pow] at hbit
    have hib : prefixAt (hashString key) stage = i := of_decide_eq_true hbit
    refine ⟨key, ?_, hP, hib⟩
    rw [← hib, bitsAbove_two_pow_self]
    rfl
  · intro i hi31 hbit child hchild
    rw [Nat.testBit_two_pow] at hbit
    have hib : prefixAt (hashString key) stage = i := of_decide_eq_true hbit
    rw [← hib, bitsAbove_two_pow_self] at hchild
    simp at hchild

theorem copyInsert_getElem?_self (e : α) (l : List α) (p : Nat) (hp : p ≤ l.length) :
    (copyInsert e p l)[p]? = some e := by
  rw [copyInsert_getElem? e l p p hp, if_neg (by omega), if_pos rfl]

theorem copyInsert_getElem?_lt (e : α) (l : List α) (p q : Nat) (hp : p ≤ l.length)
    (h : q < p) : (copyInsert e p l)[q]? = l[q]? := by
  rw [copyInsert_getElem? e l p q hp, if_pos h]

theorem copyInsert_getElem?_gt (e : α) (l : List α) (p q : Nat) (hp : p ≤ l.length)
    (h : p < q) : (copyInsert e p l)[q]? = l[q - 1]? := by
  rw [copyInsert_getElem? e l p q hp, if_neg (by omega), if_neg (by omega)]

/-- Main workhorse: on a well-formed subtrie, a fitting insertion succeeds,
preserves well-formedness, makes `get` of the inserted key return the new
value, and leaves `get` of every other key unchanged. -/
theorem setAux_master {V : Type} (key : String) (value : V) :
    ∀ (fuel stage : Nat) (P : String → Prop) (node : HNode V),
      HWF stage P node → P key → 8 ≤ stage + fuel →
      fitsAux key (hashString key) fuel stage node = true →
      ∃ (node' : HNode V) (isNew : Bool),
        setAux key value (hashString key) fuel stage node = .ok (node', isNew) ∧
        HWF stage P node' ∧
        (∀ f2, 8 ≤ stage + f2 →
          getAux key (hashString key) f2 stage node' = .ok (some value)) ∧
        (∀ key2 f2, key2 ≠ key → 8 ≤ stage + f2 →
          getAux key2 (hashString key2) f2 stage node'
            = getAux key2 (hashString key2) f2 stage node) := by
  intro fuel
  induction fuel with
  | zero =>
    intro stage P node hwf hP hfuel hfits
    cases hwf with
    | mk hstage hmask hklen hvlen hnlen hkeys hchild => omega
  | succ fuel ih =>
    intro stage P node hwf hP hfuel hfits
    cases hwf with
    | mk hstage hmask hklen hvlen hnlen hkeys hchild =>
    rename_i mask keys values nexts
    have hb31 : prefixAt (hashString key) stage ≤ 31 := prefixAt_le _ _
    have hmask' : mask ||| 2 ^ prefixAt (hashString key) stage < 4294967296 := by
      have h1 : mask < 2 ^ 32 := by norm_num at hmask ⊢; omega
      have h2 : 2 ^ prefixAt (hashString key) stage < 2 ^ 32 := by
        have := two_pow_le_31_lt _ hb31
        norm_num
        omega
      have := Nat.or_lt_two_pow h1 h2
      norm_num at this ⊢
      omega
    rw [fitsAux_step key (hashString key) fuel stage mask keys values nexts hstage hmask] at hfits
    rw [setAux_step key value (hashString key) fuel stage mask keys values nexts hstage hmask]
    by_cases hbit : Nat.testBit mask (prefixAt (hashString key) stage) = true
    · rw [if_pos hbit] at hfits ⊢
      have hcilt : bitsAbove mask (prefixAt (hashString key) stage) < countOnes mask :=
        bitsAbove_lt_of_testBit hbit
      by_cases hkey : keys[bitsAbove mask (prefixAt (hashString key) stage)]? = some key
      · -- Slot holds this very key: overwrite the value in place.
        rw [if_pos hkey]
        refine ⟨_, false, rfl, ?_, ?_, ?_⟩
        · exact HWF.mk hstage hmask hklen (by rw [List.length_set]; exact hvlen) hnlen hkeys hchild
        · intro f2 hf2
          obtain ⟨g, rfl⟩ : ∃ g, f2 = g + 1 := ⟨f2 - 1, by omega⟩
          rw [getAux_step key _ g stage mask keys _ nexts hstage hmask, if_pos hbit, if_pos hkey]
          rw [List.getElem?_set_self (by rw [hvlen]; exact hcilt)]
        · intro key2 f2 hk2 hf2
          obtain ⟨g, rfl⟩ : ∃ g, f2 = g + 1 := ⟨f2 - 1, by omega⟩
          rw [getAux_step key2 _ g stage mask keys _ nexts hstage hmask,
              getAux_step key2 _ g stage mask keys values nexts hstage hmask]
          by_cases hbit2 : Nat.testBit mask (prefixAt (hashString key2) stage) = true
          · rw [if_pos hbit2, if_pos hbit2]
            by_cases hbb : prefixAt (hashString key2) stage = prefixAt (hashString key) stage
            · rw [hbb]
              have hne2 : keys[bitsAbove mask (prefixAt (hashString key) stage)]? ≠ some key2 := by
                rw [hkey]
                intro hcontra
                exact hk2 (Option.some.inj hcontra).symm
              rw [if_neg hne2, if_neg hne2]
            · have hcine : bitsAbove mask (prefixAt (hashString key2) stage)
                  ≠ bitsAbove mask (prefixAt (hashString key) stage) :=
                bitsAbove_injective hbit2 hbit hbb
              rw [List.getElem?_set_ne (Ne.symm hcine)]
          · rw [if_neg hbit2, if_neg hbit2]
      · -- Slot occupied by a different key.
        rw [if_neg hkey] at hfits ⊢
        rcases hnx : nexts[bitsAbove mask (prefixAt (hashString key) stage)]? with _ | c
        · rw [hnx] at hfits
          simp at hfits
        · rcases c with _ | child
          · -- Null child: a fresh empty node is created and filled one stage deeper.
            rw [hnx] at hfits
            have hs5 : stage + 1 ≤ 5 := by
              simpa using hfits
            obtain ⟨g, rfl⟩ : ∃ g, fuel = g + 1 := ⟨fuel - 1, by omega⟩
            simp only [setAux_fresh key value (hashString key) g (stage + 1) hs5]
            refine ⟨_, true, rfl, ?_, ?_, ?_⟩
            · refine HWF.mk hstage hmask hklen hvlen (by rw [List.length_set]; exact hnlen)
                hkeys ?_
              intro i hi31 hbiti child' hchild'
              by_cases hib : i = prefixAt (hashString key) stage
              · subst hib
                rw [List.getElem?_set_self (by rw [hnlen]; exact hcilt)] at hchild'
                have hch : child' = HNode.mk (2 ^ prefixAt (hashString key) (stage + 1))
                    [key] [value] [none] := by
                  exact (Option.some.inj (Option.some.inj hchild')).symm
                subst hch
                exact singleton_wf key value (stage + 1) _ hs5 ⟨hP, rfl⟩
              · have hcine : bitsAbove mask i
                    ≠ bitsAbove mask (prefixAt (hashString key) stage) :=
                  bitsAbove_injective hbiti hbit hib
                rw [List.getElem?_set_ne (Ne.symm hcine)] at hchild'
                exact hchild i hi31 hbiti child' hchild'
            · intro f2 hf2
              obtain ⟨g2, rfl⟩ : ∃ g2, f2 = g2 + 1 := ⟨f2 - 1, by omega⟩
              rw [getAux_step key _ g2 stage mask keys values _ hstage hmask, if_pos hbit,
                  if_neg hkey, List.getElem?_set_self (by rw [hnlen]; exact hcilt)]
              obtain ⟨g3, rfl⟩ : ∃ g3, g2 = g3 + 1 := ⟨g2 - 1, by omega⟩
              exact getAux_singleton_same key value g3 (stage + 1) hs5
            · intro key2 f2 hk2 hf2
              obtain ⟨g2, rfl⟩ : ∃ g2, f2 = g2 + 1 := ⟨f2 - 1, by omega⟩
              rw [getAux_step key2 _ g2 stage mask keys values _ hstage hmask,
                  getAux_step key2 _ g2 stage mask keys values nexts hstage hmask]
              by_cases hbit2 : Nat.testBit mask (prefixAt (hashString key2) stage) = true
              · rw [if_pos hbit2, if_pos hbit2]
                by_cases hbb : prefixAt (hashString key2) stage = prefixAt (hashString key) stage
                · rw [hbb]
                  by_cases hk2eq : keys[bitsAbove mask (prefixAt (hashString key) stage)]?
                      = some key2
                  · rw [if_pos hk2eq, if_pos hk2eq]
                  · rw [if_neg hk2eq, if_neg hk2eq, hnx,
                        List.getElem?_set_self (by rw [hnlen]; exact hcilt)]
                    obtain ⟨g3, rfl⟩ : ∃ g3, g2 = g3 + 1 := ⟨g2 - 1, by omega⟩
                    exact getAux_singleton_other key key2 value g3 (stage + 1) hs5 hk2
                · have hcine : bitsAbove mask (prefixAt (hashString key2) stage)
                      ≠ bitsAbove mask (prefixAt (hashString key) stage) :=
                    bitsAbove_injective hbit2 hbit hbb
                  rw [List.getElem?_set_ne (Ne.symm hcine)]
              · rw [if_neg hbit2, if_neg hbit2]
          · -- Existing child: recurse one stage deeper.
            rw [hnx] at hfits
            have hfits' : fitsAux key (hashString key) fuel (stage + 1) child = true := hfits
            have hwfc := hchild (prefixAt (hashString key) stage) hb31 hbit child hnx
            obtain ⟨child', isNew, hsetc, hwfc', hgetc, hget2c⟩ :=
              ih (stage + 1)
                (fun k => P k ∧ prefixAt (hashString k) stage = prefixAt (hashString key) stage)
                child hwfc ⟨hP, rfl⟩ (by omega) hfits'
            refine ⟨HNode.mk mask keys values
              (nexts.set (bitsAbove mask (prefixAt (hashString key) stage)) (some child')),
              isNew, ?_, ?_, ?_, ?_⟩
            · show (match setAux key value (hashString key) fuel (stage + 1) child with
                | Except.error e => Except.error e
                | Except.ok (c', isNewKey) =>
                  Except.ok (HNode.mk mask keys values
                    (nexts.set (bitsAbove mask (prefixAt (hashString key) stage)) (some c')),
                    isNewKey)) = _
              rw [hsetc]
            · refine HWF.mk hstage hmask hklen hvlen (by rw [List.length_set]; exact hnlen)
                hkeys ?_
              intro i hi31 hbiti child'' hchild''
              by_cases hib : i = prefixAt (hashString key) stage
              · subst hib
                rw [List.getElem?_set_self (by rw [hnlen]; exact hcilt)] at hchild''
                have hch : child'' = child' := (Option.some.inj (Option.some.inj hchild'')).symm
                subst hch
                exact hwfc'
              · have hcine : bitsAbove mask i
                    ≠ bitsAbove mask (prefixAt (hashString key) stage) :=
                  bitsAbove_injective hbiti hbit hib
                rw [List.getElem?_set_ne (Ne.symm hcine)] at hchild''
                exact hchild i hi31 hbiti child'' hchild''
            · intro f2 hf2
              obtain ⟨g2, rfl⟩ : ∃ g2, f2 = g2 + 1 := ⟨f2 - 1, by omega⟩
              rw [getAux_step key _ g2 stage mask keys values _ hstage hmask, if_pos hbit,
                  if_neg hkey, List.getElem?_set_self (by rw [hnlen]; exact hcilt)]
              exact hgetc g2 (by omega)
            · intro key2 f2 hk2 hf2
              obtain ⟨g2, rfl⟩ : ∃ g2, f2 = g2 + 1 := ⟨f2 - 1, by omega⟩
              rw [getAux_step key2 _ g2 stage mask keys values _ hstage hmask,
                  getAux_step key2 _ g2 stage mask keys values nexts hstage hmask]
              by_cases hbit2 : Nat.testBit mask (prefixAt (hashString key2) stage) = true
              · rw [if_pos hbit2, if_pos hbit2]
                by_cases hbb : prefixAt (hashString key2) stage = prefixAt (hashString key) stage
                · rw [hbb]
                  by_cases hk2eq : keys[bitsAbove mask (prefixAt (hashString key) stage)]?
                      = some key2
                  · rw [if_pos hk2eq, if_pos hk2eq]
                  · rw [if_neg hk2eq, if_neg hk2eq, hnx,
                        List.getElem?_set_self (by rw [hnlen]; exact hcilt)]
                    exact hget2c key2 g2 hk2 (by omega)
                · have hcine : bitsAbove mask (prefixAt (hashString key2) stage)
                      ≠ bitsAbove mask (prefixAt (hashString key) stage) :=
                    bitsAbove_injective hbit2 hbit hbb
                  rw [List.getElem?_set_ne (Ne.symm hcine)]
              · rw [if_neg hbit2, if_neg hbit2]
    · -- Unoccupied slot: insert the key/value/null triple here.
      have hbitf : Nat.testBit mask (prefixAt (hashString key) stage) = false := by
        simpa using hbit
      rw [if_neg hbit]
      have hcile : bitsAbove mask (prefixAt (hashString key) stage) ≤ countOnes mask :=
        bitsAbove_le mask _
      have hklen' : bitsAbove mask (prefixAt (hashString key) stage) ≤ keys.length := by
        rw [hklen]; exact hcile
      have hvlen' : bitsAbove mask (prefixAt (hashString key) stage) ≤ values.length := by
        rw [hvlen]; exact hcile
      have hnlen' : bitsAbove mask (prefixAt (hashString key) stage) ≤ nexts.length := by
        rw [hnlen]; exact hcile
      have hnew_bit : Nat.testBit (mask ||| 2 ^ prefixAt (hashString key) stage)
          (prefixAt (hashString key) stage) = true := by
        simp [Nat.testBit_or, Nat.testBit_two_pow_self]
      have hcount' : countOnes (mask ||| 2 ^ prefixAt (hashString key) stage)
          = countOnes mask + 1 := countOnes_or_two_pow hbitf
      have hciB : bitsAbove (mask ||| 2 ^ prefixAt (hashString key) stage)
          (prefixAt (hashString key) stage)
          = bitsAbove mask (prefixAt (hashString key) stage) :=
        bitsAbove_or_of_ge (le_refl _)
      have htrans : ∀ i, i ≠ prefixAt (hashString key) stage →
          Nat.testBit (mask ||| 2 ^ prefixAt (hashString key) stage) i = Nat.testBit mask i := by
        intro i hib
        simp [Nat.testBit_or, Nat.testBit_two_pow_of_ne (fun h => hib h.symm)]
      refine ⟨_, true, rfl, ?_, ?_, ?_⟩
      · refine HWF.mk hstage hmask' ?_ ?_ ?_ ?_ ?_
        · rw [copyInsert_length _ _ _ hklen', hklen, hcount']
        · rw [copyInsert_length _ _ _ hvlen', hvlen, hcount']
        · rw [copyInsert_length _ _ _ hnlen', hnlen, hcount']
        · intro i hi31 hbiti
          by_cases hib : i = prefixAt (hashString key) stage
          · subst hib
            rw [hciB, copyInsert_getElem?_self key keys _ hklen']
            exact ⟨key, rfl, hP, rfl⟩
          · have hbold : Nat.testBit mask i = true := by
              rw [← htrans i hib]; exact hbiti
            obtain ⟨k, hk, hPk, hpk⟩ := hkeys i hi31 hbold
            by_cases hlt : i < prefixAt (hashString key) stage
            · have hpos : bitsAbove (mask ||| 2 ^ prefixAt (hashString key) stage) i
                  = bitsAbove mask i + 1 := bitsAbove_or_of_lt hlt hbitf
              have hge : bitsAbove mask (prefixAt (hashString key) stage)
                  ≤ bitsAbove mask i := bitsAbove_le_of_lt hlt
              rw [hpos, copyInsert_getElem?_gt key keys _ _ hklen' (by omega)]
              simp only [Nat.add_sub_cancel]
              exact ⟨k, hk, hPk, hpk⟩
            · have hgt : prefixAt (hashString key) stage < i := by omega
              have hpos : bitsAbove (mask ||| 2 ^ prefixAt (hashString key) stage) i
                  = bitsAbove mask i := bitsAbove_or_of_ge (by omega)
              have hlt' : bitsAbove mask i < bitsAbove mask (prefixAt (hashString key) stage) :=
                bitsAbove_lt_of_lt hgt hbold
              rw [hpos, copyInsert_getElem?_lt key keys _ _ hklen' hlt']
              exact ⟨k, hk, hPk, hpk⟩
        · intro i hi31 hbiti child' hchild'
          by_cases hib : i = prefixAt (hashString key) stage
          · subst hib
            rw [hciB, copyInsert_getElem?_self (none : Option (HNode V)) nexts _ hnlen']
              at hchild'
            exact absurd (Option.some.inj hchild') (by simp)
          · have hbold : Nat.testBit mask i = true := by
              rw [← htrans i hib]; exact hbiti
            by_cases hlt : i < prefixAt (hashString key) stage
            · have hpos : bitsAbove (mask ||| 2 ^ prefixAt (hashString key) stage) i
                  = bitsAbove mask i + 1 := bitsAbove_or_of_lt hlt hbitf
              have hge : bitsAbove mask (prefixAt (hashString key) stage)
                  ≤ bitsAbove mask i := bitsAbove_le_of_lt hlt
              rw [hpos, copyInsert_getElem?_gt (none : Option (HNode V)) nexts _ _ hnlen'
                (by omega)] at hchild'
              simp only [Nat.add_sub_cancel] at hchild'
              exact hchild i hi31 hbold child' hchild'
            · have hgt : prefixAt (hashString key) stage < i := by omega
              have hpos : bitsAbove (mask ||| 2 ^ prefixAt (hashString key) stage) i
                  = bitsAbove mask i := bitsAbove_or_of_ge (by omega)
              have hlt' : bitsAbove mask i < bitsAbove mask (prefixAt (hashString key) stage) :=
                bitsAbove_lt_of_lt hgt hbold
              rw [hpos, copyInsert_getElem?_lt (none : Option (HNode V)) nexts _ _ hnlen' hlt']
                at hchild'
              exact hchild i hi31 hbold child' hchild'
      · intro f2 hf2
        obtain ⟨g, rfl⟩ : ∃ g, f2 = g + 1 := ⟨f2 - 1, by omega⟩
        rw [getAux_step key _ g stage _ _ _ _ hstage hmask']
        rw [if_pos hnew_bit, hciB, copyInsert_getElem?_self key keys _ hklen', if_pos rfl,
            copyInsert_getElem?_self value values _ hvlen']
      · intro key2 f2 hk2 hf2
        obtain ⟨g, rfl⟩ : ∃ g, f2 = g + 1 := ⟨f2 - 1, by omega⟩
        rw [getAux_step key2 _ g stage _ _ _ _ hstage hmask',
            getAux_step key2 _ g stage mask keys values nexts hstage hmask]
        by_cases hbb : prefixAt (hashString key2) stage = prefixAt (hashString key) stage
        · rw [hbb, if_pos hnew_bit, if_neg hbit, hciB,
              copyInsert_getElem?_self key keys _ hklen',
              if_neg (by intro hcontra; exact hk2 (Option.some.inj hcontra).symm),
              copyInsert_getElem?_self (none : Option (HNode V)) nexts _ hnlen']
        · have hsame : Nat.testBit (mask ||| 2 ^ prefixAt (hashString key) stage)
              (prefixAt (hashString key2) stage)
              = Nat.testBit mask (prefixAt (hashString key2) stage) :=
            htrans _ hbb
          by_cases hbit2 : Nat.testBit mask (prefixAt (hashString key2) stage) = true
          · rw [if_pos (by rw [hsame]; exact hbit2), if_pos hbit2]
            by_cases hlt : prefixAt (hashString key2) stage < prefixAt (hashString key) stage
            · have hpos : bitsAbove (mask ||| 2 ^ prefixAt (hashString key) stage)
                  (prefixAt (hashString key2) stage)
                  = bitsAbove mask (prefixAt (hashString key2) stage) + 1 :=
                bitsAbove_or_of_lt hlt hbitf
              have hge : bitsAbove mask (prefixAt (hashString key) stage)
                  ≤ bitsAbove mask (prefixAt (hashString key2) stage) :=
                bitsAbove_le_of_lt hlt
              rw [hpos, copyInsert_getElem?_gt key keys _ _ hklen' (by omega),
                  copyInsert_getElem?_gt value values _ _ hvlen' (by omega),
                  copyInsert_getElem?_gt (none : Option (HNode V)) nexts _ _ hnlen' (by omega)]
              simp only [Nat.add_sub_cancel]
            · have hgt : prefixAt (hashString key) stage < prefixAt (hashString key2) stage := by
                omega
              have hpos : bitsAbove (mask ||| 2 ^ prefixAt (hashString key) stage)
                  (prefixAt (hashString key2) stage)
                  = bitsAbove mask (prefixAt (hashString key2) stage) :=
                bitsAbove_or_of_ge (by omega)
              have hlt' : bitsAbove mask (prefixAt (hashString key2) stage)
                  < bitsAbove mask (prefixAt (hashString key) stage) :=
                bitsAbove_lt_of_lt hgt hbit2
              rw [hpos, copyInsert_getElem?_lt key keys _ _ hklen' hlt',
                  copyInsert_getElem?_lt value values _ _ hvlen' hlt',
                  copyInsert_getElem?_lt (none : Option (HNode V)) nexts _ _ hnlen' hlt']
          · rw [if_neg (by rw [hsame]; exact hbit2), if_neg hbit2]

/-- Top-level version of `setAux_master` for whole maps. -/
theorem HAMT.set_master {V : Type} {m : HAMT V} {key : String} {value : V}
    (hwf : HamtWF m) (hfits : m.fits key = true) :
    ∃ m' : HAMT V, m.set key value = .ok m' ∧ HamtWF m' ∧
      m'.get key = .ok (some value) ∧
      (∀ key2, key2 ≠ key → m'.get key2 = m.get key2) := by
  obtain ⟨node', isNew, hset, hwf', hget, hget2⟩ :=
    setAux_master key value 64 0 (fun _ => True) m.root hwf trivial (by omega) hfits
  refine ⟨⟨node', if isNew then m.size + 1 else m.size⟩, ?_, hwf', ?_, ?_⟩
  · unfold HAMT.set
    rw [hset]
  · unfold HAMT.get
    exact hget 64 (by omega)
  · intro key2 hk2
    unfold HAMT.get
    exact hget2 key2 64 hk2 (by omega)

/-- The maps reachable from `new HAMT()` by `set` calls that stay within hash
stages 0 to 5. -/
inductive Built {V : Type} : HAMT V → Prop where
  | empty : Built (HAMT.empty V)
  | step {m m' : HAMT V} {key : String} {value : V} :
      Built m → m.fits key = true → m.set key value = .ok m' → Built m'

theorem built_wf {V : Type} {m : HAMT V} (h : Built m) : HamtWF m := by
  induction h with
  | empty => exact empty_wf
  | step hb hfits hset ih =>
    obtain ⟨m'', hset', hwf', _, _⟩ := HAMT.set_master ih hfits
    rw [hset'] at hset
    exact (Except.ok.inj hset) ▸ hwf'

/-- Builds a map by a sequence of `set` calls (errors propagate). -/
def buildHAMT (kvs : List (String × Nat)) : Except String (HAMT Nat) :=
  kvs.foldlM (fun m kv => m.set kv.1 kv.2) (HAMT.empty Nat)

/-- Seven distinct 6-character keys with identical `hashString` values: any
string over the blocks `Aa` / `BB` hashes like any other of the same length
(`hashString "Aa" = hashString "BB" = 2112`). -/
def sevenKeys : List (String × Nat) :=
  [("AaAaAa", 1), ("AaAaBB", 2), ("AaBBAa", 3), ("AaBBBB", 4),
   ("BBAaAa", 5), ("BBAaBB", 6), ("BBBBAa", 7)]

/-- Follow the 0th child pointer `k` levels down. -/
def descend0 {V : Type} : Nat → HNode V → Option (HNode V)
  | 0, n => some n
  | k + 1, n =>
    match n.nexts[0]? with
    | some (some c) => descend0 k c
    | _ => none

/-- C2, counterexample: after inserting the seven equal-hash keys of
`sevenKeys`, every `set` succeeded (the size is 7 and the `set` producing `v1`
returned a map), yet `v1.get` of the last-inserted key does not return its
value: the descent runs past stage 5 and dereferences `undefined`
(a `TypeError`), so `v1.get(k) = x` fails as stated. -/
theorem C2_counterexample :
    (buildHAMT sevenKeys).map HAMT.size = .ok 7 ∧
    (buildHAMT sevenKeys).bind (fun v1 => v1.get "BBBBAa") = .error "TypeError" := by
  exact ⟨rfl, rfl⟩

/-- C2, amended: persistence of the HAMT for insertions that stay within hash
stages 0 to 5.  For `v0` built by such `set` calls and an insertion of `key`
that also fits (no seven-fold 30-bit hash collision), with
`.ok v1 = v0.set key value`: `v1.get key` returns `value`, and every other
key reads the same in `v1` as in `v0` (in particular every key present in
`v0` is retrievable from `v1` with its identical value; `v0` itself is a pure
value here, matching the source's copy-on-write discipline, so it is
unchanged by the call). -/
theorem C2_amended {V : Type} {v0 v1 : HAMT V} {key : String} {value : V}
    (hbuilt : Built v0) (hfits : v0.fits key = true)
    (hset : v0.set key value = .ok v1) :
    v1.get key = .ok (some value) ∧
    ∀ key2, key2 ≠ key → v1.get key2 = v0.get key2 := by
  obtain ⟨m', hset', hwf', hget, hget2⟩ := HAMT.set_master (built_wf hbuilt) hfits
  rw [hset'] at hset
  obtain rfl := Except.ok.inj hset
  exact ⟨hget, hget2⟩

/-- C2, witness: inserting `"a" ↦ 0` into the empty map gives a map from
which `"a"` reads back `0` and the absent `"b"` reads back `undefined`. -/
theorem C2_amended_witness :
    (⟨HNode.mk 2 ["a"] [0] [none], 1⟩ : HAMT Nat).get "a" = .ok (some 0) ∧
    (⟨HNode.mk 2 ["a"] [0] [none], 1⟩ : HAMT Nat).get "b" = .ok none := by
  have h := @C2_amended Nat (HAMT.empty Nat) ⟨HNode.mk 2 ["a"] [0] [none], 1⟩
    "a" (0 : Nat) Built.empty rfl rfl
  refine ⟨h.1, ?_⟩
  rw [h.2 "b" (by decide)]
  rfl

/-- C6, code bug: seven distinct keys sharing all 30 consumed hash bits (any
two strings over the blocks `Aa`/`BB` of equal length collide) drive the
recursion of `set` past stage 5 — `getNthPrefix` is called with stage 6,
breaking its stated `[0, 5]` contract and the non-null assertion in `set`.
The seventh key is stored in a node at depth 6; `get` of that key then
dereferences `undefined` (TypeError), and an eighth colliding insert hits
the source's own `throw new Error("Bad childIndex ...")`. -/
theorem C6_code_bug_eval :
    (buildHAMT sevenKeys).map HAMT.size = .ok 7 ∧
    (match buildHAMT sevenKeys with
      | .ok m => (descend0 6 m.root).map HNode.keys
      | .error _ => none) = some ["BBBBAa"] ∧
    (buildHAMT sevenKeys).bind (fun m => m.get "BBBBAa") = .error "TypeError" ∧
    buildHAMT (sevenKeys ++ [("BBBBBB", 8)]) = .error "Bad childIndex" := by
  exact ⟨rfl, rfl, rfl, rfl⟩

/-- C7, counterexample: inserting `"!"` after `"a"` (stage-0 chunks both 1)
creates a child node under the colliding slot, but the child's single-bit
mask is `2 = 2 ^ 1`, derived from the *inserted* key `"!"` (stage-1 chunk 1),
not from the colliding stored key `"a"` (stage-1 chunk 3, which would give
mask 8). -/
theorem C7_counterexample :
    buildHAMT [("a", 0), ("!", 1)]
      = .ok ⟨HNode.mk 2 ["a"] [0] [some (HNode.mk 2 ["!"] [1] [none])], 2⟩ ∧
    prefixAt (hashString "!") 1 = 1 ∧
    prefixAt (hashString "a") 1 = 3 ∧
    ¬ (HNode.mk 2 ["!"] [1] [none] : HNode Nat).mask = 2 ^ prefixAt (hashString "a") 1 := by
  refine ⟨rfl, rfl, rfl, ?_⟩
  decide

/-- C7, amended: when the descent of `set` meets an occupied slot holding a
different key with a `null` child pointer (within stages 0 to 4), the child
node is created empty (mask 0) and the recursion fills it, so the child that
is stored has the single-bit mask `2 ^ (inserted key's next-stage chunk)`
and holds only the inserted key. -/
theorem C7_amended {V : Type} (key : String) (value : V) (fuel stage mask : Nat)
    (keys : List String) (values : List V) (nexts : List (Option (HNode V)))
    (hst : stage ≤ 5) (hs5 : stage + 1 ≤ 5) (hmask : mask < 4294967296)
    (hbit : Nat.testBit mask (prefixAt (hashString key) stage) = true)
    (hkey : ¬ keys[bitsAbove mask (prefixAt (hashString key) stage)]? = some key)
    (hnx : nexts[bitsAbove mask (prefixAt (hashString key) stage)]? = some none) :
    setAux key value (hashString key) (fuel + 2) stage (.mk mask keys values nexts)
      = .ok (.mk mask keys values
          (nexts.set (bitsAbove mask (prefixAt (hashString key) stage))
            (some (.mk (2 ^ prefixAt (hashString key) (stage + 1)) [key] [value] [none]))),
        true) := by
  rw [setAux_step key value _ (fuel + 1) stage mask keys values nexts hst hmask,
      if_pos hbit, if_neg hkey, hnx]
  simp only [setAux_fresh key value (hashString key) fuel (stage + 1) hs5]

/-- C7, witness: the concrete `"a"`/`"!"` collision of the counterexample. -/
theorem C7_amended_witness :
    setAux "!" (1 : Nat) (hashString "!") 64 0 (.mk 2 ["a"] [0] [none])
      = .ok (.mk 2 ["a"] [0]
          (([none] : List (Option (HNode Nat))).set (bitsAbove 2 (prefixAt (hashString "!") 0))
            (some (.mk (2 ^ prefixAt (hashString "!") 1) ["!"] [1] [none]))),
        true) := by
  exact C7_amended "!" 1 62 0 2 ["a"] [0] [none] (by omega) (by omega) (by norm_num)
    rfl (by decide) rfl

/-! ## Red-black trees (`red-black-common.ts`, `interval-tree.ts`)

The tree classes are imperative, with `parent` pointers.  The read-only
traversals of `AbstractRBTree` (`entries`, `checkBalanceInvariant`,
`checkOrderInvariant`) and the pure comparators read only the fields
`left`, `right`, `key`, `value`, `color` and `nil`, never `parent`, so on a
tree-shaped heap they are functions of the unfolded inductive tree; we embed
them on `RTree` below.  The mutating operations are embedded further down on
an explicit heap (`RBSt`).  JS `number` keys are modelled as `Int`. -/

inductive Color where
  | red
  | black
deriving DecidableEq

inductive Ord3 where
  | LT
  | GT
  | EQ
deriving DecidableEq

inductive RTree (K V : Type) where
  | nil
  | node (color : Color) (left : RTree K V) (key : K) (value : V) (right : RTree K V)
deriving DecidableEq

def RTree.isNil {K V : Type} : RTree K V → Bool
  | .nil => true
  | .node _ _ _ _ _ => false

/-- `defaultCompareFunction` of `interval-tree.ts` at `number` keys
(modelled as `Int`): `a === b ? "EQ" : a < b ? "LT" : "GT"`. -/
def defaultCompareFunction (a b : Int) : Ord3 :=
  if a = b then .EQ else if a < b then .LT else .GT

/-- JS falsiness of an `Int`-valued `number`: only `0` (and `NaN`, which no
integer models) is falsy. -/
def intFalsy (k : Int) : Bool :=
  k == 0

/-- `traverse` of `AbstractRBTree.checkOrderInvariant`.  `mn`/`mx` are the
source's `min`/`max` bounds (`undefined` at the root); the bound checks are
guarded by JS truthiness (`!min`, `!max`), which is true on `undefined` and
on a falsy key, so those bounds are skipped.  `falsy` carries the key
type's falsiness predicate. -/
def orderTraverse {K V : Type} (cmp : K → K → Ord3) (falsy : K → Bool) :
    RTree K V → Option K → Option K → Bool
  | .nil, _, _ => true
  | .node _ l k _ r, mn, mx =>
    (match mn with
      | none => true
      | some m => falsy m || (cmp k m == Ord3.GT)) &&
    (match mx with
      | none => true
      | some m => falsy m || (cmp k m == Ord3.LT)) &&
    (l.isNil || orderTraverse cmp falsy l mn (some k)) &&
    (r.isNil || orderTraverse cmp falsy r (some k) mx)

def checkOrderInvariant {K V : Type} (cmp : K → K → Ord3) (falsy : K → Bool)
    (t : RTree K V) : Bool :=
  orderTraverse cmp falsy t none none

/-- The in-order list of `(key, value)` pairs: what `entries` is proved to
produce. -/
def inorder {K V : Type} : RTree K V → List (K × V)
  | .nil => []
  | .node _ l k v r => inorder l ++ (k, v) :: inorder r

/-- Modelled from the spec: every node's key is strictly greater than the
tightest (nearest) lower-bound ancestor key and strictly less than the
tightest upper-bound ancestor key, whenever such a bound exists — the
bound checks of `checkOrderInvariant` without the JS-falsiness escape. -/
def strictlyOrderedAux {K V : Type} (cmp : K → K → Ord3) :
    RTree K V → Option K → Option K → Bool
  | .nil, _, _ => true
  | .node _ l k _ r, mn, mx =>
    (match mn with
      | none => true
      | some m => cmp k m == Ord3.GT) &&
    (match mx with
      | none => true
      | some m => cmp k m == Ord3.LT) &&
    strictlyOrderedAux cmp l mn (some k) &&
    strictlyOrderedAux cmp r (some k) mx

def strictlyOrdered {K V : Type} (cmp : K → K → Ord3) (t : RTree K V) : Bool :=
  strictlyOrderedAux cmp t none none

def treeKeys {K V : Type} : RTree K V → List K
  | .nil => []
  | .node _ l k _ r => treeKeys l ++ k :: treeKeys r

theorem isNil_or_strict {K V : Type} (cmp : K → K → Ord3) (t : RTree K V)
    (mn mx : Option K) :
    (t.isNil || strictlyOrderedAux cmp t mn mx) = strictlyOrderedAux cmp t mn mx := by
  cases t with
  | nil => rfl
  | node c l k v r => simp only [RTree.isNil, Bool.false_or]

/-- With no falsy key in sight, the order checker computes exactly the
strict-bounds property: the JS-falsiness escapes never fire. -/
theorem orderTraverse_eq_strict {K V : Type} (cmp : K → K → Ord3) (falsy : K → Bool) :
    ∀ (t : RTree K V) (mn mx : Option K),
      (∀ k ∈ treeKeys t, falsy k = false) →
      (∀ m ∈ mn, falsy m = false) →
      (∀ m ∈ mx, falsy m = false) →
      orderTraverse cmp falsy t mn mx = strictlyOrderedAux cmp t mn mx := by
  intro t
  induction t with
  | nil => intro mn mx _ _ _; rfl
  | node col l k v r ihl ihr =>
    intro mn mx hk hmn hmx
    have hkk : falsy k = false := hk k (by simp [treeKeys])
    have hkl : ∀ kk ∈ treeKeys l, falsy kk = false := by
      intro kk h
      exact hk kk (by simp [treeKeys]; exact Or.inl h)
    have hkr : ∀ kk ∈ treeKeys r, falsy kk = false := by
      intro kk h
      exact hk kk (by simp [treeKeys]; exact Or.inr (Or.inr h))
    have hsome : ∀ m ∈ (some k : Option K), falsy m = false := by
      intro m hm
      rw [Option.mem_def, Option.some.injEq] at hm
      rw [← hm]
      exact hkk
    simp only [orderTraverse, strictlyOrderedAux]
    rw [ihl mn (some k) hkl hmn hsome, ihr (some k) mx hkr hsome hmx,
        isNil_or_strict, isNil_or_strict]
    rcases mn with _ | m1
    · rcases mx with _ | m2
      · simp
      · simp [hmx m2 rfl]
    · rcases mx with _ | m2
      · simp [hmn m1 rfl]
      · simp [hmn m1 rfl, hmx m2 rfl]

theorem treeKeys_eq_map {K V : Type} (t : RTree K V) :
    treeKeys t = (inorder t).map Prod.fst := by
  induction t with
  | nil => rfl
  | node c l k v r ihl ihr => simp [treeKeys, inorder, ihl, ihr]

/-- For a comparator whose `LT` is transitive and opposite to `GT`, the
strict-bounds property makes the in-order key list strictly increasing. -/
theorem strict_sorted {K V : Type} (cmp : K → K → Ord3)
    (htr : ∀ a b c2, cmp a b = .LT → cmp b c2 = .LT → cmp a c2 = .LT)
    (hflip : ∀ a b, cmp a b = .GT → cmp b a = .LT) :
    ∀ (t : RTree K V) (mn mx : Option K),
      strictlyOrderedAux cmp t mn mx = true →
      (∀ k ∈ treeKeys t, (∀ m ∈ mn, cmp m k = .LT) ∧ (∀ m ∈ mx, cmp k m = .LT)) ∧
      List.Pairwise (fun a b => cmp a b = .LT) (treeKeys t) := by
  intro t
  induction t with
  | nil =>
    intro mn mx _
    exact ⟨by simp [treeKeys], by simp [treeKeys]⟩
  | node col l k v r ihl ihr =>
    intro mn mx hso
    simp only [strictlyOrderedAux, Bool.and_eq_true] at hso
    obtain ⟨⟨⟨ha, hb⟩, hsl⟩, hsr⟩ := hso
    have hlow : ∀ m ∈ mn, cmp k m = Ord3.GT := by
      rcases mn with _ | m
      · intro m hm; simp at hm
      · intro m2 hm2
        rw [Option.mem_def, Option.some.injEq] at hm2
        subst hm2
        exact beq_iff_eq.mp ha
    have hhigh : ∀ m ∈ mx, cmp k m = Ord3.LT := by
      rcases mx with _ | m
      · intro m hm; simp at hm
      · intro m2 hm2
        rw [Option.mem_def, Option.some.injEq] at hm2
        subst hm2
        exact beq_iff_eq.mp hb
    obtain ⟨hbl, hpl⟩ := ihl mn (some k) hsl
    obtain ⟨hbr, hpr⟩ := ihr (some k) mx hsr
    have hlk : ∀ kk ∈ treeKeys l, cmp kk k = Ord3.LT := by
      intro kk hkk
      exact (hbl kk hkk).2 k rfl
    have hkr : ∀ kk ∈ treeKeys r, cmp k kk = Ord3.LT := by
      intro kk hkk
      exact (hbr kk hkk).1 k rfl
    constructor
    · intro kk hkk
      simp only [treeKeys, List.mem_append, List.mem_cons] at hkk
      rcases hkk with hkk | hkk | hkk
      · refine ⟨(hbl kk hkk).1, ?_⟩
        intro m hm
        exact htr kk k m (hlk kk hkk) (hhigh m hm)
      · subst hkk
        exact ⟨fun m hm => hflip kk m (hlow m hm), hhigh⟩
      · refine ⟨?_, (hbr kk hkk).2⟩
        intro m hm
        exact htr m k kk (hflip k m (hlow m hm)) (hkr kk hkk)
    · show List.Pairwise _ (treeKeys l ++ k :: treeKeys r)
      rw [List.pairwise_append]
      refine ⟨hpl, ?_, ?_⟩
      · rw [List.pairwise_cons]
        exact ⟨hkr, hpr⟩
      · intro a ha2 b hb2
        rcases List.mem_cons.mp hb2 with hb3 | hb3
        · subst hb3
          exact hlk a ha2
        · exact htr a k b (hlk a ha2) (hkr b hb3)

/-- C8, counterexample: over `number` keys the checker's bound tests are
guarded by JS truthiness (`!min`, `!max`), so an inherited bound whose key
is falsy (`0`) is silently skipped: with the default comparator, the tree
with root key `0` and right child `-1` passes `checkOrderInvariant` even
though `-1` is not strictly greater than its inherited lower bound `0`. -/
theorem C8_counterexample :
    checkOrderInvariant defaultCompareFunction intFalsy
      (RTree.node Color.black RTree.nil (0 : Int) (0 : Int)
        (RTree.node Color.red RTree.nil (-1 : Int) (0 : Int) RTree.nil)) = true ∧
    strictlyOrdered defaultCompareFunction
      (RTree.node Color.black RTree.nil (0 : Int) (0 : Int)
        (RTree.node Color.red RTree.nil (-1 : Int) (0 : Int) RTree.nil)) = false := by
  exact ⟨by decide, by decide⟩

/-- C8, amended: for trees none of whose keys is JS-falsy, the checker
returns true exactly when every node's key lies strictly between the
tightest (nearest) lower and upper bounds inherited from its ancestors;
with a falsy key the corresponding bound check is skipped and the
equivalence fails. -/
theorem C8_amended {K V : Type} (cmp : K → K → Ord3) (falsy : K → Bool)
    (t : RTree K V) (hk : ∀ k ∈ treeKeys t, falsy k = false) :
    checkOrderInvariant cmp falsy t = strictlyOrdered cmp t := by
  unfold checkOrderInvariant strictlyOrdered
  exact orderTraverse_eq_strict cmp falsy t none none hk
    (by intro m hm; simp at hm) (by intro m hm; simp at hm)

/-- C8, witness: a two-node tree with nonzero keys, on which the checker
and the strict-bounds property agree. -/
theorem C8_amended_witness :
    checkOrderInvariant defaultCompareFunction intFalsy
      (RTree.node Color.black
        (RTree.node Color.red RTree.nil (1 : Int) (5 : Int) RTree.nil)
        (2 : Int) (6 : Int) RTree.nil)
      = strictlyOrdered defaultCompareFunction
        (RTree.node Color.black
          (RTree.node Color.red RTree.nil (1 : Int) (5 : Int) RTree.nil)
          (2 : Int) (6 : Int) RTree.nil) :=
  C8_amended defaultCompareFunction intFalsy _ (by decide)

/-! ### The imperative heap of `RBTree` (`interval-tree.ts`, lines 420-734)

Nodes live in an arena `nodes : List (RBN K V)`; a field holding an object
reference is `some i` (arena slot `i`), and `none` models JS `null`.  Slot 0
is the module-level `sentinel` object (the algorithms really do write to it,
e.g. `x.parent = y.parent` in `deleteNode` when `x` is the sentinel; the
arena captures that).  `key`/`value` are `none` on the sentinel (JS `null`).
Reading a field of `null` throws, modelled as `Except.error "TypeError"`.
Allocating a node appends a slot.  The comparator is passed explicitly (the
class stores it at construction).  Loops take fuel and return `Except`;
reads at each step are from the current heap, in source statement order. -/

structure RBN (K V : Type) where
  parent : Option Nat
  left : Option Nat
  right : Option Nat
  color : Color
  key : Option K
  value : Option V
  nil : Bool
deriving DecidableEq

def sentinelRBN {K V : Type} : RBN K V :=
  ⟨none, none, none, Color.black, none, none, true⟩

structure RBSt (K V : Type) where
  nodes : List (RBN K V)
  root : Nat
  size : Int
deriving DecidableEq

/-- A fresh `RBTree`: only the sentinel exists, `_root` points at it,
`_size = 0`. -/
def RBSt.empty (K V : Type) : RBSt K V :=
  ⟨[sentinelRBN], 0, 0⟩

def getN {K V : Type} (st : RBSt K V) (i : Nat) : RBN K V :=
  st.nodes.getD i sentinelRBN

def setN {K V : Type} (st : RBSt K V) (i : Nat) (n : RBN K V) : RBSt K V :=
  { st with nodes := st.nodes.set i n }

/-- Dereference an object reference: reading a field of JS `null` throws. -/
def deref {α : Type} : Option α → Except String α
  | none => Except.error "TypeError"
  | some i => Except.ok i

/-- `RBTree.rotateLeft`. -/
def rotateLeft {K V : Type} (st : RBSt K V) (x : Nat) : Except String (RBSt K V) := do
  let y ← deref (getN st x).right
  let st := setN st x { getN st x with right := (getN st y).left }
  let yl ← deref (getN st y).left
  let st :=
    if (getN st yl).nil then st
    else setN st yl { getN st yl with parent := some x }
  let st :=
    if (getN st y).nil then st
    else setN st y { getN st y with parent := (getN st x).parent }
  let st :=
    match (getN st x).parent with
    | none => { st with root := y }
    | some p =>
      if (getN st p).left = some x then setN st p { getN st p with left := some y }
      else setN st p { getN st p with right := some y }
  let st := setN st y { getN st y with left := some x }
  if (getN st x).nil then pure st
  else pure (setN st x { getN st x with parent := some y })

/-- `RBTree.rotateRight` (mirror image). -/
def rotateRight {K V : Type} (st : RBSt K V) (x : Nat) : Except String (RBSt K V) := do
  let y ← deref (getN st x).left
  let st := setN st x { getN st x with left := (getN st y).right }
  let yr ← deref (getN st y).right
  let st :=
    if (getN st yr).nil then st
    else setN st yr { getN st yr with parent := some x }
  let st :=
    if (getN st y).nil then st
    else setN st y { getN st y with parent := (getN st x).parent }
  let st :=
    match (getN st x).parent with
    | none => { st with root := y }
    | some p =>
      if (getN st p).right = some x then setN st p { getN st p with right := some y }
      else setN st p { getN st p with left := some y }
  let st := setN st y { getN st y with right := some x }
  if (getN st x).nil then pure st
  else pure (setN st x { getN st x with parent := some y })

/-- `RBTree._find` (the recursion behind `find`). -/
def findGo {K V : Type} (cmp : K → K → Ord3) (key : K) :
    Nat → RBSt K V → Option Nat → Except String (Option Nat)
  | 0, _, _ => .error "out of fuel"
  | _ + 1, _, none => .ok none
  | fuel + 1, st, some c =>
    if (getN st c).nil then .ok none
    else
      match (getN st c).key with
      | none => .error "null key"
      | some ck =>
        match cmp key ck with
        | .LT => findGo cmp key fuel st (getN st c).left
        | .GT => findGo cmp key fuel st (getN st c).right
        | .EQ => .ok (some c)

/-- `RBTree.get`: `this.find(key)?.value`. -/
def rbGet {K V : Type} (cmp : K → K → Ord3) (fuel : Nat) (st : RBSt K V)
    (key : K) : Except String (Option V) := do
  match ← findGo cmp key fuel st (some st.root) with
  | none => pure none
  | some c => pure (getN st c).value

/-- The `deleteFixup` loop of `AbstractRBTree`; one unit of fuel per
iteration.  `x` may become `x.parent` (possibly `null`), hence `Option`;
the loop condition's `x.color` would throw on a `null` `x`. -/
def deleteFixupGo {K V : Type} : Nat → RBSt K V → Option Nat → Except String (RBSt K V)
  | 0, _, _ => .error "out of fuel"
  | fuel + 1, st, xo => do
    match xo with
    | none => Except.error "TypeError"
    | some x =>
      if x = st.root ∨ (getN st x).color ≠ Color.black then
        pure (setN st x { getN st x with color := Color.black })
      else
        match (getN st x).parent with
        | none => Except.error "TypeError"
        | some p =>
          if (getN st p).left = some x then do
            let w0 ← deref (getN st p).right
            let sw ←
              if (getN st w0).color = Color.red then do
                let st := setN st w0 { getN st w0 with color := Color.black }
                let st := setN st p { getN st p with color := Color.red }
                let st ← rotateLeft st p
                let p2 ← deref (getN st x).parent
                let w1 ← deref (getN st p2).right
                pure (st, w1)
              else pure (st, w0)
            let st := sw.1
            let w := sw.2
            let wl ← deref (getN st w).left
            let bothBlack ←
              if (getN st wl).color = Color.black then do
                let wr ← deref (getN st w).right
                pure (decide ((getN st wr).color = Color.black))
              else pure false
            if bothBlack then do
              let st := setN st w { getN st w with color := Color.red }
              deleteFixupGo fuel st (getN st x).parent
            else do
              let wr2 ← deref (getN st w).right
              let sw2 ←
                if (getN st wr2).color = Color.black then do
                  let wl2 ← deref (getN st w).left
                  let st := setN st wl2 { getN st wl2 with color := Color.black }
                  let st := setN st w { getN st w with color := Color.red }
                  let st ← rotateRight st w
                  let p3 ← deref (getN st x).parent
                  let w1 ← deref (getN st p3).right
                  pure (st, w1)
                else pure (st, w)
              let st := sw2.1
              let w := sw2.2
              let p4 ← deref (getN st x).parent
              let st := setN st w { getN st w with color := (getN st p4).color }
              let st := setN st p4 { getN st p4 with color := Color.black }
              let wr3 ← deref (getN st w).right
              let st := setN st wr3 { getN st wr3 with color := Color.black }
              let p5 ← deref (getN st x).parent
              let st ← rotateLeft st p5
              deleteFixupGo fuel st (some st.root)
          else do
            let w0 ← deref (getN st p).left
            let sw ←
              if (getN st w0).color = Color.red then do
                let st := setN st w0 { getN st w0 with color := Color.black }
                let st := setN st p { getN st p with color := Color.red }
                let st ← rotateRight st p
                let p2 ← deref (getN st x).parent
                let w1 ← deref (getN st p2).left
                pure (st, w1)
              else pure (st, w0)
            let st := sw.1
            let w := sw.2
            let wr ← deref (getN st w).right
            let bothBlack ←
              if (getN st wr).color = Color.black then do
                let wl ← deref (getN st w).left
                pure (decide ((getN st wl).color = Color.black))
              else pure false
            if bothBlack then do
              let st := setN st w { getN st w with color := Color.red }
              deleteFixupGo fuel st (getN st x).parent
            else do
              let wl2 ← deref (getN st w).left
              let sw2 ←
                if (getN st wl2).color = Color.black then do
                  let wr2 ← deref (getN st w).right
                  let st := setN st wr2 { getN st wr2 with color := Color.black }
                  let st := setN st w { getN st w with color := Color.red }
                  let st ← rotateLeft st w
                  let p3 ← deref (getN st x).parent
                  let w1 ← deref (getN st p3).left
                  pure (st, w1)
                else pure (st, w)
              let st := sw2.1
              let w := sw2.2
              let p4 ← deref (getN st x).parent
              let st := setN st w { getN st w with color := (getN st p4).color }
              let st := setN st p4 { getN st p4 with color := Color.black }
              let wl3 ← deref (getN st w).left
              let st := setN st wl3 { getN st wl3 with color := Color.black }
              let p5 ← deref (getN st x).parent
              let st ← rotateRight st p5
              deleteFixupGo fuel st (some st.root)

/-- The `while(!y.left.nil) y = y.left` successor descent of
`deleteNode`. -/
def minDescend {K V : Type} : Nat → RBSt K V → Nat → Except String Nat
  | 0, _, _ => .error "out of fuel"
  | fuel + 1, st, y => do
    let yl ← deref (getN st y).left
    if (getN st yl).nil then pure y
    else minDescend fuel st yl

/-- `RBTree.deleteNode`. -/
def deleteNode {K V : Type} (fuel : Nat) (st : RBSt K V) (z : Nat) :
    Except String (RBSt K V) := do
  if (getN st z).nil then pure st
  else do
    let zl ← deref (getN st z).left
    let y ←
      if (getN st zl).nil then pure z
      else do
        let zr ← deref (getN st z).right
        if (getN st zr).nil then pure z
        else minDescend fuel st zr
    let yl ← deref (getN st y).left
    let x ←
      if (getN st yl).nil then deref (getN st y).right
      else pure yl
    let st := setN st x { getN st x with parent := (getN st y).parent }
    let st ←
      match (getN st y).parent with
      | none => pure { st with root := x }
      | some yp =>
        if (getN st yp).left = some y then
          pure (setN st yp { getN st yp with left := some x })
        else
          pure (setN st yp { getN st yp with right := some x })
    let st :=
      if y = z then st
      else setN st z { getN st z with key := (getN st y).key, value := (getN st y).value }
    if (getN st y).color = Color.black then deleteFixupGo fuel st (some x)
    else pure st

/-- `RBTree.delete`. -/
def rbDelete {K V : Type} (cmp : K → K → Ord3) (fuel : Nat) (st : RBSt K V)
    (key : K) : Except String (Bool × RBSt K V) := do
  match ← findGo cmp key fuel st (some st.root) with
  | some node => do
    let st ← deleteNode fuel st node
    pure (true, { st with size := st.size - 1 })
  | none => pure (false, st)

/-- Unfold the pointer structure reachable from a node reference into an
inductive tree (`fuel` bounds the depth); the read-only traversals of
`AbstractRBTree` are functions of this unfolding. -/
def toRTree {K V : Type} (st : RBSt K V) : Nat → Option Nat → Except String (RTree K V)
  | 0, _ => .error "out of fuel"
  | _ + 1, none => .error "TypeError"
  | fuel + 1, some i =>
    if (getN st i).nil then .ok .nil
    else
      match toRTree st fuel (getN st i).left with
      | .error e => .error e
      | .ok l =>
        match toRTree st fuel (getN st i).right with
        | .error e => .error e
        | .ok r =>
          match (getN st i).key, (getN st i).value with
          | some k, some v => .ok (RTree.node (getN st i).color l k v r)
          | _, _ => .error "null key"

theorem defaultCompare_lt_iff (a b : Int) :
    defaultCompareFunction a b = Ord3.LT ↔ a < b := by
  unfold defaultCompareFunction
  split_ifs with h1 h2
  · constructor
    · intro h; exact absurd h (by decide)
    · intro h; omega
  · simp [h2]
  · constructor
    · intro h; exact absurd h (by decide)
    · intro h; omega

theorem defaultCompare_gt_iff (a b : Int) :
    defaultCompareFunction a b = Ord3.GT ↔ b < a := by
  unfold defaultCompareFunction
  split_ifs with h1 h2
  · constructor
    · intro h; exact absurd h (by decide)
    · intro h; omega
  · constructor
    · intro h; exact absurd h (by decide)
    · intro h; omega
  · constructor
    · intro _; omega
    · intro _; rfl

structure ITN (V : Type) where
  parent : Option Nat
  left : Option Nat
  right : Option Nat
  color : Color
  key : Option (Int × Int)
  value : Option V
  nil : Bool
  max : Int
deriving DecidableEq

/-- The module-level `sentinel` of the `IntervalTree` half: note `max: 0`. -/
def sentinelITN {V : Type} : ITN V :=
  ⟨none, none, none, Color.black, none, none, true, 0⟩

structure ISt (V : Type) where
  nodes : List (ITN V)
  root : Nat
  size : Int
deriving DecidableEq

def ISt.empty (V : Type) : ISt V :=
  ⟨[sentinelITN], 0, 0⟩

def igetN {V : Type} (st : ISt V) (i : Nat) : ITN V :=
  st.nodes.getD i sentinelITN

def isetN {V : Type} (st : ISt V) (i : Nat) (n : ITN V) : ISt V :=
  { st with nodes := st.nodes.set i n }

/-- The module-level `compareFn` of the `IntervalTree` half: lexicographic
on `[lo, hi]`. -/
def icompareFn (a b : Int × Int) : Ord3 :=
  if a.1 < b.1 then .LT
  else if a.1 = b.1 then
    if a.2 < b.2 then .LT
    else if a.2 > b.2 then .GT
    else .EQ
  else .GT

/-- `intervalsIntersect`: `a[0] <= b[1] && a[1] >= b[0]`. -/
def intervalsIntersect (a b : Int × Int) : Bool :=
  decide (a.1 ≤ b.2) && decide (a.2 ≥ b.1)

/-- `max` of `interval-tree.ts`: `a > b ? a : b`. -/
def jmax (a b : Int) : Int :=
  if a > b then a else b

/-- `max3`. -/
def jmax3 (a b c : Int) : Int :=
  jmax a (jmax b c)

/-- `updateNodeMax`. -/
def updateNodeMax {V : Type} (st : ISt V) (node : Nat) : Except String (ISt V) := do
  let l ← deref (igetN st node).left
  let r ← deref (igetN st node).right
  let k ← deref (igetN st node).key
  let lnil := (igetN st l).nil
  let rnil := (igetN st r).nil
  let newMax :=
    if lnil && rnil then k.2
    else if lnil then jmax k.2 (igetN st r).max
    else if rnil then jmax k.2 (igetN st l).max
    else jmax3 k.2 (igetN st l).max (igetN st r).max
  pure (isetN st node { igetN st node with max := newMax })

/-- `updateParentsMax`: `while(node.parent !== null && !node.parent.nil)`. -/
def updateParentsMax {V : Type} : Nat → ISt V → Nat → Except String (ISt V)
  | 0, _, _ => .error "out of fuel"
  | fuel + 1, st, node =>
    match (igetN st node).parent with
    | none => pure st
    | some p =>
      if (igetN st p).nil then pure st
      else do
        let st ← updateNodeMax st p
        updateParentsMax fuel st p

/-- `IntervalTree.rotateLeft` (updates `max` on the way out). -/
def iRotateLeft {V : Type} (st : ISt V) (x : Nat) : Except String (ISt V) := do
  let y ← deref (igetN st x).right
  let st := isetN st x { igetN st x with right := (igetN st y).left }
  let yl ← deref (igetN st y).left
  let st :=
    if (igetN st yl).nil then st
    else isetN st yl { igetN st yl with parent := some x }
  let st :=
    if (igetN st y).nil then st
    else isetN st y { igetN st y with parent := (igetN st x).parent }
  let st :=
    match (igetN st x).parent with
    | none => { st with root := y }
    | some p =>
      if (igetN st p).left = some x then isetN st p { igetN st p with left := some y }
      else isetN st p { igetN st p with right := some y }
  let st := isetN st y { igetN st y with left := some x }
  let st ←
    if (igetN st x).nil then pure st
    else do
      let st := isetN st x { igetN st x with parent := some y }
      updateNodeMax st x
  if (igetN st y).nil then pure st
  else updateNodeMax st y

/-- `IntervalTree.rotateRight` (mirror image). -/
def iRotateRight {V : Type} (st : ISt V) (x : Nat) : Except String (ISt V) := do
  let y ← deref (igetN st x).left
  let st := isetN st x { igetN st x with left := (igetN st y).right }
  let yr ← deref (igetN st y).right
  let st :=
    if (igetN st yr).nil then st
    else isetN st yr { igetN st yr with parent := some x }
  let st :=
    if (igetN st y).nil then st
    else isetN st y { igetN st y with parent := (igetN st x).parent }
  let st :=
    match (igetN st x).parent with
    | none => { st with root := y }
    | some p =>
      if (igetN st p).right = some x then isetN st p { igetN st p with right := some y }
      else isetN st p { igetN st p with left := some y }
  let st := isetN st y { igetN st y with right := some x }
  let st ←
    if (igetN st x).nil then pure st
    else do
      let st := isetN st x { igetN st x with parent := some y }
      updateNodeMax st x
  if (igetN st y).nil then pure st
  else updateNodeMax st y

/-- The shared `insertFixup` loop at the `IntervalTree` overrides. -/
def iInsertFixupGo {V : Type} : Nat → ISt V → Option Nat → Except String (ISt V)
  | 0, _, _ => .error "out of fuel"
  | fuel + 1, st, xo => do
    match xo with
    | none => Except.error "TypeError"
    | some x =>
      if x = st.root then
        pure (isetN st st.root { igetN st st.root with color := Color.black })
      else
        match (igetN st x).parent with
        | none => Except.error "TypeError"
        | some p =>
          if (igetN st p).color = Color.red then
            match (igetN st p).parent with
            | none => Except.error "TypeError"
            | some g =>
              if (igetN st g).left = some p then do
                let y ← deref (igetN st g).right
                if (igetN st y).color = Color.red then do
                  let st := isetN st p { igetN st p with color := Color.black }
                  let st := isetN st y { igetN st y with color := Color.black }
                  let st := isetN st g { igetN st g with color := Color.red }
                  iInsertFixupGo fuel st (some g)
                else do
                  let sx ←
                    if (igetN st p).right = some x then do
                      let st ← iRotateLeft st p
                      pure (st, p)
                    else pure (st, x)
                  let st := sx.1
                  let x := sx.2
                  let p2 ← deref (igetN st x).parent
                  let st := isetN st p2 { igetN st p2 with color := Color.black }
                  let g2 ← deref (igetN st p2).parent
                  let st := isetN st g2 { igetN st g2 with color := Color.red }
                  let st ← iRotateRight st g2
                  iInsertFixupGo fuel st (some x)
              else do
                let y ← deref (igetN st g).left
                if (igetN st y).color = Color.red then do
                  let st := isetN st p { igetN st p with color := Color.black }
                  let st := isetN st y { igetN st y with color := Color.black }
                  let st := isetN st g { igetN st g with color := Color.red }
                  iInsertFixupGo fuel st (some g)
                else do
                  let sx ←
                    if (igetN st p).left = some x then do
                      let st ← iRotateRight st p
                      pure (st, p)
                    else pure (st, x)
                  let st := sx.1
                  let x := sx.2
                  let p2 ← deref (igetN st x).parent
                  let st := isetN st p2 { igetN st p2 with color := Color.black }
                  let g2 ← deref (igetN st p2).parent
                  let st := isetN st g2 { igetN st g2 with color := Color.red }
                  let st ← iRotateLeft st g2
                  iInsertFixupGo fuel st (some x)
          else
            pure (isetN st st.root { igetN st st.root with color := Color.black })

/-- The descent loop of `IntervalTree.insertNode` (fixed `compareFn`). -/
def iInsertWalk {V : Type} (key : Int × Int) :
    Nat → ISt V → Nat → Option Nat → Except String (Sum Nat (Option Nat))
  | 0, _, _, _ => .error "out of fuel"
  | fuel + 1, st, c, parent =>
    if (igetN st c).nil then .ok (.inr parent)
    else
      match (igetN st c).key with
      | none => .error "null key"
      | some ck =>
        match icompareFn key ck with
        | .EQ => .ok (.inl c)
        | .LT =>
          match (igetN st c).left with
          | none => .error "TypeError"
          | some l => iInsertWalk key fuel st l (some c)
        | .GT =>
          match (igetN st c).right with
          | none => .error "TypeError"
          | some r => iInsertWalk key fuel st r (some c)

/-- `IntervalTree.insertNode` (the body of `set`): the new node's `max` is
`interval[1]`; after `insertFixup`, `updateParentsMax(node)`. -/
def iInsertNode {V : Type} (fuel : Nat) (st : ISt V) (key : Int × Int)
    (value : V) : Except String (ISt V) := do
  match ← iInsertWalk key fuel st st.root none with
  | .inl c =>
    pure (isetN st c { igetN st c with value := some value })
  | .inr parent => do
    let st := { st with size := st.size + 1 }
    let nid := st.nodes.length
    let st := { st with nodes :=
      st.nodes ++ [⟨parent, some 0, some 0, Color.red, some key, some value, false, key.2⟩] }
    let st ←
      match parent with
      | none => pure { st with root := nid }
      | some p =>
        match (igetN st p).key with
        | none => Except.error "null key"
        | some pk =>
          if icompareFn key pk = Ord3.LT then
            pure (isetN st p { igetN st p with left := some nid })
          else
            pure (isetN st p { igetN st p with right := some nid })
    let st ← iInsertFixupGo fuel st (some nid)
    updateParentsMax fuel st nid

/-- `IntervalTree.set`. -/
def iSet {V : Type} (fuel : Nat) (st : ISt V) (key : Int × Int) (value : V) :
    Except String (ISt V) :=
  iInsertNode fuel st key value

/-- `IntervalTree._find`. -/
def iFindGo {V : Type} (key : Int × Int) :
    Nat → ISt V → Option Nat → Except String (Option Nat)
  | 0, _, _ => .error "out of fuel"
  | _ + 1, _, none => .ok none
  | fuel + 1, st, some c =>
    if (igetN st c).nil then .ok none
    else
      match (igetN st c).key with
      | none => .error "null key"
      | some ck =>
        match icompareFn key ck with
        | .LT => iFindGo key fuel st (igetN st c).left
        | .GT => iFindGo key fuel st (igetN st c).right
        | .EQ => .ok (some c)

/-- `IntervalTree.get`: `this.find(interval)?.value`. -/
def iGet {V : Type} (fuel : Nat) (st : ISt V) (key : Int × Int) :
    Except String (Option V) := do
  match ← iFindGo key fuel st (some st.root) with
  | none => pure none
  | some c => pure (igetN st c).value

/-- The shared `deleteFixup` loop at the `IntervalTree` overrides. -/
def iDeleteFixupGo {V : Type} : Nat → ISt V → Option Nat → Except String (ISt V)
  | 0, _, _ => .error "out of fuel"
  | fuel + 1, st, xo => do
    match xo with
    | none => Except.error "TypeError"
    | some x =>
      if x = st.root ∨ (igetN st x).color ≠ Color.black then
        pure (isetN st x { igetN st x with color := Color.black })
      else
        match (igetN st x).parent with
        | none => Except.error "TypeError"
        | some p =>
          if (igetN st p).left = some x then do
            let w0 ← deref (igetN st p).right
            let sw ←
              if (igetN st w0).color = Color.red then do
                let st := isetN st w0 { igetN st w0 with color := Color.black }
                let st := isetN st p { igetN st p with color := Color.red }
                let st ← iRotateLeft st p
                let p2 ← deref (igetN st x).parent
                let w1 ← deref (igetN st p2).right
                pure (st, w1)
              else pure (st, w0)
            let st := sw.1
            let w := sw.2
            let wl ← deref (igetN st w).left
            let bothBlack ←
              if (igetN st wl).color = Color.black then do
                let wr ← deref (igetN st w).right
                pure (decide ((igetN st wr).color = Color.black))
              else pure false
            if bothBlack then do
              let st := isetN st w { igetN st w with color := Color.red }
              iDeleteFixupGo fuel st (igetN st x).parent
            else do
              let wr2 ← deref (igetN st w).right
              let sw2 ←
                if (igetN st wr2).color = Color.black then do
                  let wl2 ← deref (igetN st w).left
                  let st := isetN st wl2 { igetN st wl2 with color := Color.black }
                  let st := isetN st w { igetN st w with color := Color.red }
                  let st ← iRotateRight st w
                  let p3 ← deref (igetN st x).parent
                  let w1 ← deref (igetN st p3).right
                  pure (st, w1)
                else pure (st, w)
              let st := sw2.1
              let w := sw2.2
              let p4 ← deref (igetN st x).parent
              let st := isetN st w { igetN st w with color := (igetN st p4).color }
              let st := isetN st p4 { igetN st p4 with color := Color.black }
              let wr3 ← deref (igetN st w).right
              let st := isetN st wr3 { igetN st wr3 with color := Color.black }
              let p5 ← deref (igetN st x).parent
              let st ← iRotateLeft st p5
              iDeleteFixupGo fuel st (some st.root)
          else do
            let w0 ← deref (igetN st p).left
            let sw ←
              if (igetN st w0).color = Color.red then do
                let st := isetN st w0 { igetN st w0 with color := Color.black }
                let st := isetN st p { igetN st p with color := Color.red }
                let st ← iRotateRight st p
                let p2 ← deref (igetN st x).parent
                let w1 ← deref (igetN st p2).left
                pure (st, w1)
              else pure (st, w0)
            let st := sw.1
            let w := sw.2
            let wr ← deref (igetN st w).right
            let bothBlack ←
              if (igetN st wr).color = Color.black then do
                let wl ← deref (igetN st w).left
                pure (decide ((igetN st wl).color = Color.black))
              else pure false
            if bothBlack then do
              let st := isetN st w { igetN st w with color := Color.red }
              iDeleteFixupGo fuel st (igetN st x).parent
            else do
              let wl2 ← deref (igetN st w).left
              let sw2 ←
                if (igetN st wl2).color = Color.black then do
                  let wr2 ← deref (igetN st w).right
                  let st := isetN st wr2 { igetN st wr2 with color := Color.black }
                  let st := isetN st w { igetN st w with color := Color.red }
                  let st ← iRotateLeft st w
                  let p3 ← deref (igetN st x).parent
                  let w1 ← deref (igetN st p3).left
                  pure (st, w1)
                else pure (st, w)
              let st := sw2.1
              let w := sw2.2
              let p4 ← deref (igetN st x).parent
              let st := isetN st w { igetN st w with color := (igetN st p4).color }
              let st := isetN st p4 { igetN st p4 with color := Color.black }
              let wl3 ← deref (igetN st w).left
              let st := isetN st wl3 { igetN st wl3 with color := Color.black }
              let p5 ← deref (igetN st x).parent
              let st ← iRotateRight st p5
              iDeleteFixupGo fuel st (some st.root)

/-- The successor descent of `IntervalTree.deleteNode`. -/
def iMinDescend {V : Type} : Nat → ISt V → Nat → Except String Nat
  | 0, _, _ => .error "out of fuel"
  | fuel + 1, st, y => do
    let yl ← deref (igetN st y).left
    if (igetN st yl).nil then pure y
    else iMinDescend fuel st yl

/-- `IntervalTree.deleteNode` (with the `max` maintenance the `RBTree`
version lacks). -/
def iDeleteNode {V : Type} (fuel : Nat) (st : ISt V) (z : Nat) :
    Except String (ISt V) := do
  if (igetN st z).nil then pure st
  else do
    let zl ← deref (igetN st z).left
    let y ←
      if (igetN st zl).nil then pure z
      else do
        let zr ← deref (igetN st z).right
        if (igetN st zr).nil then pure z
        else iMinDescend fuel st zr
    let yl ← deref (igetN st y).left
    let x ←
      if (igetN st yl).nil then deref (igetN st y).right
      else pure yl
    let st := isetN st x { igetN st x with parent := (igetN st y).parent }
    let st ←
      match (igetN st y).parent with
      | none => pure { st with root := x }
      | some yp => do
        let st :=
          if (igetN st yp).left = some y then
            isetN st yp { igetN st yp with left := some x }
          else
            isetN st yp { igetN st yp with right := some x }
        updateNodeMax st yp
    let st ← updateParentsMax fuel st x
    let st ←
      if y = z then pure st
      else do
        let st := isetN st z
          { igetN st z with key := (igetN st y).key, value := (igetN st y).value }
        let st ← updateNodeMax st z
        updateParentsMax fuel st z
    if (igetN st y).color = Color.black then iDeleteFixupGo fuel st (some x)
    else pure st

/-- `IntervalTree.delete`. -/
def iDelete {V : Type} (fuel : Nat) (st : ISt V) (key : Int × Int) :
    Except String (Bool × ISt V) := do
  match ← iFindGo key fuel st (some st.root) with
  | some node => do
    let st ← iDeleteNode fuel st node
    pure (true, { st with size := st.size - 1 })
  | none => pure (false, st)

/-- C9, confirmed: in both classes `delete` first runs `find`; when the key
is absent (`find` yields no node) it returns `false` before touching the
heap, so the state — and with it `size`, the `entries()` sequence and the
result of every `get` — is exactly the input state; `get` of the absent
key returns the explicit absent result (`undefined`, here `none`) without
throwing. -/
theorem C9_confirmed {K V W : Type} (cmp : K → K → Ord3) (fuel : Nat)
    (st : RBSt K V) (key : K) (sti : ISt W) (ikey : Int × Int)
    (h : findGo cmp key fuel st (some st.root) = .ok none)
    (hi : iFindGo ikey fuel sti (some sti.root) = .ok none) :
    rbGet cmp fuel st key = .ok none ∧
    rbDelete cmp fuel st key = .ok (false, st) ∧
    iGet fuel sti ikey = .ok none ∧
    iDelete fuel sti ikey = .ok (false, sti) := by
  refine ⟨?_, ?_, ?_, ?_⟩
  · unfold rbGet
    rw [h]
    rfl
  · unfold rbDelete
    rw [h]
    rfl
  · unfold iGet
    rw [hi]
    rfl
  · unfold iDelete
    rw [hi]
    rfl

/-- C9, witness: a one-entry `RBTree` (key `5`) and a one-entry
`IntervalTree` (interval `[5, 6]`), queried and deleted at absent keys. -/
theorem C9_confirmed_witness :
    rbGet defaultCompareFunction 64
      (⟨[sentinelRBN, ⟨none, some 0, some 0, Color.black, some 5, some 50, false⟩],
        1, 1⟩ : RBSt Int Int) 1 = .ok none ∧
    rbDelete defaultCompareFunction 64
      (⟨[sentinelRBN, ⟨none, some 0, some 0, Color.black, some 5, some 50, false⟩],
        1, 1⟩ : RBSt Int Int) 1
      = .ok (false,
        (⟨[sentinelRBN, ⟨none, some 0, some 0, Color.black, some 5, some 50, false⟩],
          1, 1⟩ : RBSt Int Int)) ∧
    iGet 64
      (⟨[sentinelITN, ⟨none, some 0, some 0, Color.black, some (5, 6), some 50, false, 6⟩],
        1, 1⟩ : ISt Int) (1, 2) = .ok none ∧
    iDelete 64
      (⟨[sentinelITN, ⟨none, some 0, some 0, Color.black, some (5, 6), some 50, false, 6⟩],
        1, 1⟩ : ISt Int) (1, 2)
      = .ok (false,
        (⟨[sentinelITN, ⟨none, some 0, some 0, Color.black, some (5, 6), some 50, false, 6⟩],
          1, 1⟩ : ISt Int)) :=
  C9_confirmed defaultCompareFunction 64 _ 1 _ (1, 2) rfl rfl

/-! ### `IntervalTree.search` and its correctness under the tree invariants

`search` is read-only (it reads `left`, `right`, `key`, `value`, `nil`,
`max`), so it is a function of the unfolded inductive tree, like the
`AbstractRBTree` traversals. -/

inductive ITree (V : Type) where
  | nil
  | node (color : Color) (left : ITree V) (key : Int × Int) (value : V)
      (maxv : Int) (right : ITree V)
deriving DecidableEq

def ITree.isNil {V : Type} : ITree V → Bool
  | .nil => true
  | .node _ _ _ _ _ _ => false

/-- A node's `max` field; the sentinel's is `0`. -/
def ITree.maxF {V : Type} : ITree V → Int
  | .nil => 0
  | .node _ _ _ _ m _ => m

/-- Unfold the `IntervalTree` pointer structure into an inductive tree. -/
def toITree {V : Type} (st : ISt V) : Nat → Option Nat → Except String (ITree V)
  | 0, _ => .error "out of fuel"
  | _ + 1, none => .error "TypeError"
  | fuel + 1, some i =>
    if (igetN st i).nil then .ok .nil
    else
      match toITree st fuel (igetN st i).left with
      | .error e => .error e
      | .ok l =>
        match toITree st fuel (igetN st i).right with
        | .error e => .error e
        | .ok r =>
          match (igetN st i).key, (igetN st i).value with
          | some k, some v => .ok (ITree.node (igetN st i).color l k v (igetN st i).max r)
          | _, _ => .error "null key"

def iSize {V : Type} : ITree V → Nat
  | .nil => 0
  | .node _ l _ _ _ r => iSize l + iSize r + 1

def iInorder {V : Type} : ITree V → List ((Int × Int) × V)
  | .nil => []
  | .node _ l k v _ r => iInorder l ++ (k, v) :: iInorder r

/-- Forget the `max` augmentation, giving the plain red-black view. -/
def forgetMax {V : Type} : ITree V → RTree (Int × Int) V
  | .nil => .nil
  | .node c l k v _ r => .node c (forgetMax l) k v (forgetMax r)

/-- The `max` augmentation invariant: each node's `max` field is exactly
what `updateNodeMax` computes from its interval and children. -/
def maxInvB {V : Type} : ITree V → Bool
  | .nil => true
  | .node _ l k _ m r =>
    decide (m = (if l.isNil && r.isNil then k.2
      else if l.isNil then jmax k.2 r.maxF
      else if r.isNil then jmax k.2 l.maxF
      else jmax3 k.2 l.maxF r.maxF)) && maxInvB l && maxInvB r

/-- The stack loop of `IntervalTree.search`: pop `top`; push `top.left`
unless it is `nil` or pruned (`top.left.max >= query[0]` fails); yield
`top.value` when the intervals intersect; push `top.right` unless it is
`nil` or pruned (`top.key[0] <= query[1]` fails).  One unit of fuel per
iteration; the yields are collected in generator order. -/
def searchGo {V : Type} (query : Int × Int) : Nat → List (ITree V) →
    Except String (List V)
  | 0, _ => .error "out of fuel"
  | _ + 1, [] => .ok []
  | _ + 1, .nil :: _ => .error "nil on stack"
  | fuel + 1, .node _ l k v _ r :: stack =>
    match searchGo query fuel
        (if !r.isNil && decide (k.1 ≤ query.2)
          then r :: (if !l.isNil && decide (query.1 ≤ l.maxF) then l :: stack else stack)
          else (if !l.isNil && decide (query.1 ≤ l.maxF) then l :: stack else stack)) with
    | .ok tail => .ok (if intervalsIntersect k query then v :: tail else tail)
    | .error e => .error e

/-- `IntervalTree.search` (returns immediately on an empty tree). -/
def iSearch {V : Type} (t : ITree V) (query : Int × Int) : Except String (List V) :=
  if t.isNil then .ok []
  else searchGo query (iSize t + 1) [t]

/-- Modelled from the spec: the values of the stored intervals `[lo, hi]`
satisfying `lo ≤ q.hi ∧ hi ≥ q.lo` (in storage order). -/
def searchSpec {V : Type} (query : Int × Int) (t : ITree V) : List V :=
  (iInorder t).filterMap
    (fun p => if intervalsIntersect p.1 query then some p.2 else none)

def stackISize {V : Type} : List (ITree V) → Nat
  | [] => 0
  | t :: rest => iSize t + stackISize rest

theorem le_jmax_left (a b : Int) : a ≤ jmax a b := by
  unfold jmax
  split <;> omega

theorem le_jmax_right (a b : Int) : b ≤ jmax a b := by
  unfold jmax
  split <;> omega

theorem iIsNil_eq {V : Type} {t : ITree V} (h : t.isNil = true) : t = ITree.nil := by
  cases t with
  | nil => rfl
  | node c l k v m r => simp [ITree.isNil] at h

theorem maxInvB_node {V : Type} (c : Color) (l : ITree V) (k : Int × Int)
    (v : V) (m : Int) (r : ITree V) :
    maxInvB (ITree.node c l k v m r) = true ↔
      m = (if l.isNil && r.isNil then k.2
        else if l.isNil then jmax k.2 r.maxF
        else if r.isNil then jmax k.2 l.maxF
        else jmax3 k.2 l.maxF r.maxF) ∧ maxInvB l = true ∧ maxInvB r = true := by
  have h : maxInvB (ITree.node c l k v m r)
      = (decide (m = (if l.isNil && r.isNil then k.2
          else if l.isNil then jmax k.2 r.maxF
          else if r.isNil then jmax k.2 l.maxF
          else jmax3 k.2 l.maxF r.maxF)) && maxInvB l && maxInvB r) := rfl
  rw [h, Bool.and_eq_true, Bool.and_eq_true, decide_eq_true_eq]
  tauto

/-- Every stored interval's right endpoint is bounded by the subtree's
`max` field, under the `max` invariant. -/
theorem maxInv_bound {V : Type} :
    ∀ (t : ITree V), maxInvB t = true → ∀ p ∈ iInorder t, p.1.2 ≤ t.maxF := by
  intro t
  induction t with
  | nil => intro _ p hp; simp [iInorder] at hp
  | node c l k v m r ihl ihr =>
    intro hm p hp
    rw [maxInvB_node] at hm
    obtain ⟨hmv, hl, hr⟩ := hm
    have hmk : k.2 ≤ m := by
      rw [hmv]
      cases hnl : l.isNil <;> cases hnr : r.isNil <;>
        simp [hnl, hnr, jmax3, jmax] <;> (try split_ifs) <;> omega
    have hml : l.isNil = false → l.maxF ≤ m := by
      intro hnl
      rw [hmv]
      cases hnr : r.isNil <;>
        simp [hnl, hnr, jmax3, jmax] <;> (try split_ifs) <;> omega
    have hmr : r.isNil = false → r.maxF ≤ m := by
      intro hnr
      rw [hmv]
      cases hnl : l.isNil <;>
        simp [hnl, hnr, jmax3, jmax] <;> (try split_ifs) <;> omega
    simp only [iInorder, List.mem_append, List.mem_cons] at hp
    rcases hp with hp | hp | hp
    · have hnl : l.isNil = false := by
        cases hnl : l.isNil
        · rfl
        · rw [iIsNil_eq hnl] at hp
          simp [iInorder] at hp
      exact le_trans (ihl hl p hp) (by
        show l.maxF ≤ (ITree.node c l k v m r).maxF
        exact hml hnl)
    · subst hp
      exact hmk
    · have hnr : r.isNil = false := by
        cases hnr : r.isNil
        · rfl
        · rw [iIsNil_eq hnr] at hp
          simp [iInorder] at hp
      exact le_trans (ihr hr p hp) (hmr hnr)

theorem icompare_lt_iff (a b : Int × Int) :
    icompareFn a b = Ord3.LT ↔ (a.1 < b.1 ∨ (a.1 = b.1 ∧ a.2 < b.2)) := by
  unfold icompareFn
  split_ifs with h1 h2 h3 h4 <;>
    constructor <;> intro h <;> first | omega | (exact absurd h (by decide)) | rfl

theorem icompare_gt_iff (a b : Int × Int) :
    icompareFn a b = Ord3.GT ↔ (b.1 < a.1 ∨ (b.1 = a.1 ∧ b.2 < a.2)) := by
  unfold icompareFn
  split_ifs with h1 h2 h3 h4 <;>
    constructor <;> intro h <;> first | omega | (exact absurd h (by decide)) | rfl

theorem icompare_trans : ∀ a b c : Int × Int,
    icompareFn a b = .LT → icompareFn b c = .LT → icompareFn a c = .LT := by
  intro a b c h1 h2
  rw [icompare_lt_iff] at h1 h2 ⊢
  omega

theorem icompare_flip : ∀ a b : Int × Int,
    icompareFn a b = .GT → icompareFn b a = .LT := by
  intro a b h
  rw [icompare_gt_iff] at h
  rw [icompare_lt_iff]
  omega

theorem inorder_forgetMax {V : Type} (t : ITree V) :
    inorder (forgetMax t) = iInorder t := by
  induction t with
  | nil => rfl
  | node c l k v m r ihl ihr => simp [forgetMax, inorder, iInorder, ihl, ihr]

theorem strict_drop_min {K V : Type} (cmp : K → K → Ord3) :
    ∀ (t : RTree K V) (mn mx : Option K),
      strictlyOrderedAux cmp t mn mx = true →
      strictlyOrderedAux cmp t none mx = true := by
  intro t
  induction t with
  | nil => intro _ _ _; rfl
  | node col l k v r ihl ihr =>
    intro mn mx h
    simp only [strictlyOrderedAux, Bool.and_eq_true] at h ⊢
    obtain ⟨⟨⟨_, hb⟩, hsl⟩, hsr⟩ := h
    exact ⟨⟨⟨trivial, hb⟩, ihl mn (some k) hsl⟩, hsr⟩

theorem strict_drop_max {K V : Type} (cmp : K → K → Ord3) :
    ∀ (t : RTree K V) (mn mx : Option K),
      strictlyOrderedAux cmp t mn mx = true →
      strictlyOrderedAux cmp t mn none = true := by
  intro t
  induction t with
  | nil => intro _ _ _; rfl
  | node col l k v r ihl ihr =>
    intro mn mx h
    simp only [strictlyOrderedAux, Bool.and_eq_true] at h ⊢
    obtain ⟨⟨⟨ha, _⟩, hsl⟩, hsr⟩ := h
    exact ⟨⟨⟨ha, trivial⟩, hsl⟩, ihr (some k) mx hsr⟩

theorem searchSpec_node {V : Type} (q : Int × Int) (c : Color) (l : ITree V)
    (k : Int × Int) (v : V) (m : Int) (r : ITree V) :
    searchSpec q (ITree.node c l k v m r)
      = searchSpec q l ++ (if intervalsIntersect k q then [v] else []) ++ searchSpec q r := by
  unfold searchSpec
  simp only [iInorder, List.filterMap_append, List.filterMap_cons]
  by_cases h : intervalsIntersect k q = true <;> simp [h]

/-- A subtree pruned by the `max` test stores no intersecting interval. -/
theorem searchSpec_nil_of_max {V : Type} (q : Int × Int) (t : ITree V)
    (hinv : maxInvB t = true) (hlt : t.maxF < q.1) : searchSpec q t = [] := by
  unfold searchSpec
  rw [List.filterMap_eq_nil_iff]
  intro p hp
  have h := maxInv_bound t hinv p hp
  have : intervalsIntersect p.1 q = false := by
    unfold intervalsIntersect
    have : ¬ (p.1.2 ≥ q.1) := by omega
    simp [this]
  rw [this]
  simp

/-- A subtree pruned by the `lo` test (all of whose keys exceed the node
key `k` in the lexicographic order) stores no intersecting interval. -/
theorem searchSpec_nil_of_lo {V : Type} (q k : Int × Int) (t : ITree V)
    (hso : strictlyOrderedAux icompareFn (forgetMax t) (some k) none = true)
    (hgt : q.2 < k.1) : searchSpec q t = [] := by
  unfold searchSpec
  rw [List.filterMap_eq_nil_iff]
  intro p hp
  have hmem : p.1 ∈ treeKeys (forgetMax t) := by
    rw [treeKeys_eq_map, inorder_forgetMax]
    exact List.mem_map_of_mem Prod.fst hp
  have h := ((strict_sorted icompareFn icompare_trans icompare_flip
    (forgetMax t) (some k) none hso).1 p.1 hmem).1 k rfl
  rw [icompare_lt_iff] at h
  have : intervalsIntersect p.1 q = false := by
    unfold intervalsIntersect
    have : ¬ (p.1.1 ≤ q.2) := by omega
    simp [this]
  rw [this]
  simp

theorem ite_cons_eq_append {α : Type} (c : Prop) [inst : Decidable c] (v : α)
    (t : List α) :
    (if c then v :: t else t) = (if c then [v] else []) ++ t := by
  split <;> rfl

theorem perm_swap_append {α : Type} (A B D : List α) :
    (B ++ (A ++ D)).Perm (A ++ (B ++ D)) := by
  rw [← List.append_assoc, ← List.append_assoc]
  exact List.perm_append_comm.append_right D

theorem perm_rotate3 {α : Type} (A B C D : List α) :
    (B ++ (C ++ (A ++ D))).Perm (A ++ (B ++ (C ++ D))) :=
  (List.Perm.append_left B (perm_swap_append A C D)).trans
    (perm_swap_append A B (C ++ D))

theorem searchGo_perm {V : Type} (q : Int × Int) :
    ∀ (fuel : Nat) (stack : List (ITree V)),
      (∀ t ∈ stack, t.isNil = false ∧ maxInvB t = true ∧
        strictlyOrderedAux icompareFn (forgetMax t) none none = true) →
      stackISize stack + 1 ≤ fuel →
      ∃ res, searchGo q fuel stack = .ok res ∧
        res.Perm (stack.map (searchSpec q)).flatten := by
  intro fuel
  induction fuel with
  | zero => intro stack _ hf; omega
  | succ f ih =>
    intro stack hgood hf
    cases stack with
    | nil => exact ⟨[], rfl, by simp⟩
    | cons t rest =>
      cases t with
      | nil =>
        have := (hgood ITree.nil (by simp)).1
        simp [ITree.isNil] at this
      | node c l k v m r =>
        obtain ⟨-, hmI, hsoI⟩ := hgood (ITree.node c l k v m r) (by simp)
        rw [maxInvB_node] at hmI
        obtain ⟨hmv, hml, hmr⟩ := hmI
        have hsplit : strictlyOrderedAux icompareFn
            (forgetMax (ITree.node c l k v m r)) none none
            = (strictlyOrderedAux icompareFn (forgetMax l) none (some k) &&
               strictlyOrderedAux icompareFn (forgetMax r) (some k) none) := rfl
        rw [hsplit, Bool.and_eq_true] at hsoI
        obtain ⟨hsoL, hsoR⟩ := hsoI
        have hrest : ∀ t ∈ rest, t.isNil = false ∧ maxInvB t = true ∧
            strictlyOrderedAux icompareFn (forgetMax t) none none = true :=
          fun t ht => hgood t (List.mem_cons_of_mem _ ht)
        have hlgood : l.isNil = false → (l.isNil = false ∧ maxInvB l = true ∧
            strictlyOrderedAux icompareFn (forgetMax l) none none = true) :=
          fun hn => ⟨hn, hml, strict_drop_max icompareFn (forgetMax l) none (some k) hsoL⟩
        simp only [stackISize, iSize] at hf
        have hjr : ((ITree.node c l k v m r :: rest).map (searchSpec q)).flatten
            = searchSpec q (ITree.node c l k v m r) ++ (rest.map (searchSpec q)).flatten := rfl
        by_cases hPL : (!ITree.isNil l && decide (q.1 ≤ l.maxF)) = true
        · have hPL' := hPL
          simp only [Bool.and_eq_true, Bool.not_eq_true', decide_eq_true_eq] at hPL'
          by_cases hPR : (!ITree.isNil r && decide (k.1 ≤ q.2)) = true
          · have hPR' := hPR
            simp only [Bool.and_eq_true, Bool.not_eq_true', decide_eq_true_eq] at hPR'
            obtain ⟨tail, htail, hperm⟩ := ih (r :: l :: rest) (by
              intro t ht
              rcases List.mem_cons.mp ht with h | h
              · rw [h]
                exact ⟨hPR'.1, hmr,
                  strict_drop_min icompareFn (forgetMax r) (some k) none hsoR⟩
              rcases List.mem_cons.mp h with h | h
              · rw [h]
                exact hlgood hPL'.1
              · exact hrest t h)
              (by simp only [stackISize]; omega)
            have hperm' : tail.Perm (searchSpec q r ++ (searchSpec q l ++
                (rest.map (searchSpec q)).flatten)) := by
              have hje : ((r :: l :: rest).map (searchSpec q)).flatten
                  = searchSpec q r ++ (searchSpec q l ++
                      (rest.map (searchSpec q)).flatten) := rfl
              rw [hje] at hperm
              exact hperm
            refine ⟨if intervalsIntersect k q then v :: tail else tail, ?_, ?_⟩
            · simp only [searchGo]
              rw [if_pos hPL, if_pos hPR, htail]
            · rw [ite_cons_eq_append, hjr, searchSpec_node]
              simp only [List.append_assoc]
              exact (List.Perm.append_left _ hperm').trans
                (perm_rotate3 (searchSpec q l) _ (searchSpec q r)
                  (rest.map (searchSpec q)).flatten)
          · have hCnil : searchSpec q r = [] := by
              cases hrn : r.isNil with
              | true => rw [iIsNil_eq hrn]; rfl
              | false =>
                have hgt : q.2 < k.1 := by
                  by_contra hc
                  push_neg at hc
                  exact hPR (by rw [hrn]; simp [hc])
                exact searchSpec_nil_of_lo q k r hsoR hgt
            obtain ⟨tail, htail, hperm⟩ := ih (l :: rest) (by
              intro t ht
              rcases List.mem_cons.mp ht with h | h
              · rw [h]
                exact hlgood hPL'.1
              · exact hrest t h)
              (by simp only [stackISize]; omega)
            have hperm' : tail.Perm (searchSpec q l ++
                (rest.map (searchSpec q)).flatten) := by
              have hje : ((l :: rest).map (searchSpec q)).flatten
                  = searchSpec q l ++ (rest.map (searchSpec q)).flatten := rfl
              rw [hje] at hperm
              exact hperm
            refine ⟨if intervalsIntersect k q then v :: tail else tail, ?_, ?_⟩
            · simp only [searchGo]
              rw [if_pos hPL, if_neg hPR, htail]
            · rw [ite_cons_eq_append, hjr, searchSpec_node, hCnil]
              simp only [List.append_nil, List.append_assoc]
              exact (List.Perm.append_left _ hperm').trans
                (perm_swap_append (searchSpec q l) _ (rest.map (searchSpec q)).flatten)
        · have hAnil : searchSpec q l = [] := by
            cases hln : l.isNil with
            | true => rw [iIsNil_eq hln]; rfl
            | false =>
              have hgt : l.maxF < q.1 := by
                by_contra hc
                push_neg at hc
                exact hPL (by rw [hln]; simp [hc])
              exact searchSpec_nil_of_max q l hml hgt
          by_cases hPR : (!ITree.isNil r && decide (k.1 ≤ q.2)) = true
          · have hPR' := hPR
            simp only [Bool.and_eq_true, Bool.not_eq_true', decide_eq_true_eq] at hPR'
            obtain ⟨tail, htail, hperm⟩ := ih (r :: rest) (by
              intro t ht
              rcases List.mem_cons.mp ht with h | h
              · rw [h]
                exact ⟨hPR'.1, hmr,
                  strict_drop_min icompareFn (forgetMax r) (some k) none hsoR⟩
              · exact hrest t h)
              (by simp only [stackISize]; omega)
            have hperm' : tail.Perm (searchSpec q r ++
                (rest.map (searchSpec q)).flatten) := by
              have hje : ((r :: rest).map (searchSpec q)).flatten
                  = searchSpec q r ++ (rest.map (searchSpec q)).flatten := rfl
              rw [hje] at hperm
              exact hperm
            refine ⟨if intervalsIntersect k q then v :: tail else tail, ?_, ?_⟩
            · simp only [searchGo]
              rw [if_neg hPL, if_pos hPR, htail]
            · rw [ite_cons_eq_append, hjr, searchSpec_node, hAnil]
              simp only [List.nil_append, List.append_assoc]
              exact List.Perm.append_left _ hperm'
          · obtain ⟨tail, htail, hperm⟩ := ih rest hrest (by omega)
            have hCnil : searchSpec q r = [] := by
              cases hrn : r.isNil with
              | true => rw [iIsNil_eq hrn]; rfl
              | false =>
                have hgt : q.2 < k.1 := by
                  by_contra hc
                  push_neg at hc
                  exact hPR (by rw [hrn]; simp [hc])
                exact searchSpec_nil_of_lo q k r hsoR hgt
            refine ⟨if intervalsIntersect k q then v :: tail else tail, ?_, ?_⟩
            · simp only [searchGo]
              rw [if_neg hPL, if_neg hPR, htail]
            · rw [ite_cons_eq_append, hjr, searchSpec_node, hAnil, hCnil]
              simp only [List.nil_append, List.append_nil]
              exact List.Perm.append_left _ hperm

theorem iSearch_correct {V : Type} (t : ITree V) (q : Int × Int)
    (hinv : maxInvB t = true)
    (hso : strictlyOrderedAux icompareFn (forgetMax t) none none = true) :
    ∃ res, iSearch t q = .ok res ∧ res.Perm (searchSpec q t) := by
  cases hn : t.isNil with
  | true =>
    rw [iIsNil_eq hn]
    exact ⟨[], rfl, List.Perm.refl _⟩
  | false =>
    obtain ⟨res, hres, hperm⟩ := searchGo_perm q (iSize t + 1) [t]
      (by
        intro t2 ht2
        rcases List.mem_cons.mp ht2 with h | h
        · rw [h]
          exact ⟨hn, hinv, hso⟩
        · simp at h)
      (by simp only [stackISize]; omega)
    refine ⟨res, ?_, ?_⟩
    · unfold iSearch
      rw [if_neg (by rw [hn]; simp)]
      exact hres
    · simpa using hperm

/-! ### Reachable heaps represent trees

To settle the reachability claims we prove that every heap state reachable
by `set`/`delete` represents a well-formed binary tree and that the
operations preserve the order invariant of that tree (and, for the balance
checker, its red-black colouring).  `RepN st po i t ids` says slot `i`,
whose `parent` field holds `po`, represents tree `t`, the interior nodes
occupying exactly the arena slots `ids` (pairwise distinct, never slot 0,
in range).  A `nil` tree is any in-range slot whose `nil` flag is set; its
other fields are unconstrained (the shared sentinel's `parent` and `color`
really are written by `deleteNode`/`deleteFixup`). -/

theorem getN_setN_self {K V : Type} (st : RBSt K V) (i : Nat) (n : RBN K V)
    (h : i < st.nodes.length) : getN (setN st i n) i = n := by
  unfold getN setN
  simp [List.getD_eq_getElem?_getD, List.getElem?_set_self, h]

theorem getN_setN_ne {K V : Type} (st : RBSt K V) (i j : Nat) (n : RBN K V)
    (h : j ≠ i) : getN (setN st i n) j = getN st j := by
  unfold getN setN
  simp [List.getD_eq_getElem?_getD, List.getElem?_set_ne (by omega : i ≠ j)]

theorem length_setN {K V : Type} (st : RBSt K V) (i : Nat) (n : RBN K V) :
    (setN st i n).nodes.length = st.nodes.length := by
  unfold setN
  simp

theorem root_setN {K V : Type} (st : RBSt K V) (i : Nat) (n : RBN K V) :
    (setN st i n).root = st.root := rfl

theorem size_setN {K V : Type} (st : RBSt K V) (i : Nat) (n : RBN K V) :
    (setN st i n).size = st.size := rfl

theorem getN_append_lt {K V : Type} (st : RBSt K V) (ns : List (RBN K V))
    (i : Nat) (h : i < st.nodes.length) :
    getN { st with nodes := st.nodes ++ ns } i = getN st i := by
  unfold getN
  simp only
  rw [List.getD_append _ _ _ _ h]

inductive RepN {K V : Type} (st : RBSt K V) : Option Nat → Nat → RTree K V → Finset Nat → Prop
  | nil {po : Option Nat} {i : Nat} (h : (getN st i).nil = true)
      (hlen : i < st.nodes.length) :
      RepN st po i RTree.nil ∅
  | node {po : Option Nat} {i l r : Nat} {c : Color} {k : K} {v : V}
      {tl tr : RTree K V} {il ir : Finset Nat}
      (hn : getN st i = ⟨po, some l, some r, c, some k, some v, false⟩)
      (hl : RepN st (some i) l tl il) (hr : RepN st (some i) r tr ir)
      (hd : Disjoint il ir) (hil : i ∉ il) (hir : i ∉ ir)
      (hlen : i < st.nodes.length) (hi0 : i ≠ 0) :
      RepN st po i (RTree.node c tl k v tr) (insert i (il ∪ ir))

theorem repN_ids_lt {K V : Type} {st : RBSt K V} {po : Option Nat} {i : Nat}
    {t : RTree K V} {ids : Finset Nat} (h : RepN st po i t ids) :
    ∀ j ∈ ids, j < st.nodes.length ∧ j ≠ 0 := by
  induction h with
  | nil => intro j hj; simp at hj
  | node hn hl hr hd hil hir hlen hi0 ihl ihr =>
    intro j hj
    rw [Finset.mem_insert, Finset.mem_union] at hj
    rcases hj with hj | hj | hj
    · subst hj; exact ⟨hlen, hi0⟩
    · exact ihl j hj
    · exact ihr j hj

theorem repN_root_mem {K V : Type} {st : RBSt K V} {po : Option Nat} {i l r : Nat}
    {c : Color} {k : K} {v : V} {tl tr : RTree K V} {ids : Finset Nat}
    (h : RepN st po i (RTree.node c tl k v tr) ids) : i ∈ ids := by
  cases h with
  | node hn hl hr hd hil hir hlen hi0 => simp

theorem repN_lt {K V : Type} {st : RBSt K V} {po : Option Nat} {i : Nat}
    {t : RTree K V} {ids : Finset Nat} (h : RepN st po i t ids) :
    i < st.nodes.length := by
  cases h with
  | nil h hlen => exact hlen
  | node hn hl hr hd hil hir hlen hi0 => exact hlen

/-- Writes outside a subtree's slots (no write in the source ever changes a
`nil` flag) leave its representation unchanged. -/
theorem repN_frame {K V : Type} {st : RBSt K V} {po : Option Nat} {i : Nat}
    {t : RTree K V} {ids : Finset Nat} (h : RepN st po i t ids) :
    ∀ (j : Nat) (n : RBN K V), j ∉ ids → n.nil = (getN st j).nil →
      RepN (setN st j n) po i t ids := by
  induction h with
  | nil h hlen =>
    rename_i po2 i2
    intro j n _ hnil
    refine RepN.nil ?_ (by rw [length_setN]; exact hlen)
    by_cases hij : j = i2
    · subst hij
      by_cases hlt : j < st.nodes.length
      · rw [getN_setN_self st j n hlt, hnil]
        exact h
      · omega
    · rw [getN_setN_ne st j i2 n (fun hh => hij hh.symm)]
      exact h
  | node hn hl hr hd hil hir hlen hi0 ihl ihr =>
    rename_i po2 i2 l r c k v tl tr il ir
    intro j n hj hnil
    rw [Finset.mem_insert, Finset.mem_union] at hj
    push_neg at hj
    refine RepN.node ?_ (ihl j n hj.2.1 hnil) (ihr j n hj.2.2 hnil) hd hil hir
      (by rw [length_setN]; exact hlen) hi0
    rw [getN_setN_ne st j i2 n (fun hh => hj.1 hh.symm)]
    exact hn

/-- Representation is stable under appending fresh slots. -/
theorem repN_append {K V : Type} {st : RBSt K V} {po : Option Nat} {i : Nat}
    {t : RTree K V} {ids : Finset Nat} (h : RepN st po i t ids)
    (ns : List (RBN K V)) :
    RepN { st with nodes := st.nodes ++ ns } po i t ids := by
  induction h with
  | nil h hlen =>
    refine RepN.nil ?_ (by simp; omega)
    rw [getN_append_lt st ns _ hlen]
    exact h
  | node hn hl hr hd hil hir hlen hi0 ihl ihr =>
    refine RepN.node ?_ ihl ihr hd hil hir (by simp; omega) hi0
    rw [getN_append_lt st ns _ hlen]
    exact hn

/-- A represented tree is what `toRTree` computes whenever the latter
succeeds. -/
theorem repN_toRTree {K V : Type} {st : RBSt K V} :
    ∀ {po : Option Nat} {i : Nat} {t t2 : RTree K V} {ids : Finset Nat}
      {fuel : Nat},
      RepN st po i t ids → toRTree st fuel (some i) = .ok t2 → t2 = t := by
  intro po i t t2 ids fuel h
  induction h generalizing t2 fuel with
  | nil hn hlen =>
    intro ht
    cases fuel with
    | zero => simp [toRTree] at ht
    | succ f =>
      unfold toRTree at ht
      rw [if_pos hn] at ht
      exact (Except.ok.inj ht).symm
  | node hn hl hr hd hil hir hlen hi0 ihl ihr =>
    intro ht
    cases fuel with
    | zero => simp [toRTree] at ht
    | succ f =>
      unfold toRTree at ht
      rw [if_neg (by rw [hn]; simp)] at ht
      rcases hl2 : toRTree st f (getN st _).left with _ | tl2
      · rw [hn] at hl2
        rw [hn, hl2] at ht
        simp at ht
      · rw [hn] at hl2
        rw [hn, hl2] at ht
        rcases hr2 : toRTree st f (some _) with _ | tr2
        · rw [hr2] at ht
          simp at ht
        · rw [hr2] at ht
          simp at ht
          have el := ihl hl2
          have er := ihr hr2
          subst el
          subst er
          rw [← ht]

/-- A one-hole context in the represented tree.  Each frame records the
frame node's colour/key/value, its arena slot `pid`, and the slot `sib`
and tree `sibT` of its other subtree; `left` means the hole is the LEFT
child of the frame node. -/
inductive RCtx (K V : Type) where
  | root
  | left (c : Color) (k : K) (v : V) (pid sib : Nat) (sibT : RTree K V) (up : RCtx K V)
  | right (c : Color) (k : K) (v : V) (pid sib : Nat) (sibT : RTree K V) (up : RCtx K V)

def plugZ {K V : Type} : RCtx K V → RTree K V → RTree K V
  | .root, t => t
  | .left c k v _ _ sibT up, t => plugZ up (RTree.node c t k v sibT)
  | .right c k v _ _ sibT up, t => plugZ up (RTree.node c sibT k v t)

/-- The `parent` pointer value at the hole. -/
def holePO {K V : Type} : RCtx K V → Option Nat
  | .root => none
  | .left _ _ _ pid _ _ _ => some pid
  | .right _ _ _ pid _ _ _ => some pid

/-- The heap realises the context `ctx` whose hole points at slot `hid`,
the frame nodes and sibling subtrees occupying exactly the slots `cids`. -/
inductive RepHole {K V : Type} (st : RBSt K V) : RCtx K V → Nat → Finset Nat → Prop
  | root {hid : Nat} (h : st.root = hid) : RepHole st .root hid ∅
  | left {up : RCtx K V} {c : Color} {k : K} {v : V} {pid sib hid : Nat}
      {sibT : RTree K V} {upids sibids : Finset Nat}
      (hup : RepHole st up pid upids)
      (hn : getN st pid = ⟨holePO up, some hid, some sib, c, some k, some v, false⟩)
      (hs : RepN st (some pid) sib sibT sibids)
      (hd : Disjoint upids sibids) (hp1 : pid ∉ upids) (hp2 : pid ∉ sibids)
      (hlen : pid < st.nodes.length) (h0 : pid ≠ 0) :
      RepHole st (.left c k v pid sib sibT up) hid (insert pid (upids ∪ sibids))
  | right {up : RCtx K V} {c : Color} {k : K} {v : V} {pid sib hid : Nat}
      {sibT : RTree K V} {upids sibids : Finset Nat}
      (hup : RepHole st up pid upids)
      (hn : getN st pid = ⟨holePO up, some sib, some hid, c, some k, some v, false⟩)
      (hs : RepN st (some pid) sib sibT sibids)
      (hd : Disjoint upids sibids) (hp1 : pid ∉ upids) (hp2 : pid ∉ sibids)
      (hlen : pid < st.nodes.length) (h0 : pid ≠ 0) :
      RepHole st (.right c k v pid sib sibT up) hid (insert pid (upids ∪ sibids))

/-- A focused view of the heap: context plus focused subtree, with
disjoint slot sets.  `hpar` records the focused slot's `parent` field even
when the subtree is `nil` (the sentinel case of `deleteFixup`). -/
structure Zip {K V : Type} (st : RBSt K V) (ctx : RCtx K V) (x : Nat)
    (sub : RTree K V) (cids sids : Finset Nat) : Prop where
  hole : RepHole st ctx x cids
  hsub : RepN st (holePO ctx) x sub sids
  hdisj : Disjoint cids sids
  hx : x ∉ cids
  hxlen : x < st.nodes.length
  hpar : ∀ p, holePO ctx = some p → (getN st x).parent = some p

theorem repHole_ids_lt {K V : Type} {st : RBSt K V} {ctx : RCtx K V}
    {hid : Nat} {cids : Finset Nat} (h : RepHole st ctx hid cids) :
    ∀ j ∈ cids, j < st.nodes.length ∧ j ≠ 0 := by
  induction h with
  | root => intro j hj; simp at hj
  | left hup hn hs hd hp1 hp2 hlen h0 ih =>
    intro j hj
    rw [Finset.mem_insert, Finset.mem_union] at hj
    rcases hj with hj | hj | hj
    · subst hj; exact ⟨hlen, h0⟩
    · exact ih j hj
    · exact repN_ids_lt hs j hj
  | right hup hn hs hd hp1 hp2 hlen h0 ih =>
    intro j hj
    rw [Finset.mem_insert, Finset.mem_union] at hj
    rcases hj with hj | hj | hj
    · subst hj; exact ⟨hlen, h0⟩
    · exact ih j hj
    · exact repN_ids_lt hs j hj

theorem repHole_frame {K V : Type} {st : RBSt K V} {ctx : RCtx K V}
    {hid : Nat} {cids : Finset Nat} (h : RepHole st ctx hid cids) :
    ∀ (j : Nat) (n : RBN K V), j ∉ cids → n.nil = (getN st j).nil →
      RepHole (setN st j n) ctx hid cids := by
  induction h with
  | root h => intro j n _ _; exact RepHole.root h
  | left hup hn hs hd hp1 hp2 hlen h0 ih =>
    rename_i up c k v pid sib hid2 sibT upids sibids
    intro j n hj hnil
    rw [Finset.mem_insert, Finset.mem_union] at hj
    push_neg at hj
    refine RepHole.left (ih j n hj.2.1 hnil) ?_ (repN_frame hs j n hj.2.2 hnil)
      hd hp1 hp2 (by rw [length_setN]; exact hlen) h0
    rw [getN_setN_ne st j pid n (fun hh => hj.1 hh.symm)]
    exact hn
  | right hup hn hs hd hp1 hp2 hlen h0 ih =>
    rename_i up c k v pid sib hid2 sibT upids sibids
    intro j n hj hnil
    rw [Finset.mem_insert, Finset.mem_union] at hj
    push_neg at hj
    refine RepHole.right (ih j n hj.2.1 hnil) ?_ (repN_frame hs j n hj.2.2 hnil)
      hd hp1 hp2 (by rw [length_setN]; exact hlen) h0
    rw [getN_setN_ne st j pid n (fun hh => hj.1 hh.symm)]
    exact hn

theorem repHole_append {K V : Type} {st : RBSt K V} {ctx : RCtx K V}
    {hid : Nat} {cids : Finset Nat} (h : RepHole st ctx hid cids)
    (ns : List (RBN K V)) :
    RepHole { st with nodes := st.nodes ++ ns } ctx hid cids := by
  induction h with
  | root h => exact RepHole.root h
  | left hup hn hs hd hp1 hp2 hlen h0 ih =>
    refine RepHole.left ih ?_ (repN_append hs ns) hd hp1 hp2 (by simp; omega) h0
    rw [getN_append_lt st ns _ hlen]
    exact hn
  | right hup hn hs hd hp1 hp2 hlen h0 ih =>
    refine RepHole.right ih ?_ (repN_append hs ns) hd hp1 hp2 (by simp; omega) h0
    rw [getN_append_lt st ns _ hlen]
    exact hn

/-- Close a focused view: the whole heap from the root represents the
plugged tree. -/
theorem zip_close {K V : Type} {st : RBSt K V} :
    ∀ {ctx : RCtx K V} {x : Nat} {sub : RTree K V} {cids sids : Finset Nat},
      Zip st ctx x sub cids sids →
      RepN st none st.root (plugZ ctx sub) (cids ∪ sids) := by
  intro ctx
  induction ctx with
  | root =>
    intro x sub cids sids hz
    obtain ⟨hole, hsub, hdisj, hx, hxlen, hpar⟩ := hz
    cases hole with
    | root h =>
      rw [h]
      simpa using hsub
  | left c k v pid sib sibT up ih =>
    intro x sub cids sids hz
    obtain ⟨hole, hsub, hdisj, hx, hxlen, hpar⟩ := hz
    cases hole with
    | left hup hn hs hd hp1 hp2 hlen h0 =>
      rename_i upids sibids
      have hdr := Finset.disjoint_right.mp hdisj
      have hd1 : Disjoint sids sibids := Finset.disjoint_left.mpr (fun a ha hb =>
        hdr ha (by simp [hb]))
      have hpsids : pid ∉ sids := fun hp => hdr hp (by simp)
      have hd2 : Disjoint upids (insert pid (sids ∪ sibids)) := by
        rw [Finset.disjoint_right]
        intro a ha
        rw [Finset.mem_insert, Finset.mem_union] at ha
        rcases ha with rfl | ha | ha
        · exact hp1
        · exact fun hb => hdr ha (by simp [hb])
        · exact fun hb => Finset.disjoint_left.mp hd hb ha
      have hznew : Zip st up pid (RTree.node c sub k v sibT)
          upids (insert pid (sids ∪ sibids)) := by
        refine ⟨hup, RepN.node hn hsub hs hd1 hpsids hp2 hlen h0, hd2, hp1, hlen, ?_⟩
        intro p hp
        rw [hn]
        simpa using hp
      have hres := ih hznew
      have hids : upids ∪ insert pid (sids ∪ sibids)
          = insert pid (upids ∪ sibids) ∪ sids := by
        ext a
        simp only [Finset.mem_insert, Finset.mem_union]
        tauto
      rw [hids] at hres
      exact hres
  | right c k v pid sib sibT up ih =>
    intro x sub cids sids hz
    obtain ⟨hole, hsub, hdisj, hx, hxlen, hpar⟩ := hz
    cases hole with
    | right hup hn hs hd hp1 hp2 hlen h0 =>
      rename_i upids sibids
      have hdr := Finset.disjoint_right.mp hdisj
      have hd1 : Disjoint sibids sids := Finset.disjoint_right.mpr (fun a ha hb =>
        hdr ha (by simp [hb]))
      have hpsids : pid ∉ sids := fun hp => hdr hp (by simp)
      have hd2 : Disjoint upids (insert pid (sids ∪ sibids)) := by
        rw [Finset.disjoint_right]
        intro a ha
        rw [Finset.mem_insert, Finset.mem_union] at ha
        rcases ha with rfl | ha | ha
        · exact hp1
        · exact fun hb => hdr ha (by simp [hb])
        · exact fun hb => Finset.disjoint_left.mp hd hb ha
      have hznew : Zip st up pid (RTree.node c sibT k v sub)
          upids (insert pid (sids ∪ sibids)) := by
        refine ⟨hup, ?_, hd2, hp1, hlen, ?_⟩
        · have hn2 := RepN.node hn hs hsub hd1 hp2 hpsids hlen h0
          have : sibids ∪ sids = sids ∪ sibids := Finset.union_comm _ _
          rw [this] at hn2
          exact hn2
        · intro p hp
          rw [hn]
          simpa using hp
      have hres := ih hznew
      have hids : upids ∪ insert pid (sids ∪ sibids)
          = insert pid (upids ∪ sibids) ∪ sids := by
        ext a
        simp only [Finset.mem_insert, Finset.mem_union]
        tauto
      rw [hids] at hres
      exact hres

/-- Open a focused view at any interior slot of a represented subtree. -/
theorem repN_unzip {K V : Type} {st : RBSt K V} :
    ∀ {po : Option Nat} {i : Nat} {t : RTree K V} {ids : Finset Nat},
      RepN st po i t ids →
      ∀ x ∈ ids, ∀ {ctx : RCtx K V} {cids : Finset Nat},
        RepHole st ctx i cids → holePO ctx = po → Disjoint cids ids → i ∉ cids →
        ∃ ctx2 sub cids2 sids2, Zip st ctx2 x sub cids2 sids2 ∧
          plugZ ctx2 sub = plugZ ctx t ∧ cids2 ∪ sids2 = cids ∪ ids := by
  intro po i t ids h
  induction h with
  | nil h hlen => intro x hx; simp at hx
  | node hn hl hr hd hil hir hlen hi0 ihl ihr =>
    rename_i po2 i2 l r c k v tl tr il ir
    intro x hx ctx cids hctx hpo hdisj hni
    rw [Finset.mem_insert, Finset.mem_union] at hx
    have hdl := Finset.disjoint_left.mp hdisj
    rcases hx with rfl | hx | hx
    · refine ⟨ctx, RTree.node c tl k v tr, cids, insert x (il ∪ ir),
        ⟨hctx, ?_, hdisj, hni, hlen, ?_⟩, rfl, rfl⟩
      · rw [hpo]
        exact RepN.node hn hl hr hd hil hir hlen hi0
      · intro p hp
        rw [hn]
        show po2 = some p
        rw [← hpo]
        exact hp
    · have hlmem : l ∈ il := by
        have hl2 := hl
        cases hl2 with
        | nil h2 hlen2 => simp at hx
        | node _ _ _ _ _ _ _ _ => simp
      have hctx2 : RepHole st (RCtx.left c k v i2 r tr ctx) l
          (insert i2 (cids ∪ ir)) := by
        refine RepHole.left hctx ?_ hr
          (Finset.disjoint_left.mpr (fun a ha hb => hdl ha (by simp [hb])))
          hni hir hlen hi0
        rw [hpo]
        exact hn
      have hres := ihl x hx hctx2 rfl ?_ ?_
      · obtain ⟨ctx2, sub, cids2, sids2, hz, hplug, hids⟩ := hres
        refine ⟨ctx2, sub, cids2, sids2, hz, hplug, ?_⟩
        rw [hids]
        ext a
        simp only [Finset.mem_insert, Finset.mem_union]
        tauto
      · rw [Finset.disjoint_left]
        intro a ha
        rw [Finset.mem_insert, Finset.mem_union] at ha
        rcases ha with rfl | ha | ha
        · exact hil
        · exact fun hb => hdl ha (by simp [hb])
        · exact fun hb => Finset.disjoint_left.mp hd.symm ha hb
      · intro hc
        rw [Finset.mem_insert, Finset.mem_union] at hc
        rcases hc with rfl | hc | hc
        · exact hil hlmem
        · exact hdl hc (by simp [hlmem])
        · exact Finset.disjoint_left.mp hd hlmem hc
    · have hrmem : r ∈ ir := by
        have hr2 := hr
        cases hr2 with
        | nil h2 hlen2 => simp at hx
        | node _ _ _ _ _ _ _ _ => simp
      have hctx2 : RepHole st (RCtx.right c k v i2 l tl ctx) r
          (insert i2 (cids ∪ il)) := by
        refine RepHole.right hctx ?_ hl
          (Finset.disjoint_left.mpr (fun a ha hb => hdl ha (by simp [hb])))
          hni hil hlen hi0
        rw [hpo]
        exact hn
      have hres := ihr x hx hctx2 rfl ?_ ?_
      · obtain ⟨ctx2, sub, cids2, sids2, hz, hplug, hids⟩ := hres
        refine ⟨ctx2, sub, cids2, sids2, hz, hplug, ?_⟩
        rw [hids]
        ext a
        simp only [Finset.mem_insert, Finset.mem_union]
        tauto
      · rw [Finset.disjoint_left]
        intro a ha
        rw [Finset.mem_insert, Finset.mem_union] at ha
        rcases ha with rfl | ha | ha
        · exact hir
        · exact fun hb => hdl ha (by simp [hb])
        · exact fun hb => Finset.disjoint_left.mp hd ha hb
      · intro hc
        rw [Finset.mem_insert, Finset.mem_union] at hc
        rcases hc with rfl | hc | hc
        · exact hir hrmem
        · exact hdl hc (by simp [hrmem])
        · exact Finset.disjoint_left.mp hd.symm hrmem hc

/-- Global well-formedness: the heap from `_root` represents `t`, and the
sentinel slot is intact. -/
structure WfSt {K V : Type} (st : RBSt K V) (t : RTree K V) (ids : Finset Nat) : Prop where
  hroot : RepN st none st.root t ids
  hsent : (getN st 0).nil = true
  hlen0 : 0 < st.nodes.length

theorem wf_unzip {K V : Type} {st : RBSt K V} {t : RTree K V} {ids : Finset Nat}
    (hw : WfSt st t ids) {x : Nat} (hx : x ∈ ids) :
    ∃ ctx sub cids sids, Zip st ctx x sub cids sids ∧
      plugZ ctx sub = t ∧ cids ∪ sids = ids := by
  have h := repN_unzip hw.hroot x hx (RepHole.root rfl) rfl (by simp) (by simp)
  obtain ⟨ctx2, sub, cids2, sids2, hz, hplug, hids⟩ := h
  refine ⟨ctx2, sub, cids2, sids2, hz, ?_, ?_⟩
  · rw [hplug]; rfl
  · rw [hids]; simp

theorem wf_close {K V : Type} {st : RBSt K V} {ctx : RCtx K V} {x : Nat}
    {sub : RTree K V} {cids sids : Finset Nat} (hz : Zip st ctx x sub cids sids)
    (hsent : (getN st 0).nil = true) (hlen0 : 0 < st.nodes.length) :
    WfSt st (plugZ ctx sub) (cids ∪ sids) :=
  ⟨zip_close hz, hsent, hlen0⟩

/-- The comparator laws under which binary-search-tree surgery preserves
order: `LT`/`GT` transitive and mutually opposite.  The default comparator
(on `number` keys) and the interval comparator satisfy them. -/
structure StrictCmp {K : Type} (cmp : K → K → Ord3) : Prop where
  lt_trans : ∀ a b c, cmp a b = .LT → cmp b c = .LT → cmp a c = .LT
  gt_trans : ∀ a b c, cmp a b = .GT → cmp b c = .GT → cmp a c = .GT
  lt_flip : ∀ a b, cmp a b = .LT → cmp b a = .GT
  gt_flip : ∀ a b, cmp a b = .GT → cmp b a = .LT

theorem defaultCompare_strict : StrictCmp defaultCompareFunction := by
  refine ⟨?_, ?_, ?_, ?_⟩
  · intro a b c h1 h2
    rw [defaultCompare_lt_iff] at h1 h2 ⊢
    omega
  · intro a b c h1 h2
    rw [defaultCompare_gt_iff] at h1 h2 ⊢
    omega
  · intro a b h
    rw [defaultCompare_lt_iff] at h
    rw [defaultCompare_gt_iff]
    omega
  · intro a b h
    rw [defaultCompare_gt_iff] at h
    rw [defaultCompare_lt_iff]
    omega

theorem icompare_strict : StrictCmp icompareFn := by
  refine ⟨?_, ?_, ?_, ?_⟩
  · intro a b c h1 h2
    rw [icompare_lt_iff] at h1 h2 ⊢
    omega
  · intro a b c h1 h2
    rw [icompare_gt_iff] at h1 h2 ⊢
    omega
  · intro a b h
    rw [icompare_lt_iff] at h
    rw [icompare_gt_iff]
    omega
  · intro a b h
    rw [icompare_gt_iff] at h
    rw [icompare_lt_iff]
    omega

def loOK {K : Type} (cmp : K → K → Ord3) (k : K) : Option K → Bool
  | none => true
  | some m => cmp k m == Ord3.GT

def hiOK {K : Type} (cmp : K → K → Ord3) (k : K) : Option K → Bool
  | none => true
  | some m => cmp k m == Ord3.LT

theorem strictA_node {K V : Type} (cmp : K → K → Ord3) (c : Color) (l : RTree K V)
    (k : K) (v : V) (r : RTree K V) (mn mx : Option K) :
    strictlyOrderedAux cmp (RTree.node c l k v r) mn mx
      = (loOK cmp k mn && hiOK cmp k mx &&
         strictlyOrderedAux cmp l mn (some k) &&
         strictlyOrderedAux cmp r (some k) mx) := by
  cases mn <;> cases mx <;> rfl

/-- Nearest inherited bounds at the hole of a context. -/
def ctxLo {K V : Type} : RCtx K V → Option K
  | .root => none
  | .left _ _ _ _ _ _ up => ctxLo up
  | .right _ k _ _ _ _ up => some k

def ctxHi {K V : Type} : RCtx K V → Option K
  | .root => none
  | .left _ k _ _ _ _ up => some k
  | .right _ _ _ _ _ _ up => ctxHi up

/-- The order property of the context part of a zipper: every frame key
within its own inherited bounds, every sibling subtree within its. -/
def ctxOrdered {K V : Type} (cmp : K → K → Ord3) : RCtx K V → Bool
  | .root => true
  | .left _ k _ _ _ sibT up =>
      loOK cmp k (ctxLo up) && hiOK cmp k (ctxHi up) &&
      strictlyOrderedAux cmp sibT (some k) (ctxHi up) && ctxOrdered cmp up
  | .right _ k _ _ _ sibT up =>
      loOK cmp k (ctxLo up) && hiOK cmp k (ctxHi up) &&
      strictlyOrderedAux cmp sibT (ctxLo up) (some k) && ctxOrdered cmp up

theorem plug_ordered {K V : Type} (cmp : K → K → Ord3) :
    ∀ (ctx : RCtx K V) (sub : RTree K V),
      strictlyOrderedAux cmp (plugZ ctx sub) none none = true ↔
        (ctxOrdered cmp ctx = true ∧
         strictlyOrderedAux cmp sub (ctxLo ctx) (ctxHi ctx) = true) := by
  intro ctx
  induction ctx with
  | root =>
    intro sub
    simp [plugZ, ctxOrdered, ctxLo, ctxHi]
  | left c k v pid sib sibT up ih =>
    intro sub
    show strictlyOrderedAux cmp (plugZ up (RTree.node c sub k v sibT)) none none = true ↔ _
    rw [ih, strictA_node]
    simp only [ctxOrdered, ctxLo, ctxHi, Bool.and_eq_true]
    tauto
  | right c k v pid sib sibT up ih =>
    intro sub
    show strictlyOrderedAux cmp (plugZ up (RTree.node c sibT k v sub)) none none = true ↔ _
    rw [ih, strictA_node]
    simp only [ctxOrdered, ctxLo, ctxHi, Bool.and_eq_true]
    tauto

/-- A left rotation (with arbitrary recolouring) preserves the strict
order property under the same bounds. -/
theorem ordered_rotL {K V : Type} {cmp : K → K → Ord3} (hs : StrictCmp cmp)
    {c1 c2 c1' c2' : Color} {t1 t2 t3 : RTree K V} {a b : K} {va vb : V}
    {lo hi : Option K}
    (h : strictlyOrderedAux cmp (.node c1 t1 a va (.node c2 t2 b vb t3)) lo hi = true) :
    strictlyOrderedAux cmp (.node c2' (.node c1' t1 a va t2) b vb t3) lo hi = true := by
  rw [strictA_node, strictA_node] at h
  rw [strictA_node, strictA_node]
  simp only [Bool.and_eq_true] at h ⊢
  obtain ⟨⟨⟨halo, hahi⟩, ht1⟩, hinner⟩ := h
  obtain ⟨⟨⟨hba, hbhi⟩, ht2⟩, ht3⟩ := hinner
  have hba' : cmp b a = Ord3.GT := by
    cases ho : cmp b a <;> simp [loOK, ho] at hba ⊢
  have hblo : loOK cmp b lo = true := by
    cases lo with
    | none => rfl
    | some m =>
      have ham : cmp a m = Ord3.GT := by
        cases ham : cmp a m <;> simp [loOK, ham] at halo ⊢
      simp [loOK, hs.gt_trans b a m hba' ham]
  have hab : hiOK cmp a (some b) = true := by
    simp [hiOK, hs.gt_flip b a hba']
  exact ⟨⟨⟨hblo, hbhi⟩, ⟨⟨⟨halo, hab⟩, ht1⟩, ht2⟩⟩, ht3⟩

/-- A right rotation (with arbitrary recolouring) preserves the strict
order property under the same bounds. -/
theorem ordered_rotR {K V : Type} {cmp : K → K → Ord3} (hs : StrictCmp cmp)
    {c1 c2 c1' c2' : Color} {t1 t2 t3 : RTree K V} {a b : K} {va vb : V}
    {lo hi : Option K}
    (h : strictlyOrderedAux cmp (.node c1 (.node c2 t1 a va t2) b vb t3) lo hi = true) :
    strictlyOrderedAux cmp (.node c1' t1 a va (.node c2' t2 b vb t3)) lo hi = true := by
  rw [strictA_node, strictA_node] at h
  rw [strictA_node, strictA_node]
  simp only [Bool.and_eq_true] at h ⊢
  obtain ⟨⟨⟨hblo, hbhi⟩, hinner⟩, ht3⟩ := h
  obtain ⟨⟨⟨halo, hab⟩, ht1⟩, ht2⟩ := hinner
  have hab' : cmp a b = Ord3.LT := by
    cases hoz : cmp a b <;> simp [hiOK, hoz] at hab ⊢
  have hahi : hiOK cmp a hi = true := by
    cases hi with
    | none => rfl
    | some m =>
      have hbm : cmp b m = Ord3.LT := by
        cases hbm : cmp b m <;> simp [hiOK, hbm] at hbhi ⊢
      simp [hiOK, hs.lt_trans a b m hab' hbm]
  have hba : loOK cmp b (some a) = true := by
    simp [loOK, hs.lt_flip a b hab']
  exact ⟨⟨⟨halo, hahi⟩, ht1⟩, ⟨⟨⟨hba, hbhi⟩, ht2⟩, ht3⟩⟩

/-- Replace an upper bound by a weaker one. -/
theorem strict_widen_hi {K V : Type} {cmp : K → K → Ord3} (hs : StrictCmp cmp) :
    ∀ (t : RTree K V) (lo : Option K) (b : K) (hi2 : Option K),
      strictlyOrderedAux cmp t lo (some b) = true →
      hiOK cmp b hi2 = true →
      strictlyOrderedAux cmp t lo hi2 = true := by
  intro t
  induction t with
  | nil => intro lo b hi2 _ _; rfl
  | node c l k v r ihl ihr =>
    intro lo b hi2 h hb
    rw [strictA_node] at h ⊢
    simp only [Bool.and_eq_true] at h ⊢
    obtain ⟨⟨⟨hlo, hhi⟩, hl⟩, hr⟩ := h
    have hkb : cmp k b = Ord3.LT := by
      cases ho : cmp k b <;> simp [hiOK, ho] at hhi ⊢
    have hhi2 : hiOK cmp k hi2 = true := by
      cases hi2 with
      | none => rfl
      | some m =>
        have hbm : cmp b m = Ord3.LT := by
          cases ho : cmp b m <;> simp [hiOK, ho] at hb ⊢
        simp [hiOK, hs.lt_trans k b m hkb hbm]
    exact ⟨⟨⟨hlo, hhi2⟩, hl⟩, ihr _ b hi2 hr hb⟩

/-- Replace a lower bound by a weaker one. -/
theorem strict_widen_lo {K V : Type} {cmp : K → K → Ord3} (hs : StrictCmp cmp) :
    ∀ (t : RTree K V) (b : K) (lo2 hi : Option K),
      strictlyOrderedAux cmp t (some b) hi = true →
      loOK cmp b lo2 = true →
      strictlyOrderedAux cmp t lo2 hi = true := by
  intro t
  induction t with
  | nil => intro b lo2 hi _ _; rfl
  | node c l k v r ihl ihr =>
    intro b lo2 hi h hb
    rw [strictA_node] at h ⊢
    simp only [Bool.and_eq_true] at h ⊢
    obtain ⟨⟨⟨hlo, hhi⟩, hl⟩, hr⟩ := h
    have hkb : cmp k b = Ord3.GT := by
      cases ho : cmp k b <;> simp [loOK, ho] at hlo ⊢
    have hlo2 : loOK cmp k lo2 = true := by
      cases lo2 with
      | none => rfl
      | some m =>
        have hbm : cmp b m = Ord3.GT := by
          cases ho : cmp b m <;> simp [loOK, ho] at hb ⊢
        simp [loOK, hs.gt_trans k b m hkb hbm]
    exact ⟨⟨⟨hlo2, hhi⟩, ihl b lo2 _ hl hb⟩, hr⟩

/-- Representation depends only on the records of the subtree's slots, the
`nil` flags of all slots, and the arena length. -/
theorem repN_congr {K V : Type} {st st2 : RBSt K V} :
    ∀ {po : Option Nat} {i : Nat} {t : RTree K V} {ids : Finset Nat},
      RepN st po i t ids →
      (∀ j ∈ ids, getN st2 j = getN st j) →
      (∀ j, (getN st2 j).nil = (getN st j).nil) →
      st.nodes.length ≤ st2.nodes.length →
      RepN st2 po i t ids := by
  intro po i t ids h
  induction h with
  | nil h hlen =>
    intro hag hnil hlen2
    exact RepN.nil (by rw [hnil]; exact h) (by omega)
  | node hn hl hr hd hil hir hlen hi0 ihl ihr =>
    intro hag hnil hlen2
    refine RepN.node ?_ (ihl (fun j hj => hag j (by simp [hj])) hnil hlen2)
      (ihr (fun j hj => hag j (by simp [hj])) hnil hlen2) hd hil hir (by omega) hi0
    rw [hag _ (by simp)]
    exact hn

/-- As `repN_congr`, but the subtree root's record may additionally have a
new `parent` field. -/
theorem repN_parent_congr {K V : Type} {st st2 : RBSt K V}
    {po po2 : Option Nat} {i : Nat} {t : RTree K V} {ids : Finset Nat}
    (h : RepN st po i t ids)
    (hupd : getN st2 i = { getN st i with parent := po2 })
    (hag : ∀ j ∈ ids, j ≠ i → getN st2 j = getN st j)
    (hnil : ∀ j, (getN st2 j).nil = (getN st j).nil)
    (hlen2 : st.nodes.length ≤ st2.nodes.length) :
    RepN st2 po2 i t ids := by
  cases h with
  | nil h hlen =>
    exact RepN.nil (by rw [hnil]; exact h) (by omega)
  | node hn hl hr hd hil hir hlen hi0 =>
    refine RepN.node ?_
      (repN_congr hl (fun j hj => hag j (by simp [hj]) (fun he => hil (he ▸ hj))) hnil hlen2)
      (repN_congr hr (fun j hj => hag j (by simp [hj]) (fun he => hir (he ▸ hj))) hnil hlen2)
      hd hil hir (by omega) hi0
    rw [hupd, hn]

theorem repHole_congr {K V : Type} {st st2 : RBSt K V} :
    ∀ {ctx : RCtx K V} {hid : Nat} {cids : Finset Nat},
      RepHole st ctx hid cids →
      (∀ j ∈ cids, getN st2 j = getN st j) →
      (∀ j, (getN st2 j).nil = (getN st j).nil) →
      st.nodes.length ≤ st2.nodes.length →
      st2.root = st.root →
      RepHole st2 ctx hid cids := by
  intro ctx hid cids h
  induction h with
  | root h =>
    intro _ _ _ hroot
    exact RepHole.root (by rw [hroot]; exact h)
  | left hup hn hs hd hp1 hp2 hlen h0 ih =>
    intro hag hnil hlen2 hroot
    refine RepHole.left (ih (fun j hj => hag j (by simp [hj])) hnil hlen2 hroot) ?_
      (repN_congr hs (fun j hj => hag j (by simp [hj])) hnil hlen2)
      hd hp1 hp2 (by omega) h0
    rw [hag _ (by simp)]
    exact hn
  | right hup hn hs hd hp1 hp2 hlen h0 ih =>
    intro hag hnil hlen2 hroot
    refine RepHole.right (ih (fun j hj => hag j (by simp [hj])) hnil hlen2 hroot) ?_
      (repN_congr hs (fun j hj => hag j (by simp [hj])) hnil hlen2)
      hd hp1 hp2 (by omega) h0
    rw [hag _ (by simp)]
    exact hn

theorem ok_bind {ε α β : Type} (a : α) (f : α → Except ε β) :
    (Except.ok a >>= f : Except ε β) = f a := rfl

theorem pure_eq_ok {ε α : Type} (a : α) : (pure a : Except ε α) = Except.ok a := rfl

theorem getN_root_set {K V : Type} (st : RBSt K V) (r j : Nat) :
    getN { st with root := r } j = getN st j := rfl

theorem nil_setN {K V : Type} (st : RBSt K V) (i : Nat) (n : RBN K V)
    (h : n.nil = (getN st i).nil) (hlt : i < st.nodes.length) (j : Nat) :
    (getN (setN st i n) j).nil = (getN st j).nil := by
  by_cases hj : j = i
  · subst hj
    rw [getN_setN_self st j n hlt, h]
  · rw [getN_setN_ne st i j n hj]

/-- The root slot of a represented subtree is either a `nil`-flagged slot or
one of the subtree's slots. -/
theorem repN_root_cases {K V : Type} {st : RBSt K V} {po : Option Nat} {i : Nat}
    {t : RTree K V} {ids : Finset Nat} (h : RepN st po i t ids) :
    (getN st i).nil = true ∨ i ∈ ids := by
  cases h with
  | nil h hlen => exact Or.inl h
  | node hn hl hr hd hil hir hlen hi0 => exact Or.inr (by simp)

theorem repN_ids_nonnil {K V : Type} {st : RBSt K V} {po : Option Nat} {i : Nat}
    {t : RTree K V} {ids : Finset Nat} (h : RepN st po i t ids) :
    ∀ j ∈ ids, (getN st j).nil = false := by
  induction h with
  | nil h hlen => intro j hj; simp at hj
  | node hn hl hr hd hil hir hlen hi0 ihl ihr =>
    intro j hj
    rw [Finset.mem_insert, Finset.mem_union] at hj
    rcases hj with hj | hj | hj
    · subst hj; rw [hn]
    · exact ihl j hj
    · exact ihr j hj

theorem repHole_ids_nonnil {K V : Type} {st : RBSt K V} {ctx : RCtx K V}
    {hid : Nat} {cids : Finset Nat} (h : RepHole st ctx hid cids) :
    ∀ j ∈ cids, (getN st j).nil = false := by
  induction h with
  | root h => intro j hj; simp at hj
  | left hup hn hs hd hp1 hp2 hlen h0 ih =>
    intro j hj
    rw [Finset.mem_insert, Finset.mem_union] at hj
    rcases hj with hj | hj | hj
    · subst hj; rw [hn]
    · exact ih j hj
    · exact repN_ids_nonnil hs j hj
  | right hup hn hs hd hp1 hp2 hlen h0 ih =>
    intro j hj
    rw [Finset.mem_insert, Finset.mem_union] at hj
    rcases hj with hj | hj | hj
    · subst hj; rw [hn]
    · exact ih j hj
    · exact repN_ids_nonnil hs j hj

/-- Reassemble the rotated subtree after `rotateLeft`'s writes: the new
subtree root is `y`, its left child the old root `x`. -/
theorem rot_subL {K V : Type} {st F : RBSt K V} {po : Option Nat}
    {x y l1 l2 r2 : Nat} {cx cy : Color} {a b : K} {va vb : V}
    {T1 T2 T3 : RTree K V} {i1 j1 j2 : Finset Nat}
    (hT1 : RepN st (some x) l1 T1 i1)
    (hT2 : RepN st (some y) l2 T2 j1)
    (hT3 : RepN st (some y) r2 T3 j2)
    (hd1 : Disjoint i1 (insert y (j1 ∪ j2)))
    (hd2 : Disjoint j1 j2)
    (hxl1 : x ∉ i1) (hxiy : x ∉ insert y (j1 ∪ j2))
    (hyj1 : y ∉ j1) (hyj2 : y ∉ j2)
    (hx0 : x ≠ 0) (hy0 : y ≠ 0)
    (hFx : getN F x = ⟨some y, some l1, some l2, cx, some a, some va, false⟩)
    (hFy : getN F y = ⟨po, some x, some r2, cy, some b, some vb, false⟩)
    (hFl2 : l2 ∈ j1 → getN F l2 = { getN st l2 with parent := some x })
    (hFagree : ∀ j, j ∈ i1 ∨ j ∈ j1 ∨ j ∈ j2 → j ≠ l2 → getN F j = getN st j)
    (hFnil : ∀ j, (getN F j).nil = (getN st j).nil)
    (hFlen : st.nodes.length ≤ F.nodes.length)
    (hxlen : x < F.nodes.length) (hylen : y < F.nodes.length) :
    RepN F po y (RTree.node cy (RTree.node cx T1 a va T2) b vb T3)
      (insert y (insert x (i1 ∪ j1) ∪ j2)) := by
  have hxy : x ≠ y := fun h => hxiy (by simp [h])
  have hl2c := repN_root_cases hT2
  -- the three subtrees in the final heap
  have hT1' : RepN F (some x) l1 T1 i1 := by
    refine repN_congr hT1 (fun j hj => hFagree j (Or.inl hj) ?_) hFnil hFlen
    rcases hl2c with h | h
    · intro he
      rw [← he] at h
      rw [repN_ids_nonnil hT1 j hj] at h
      exact Bool.false_ne_true h
    · intro he
      exact (Finset.disjoint_left.mp hd1) hj (by simp [he ▸ h])
  have hT2' : RepN F (some x) l2 T2 j1 := by
    cases hT2 with
    | nil hf hlenl2 =>
      exact RepN.nil (by rw [hFnil]; exact hf) (by omega)
    | node hn hl hr hd hil hir hlen h0 =>
      exact repN_parent_congr (RepN.node hn hl hr hd hil hir hlen h0)
        (hFl2 (by simp)) (fun j hj hne => hFagree j (Or.inr (Or.inl hj)) hne)
        hFnil hFlen
  have hT3' : RepN F (some y) r2 T3 j2 := by
    refine repN_congr hT3 (fun j hj => hFagree j (Or.inr (Or.inr hj)) ?_) hFnil hFlen
    rcases hl2c with h | h
    · intro he
      rw [← he] at h
      rw [repN_ids_nonnil hT3 j hj] at h
      exact Bool.false_ne_true h
    · intro he
      exact (Finset.disjoint_left.mp hd2) (he ▸ h) hj
  -- the new left child: the old subtree root x
  have hxj1 : x ∉ j1 := fun h => hxiy (by simp [h])
  have hxj2 : x ∉ j2 := fun h => hxiy (by simp [h])
  have hyi1 : y ∉ i1 := fun h => (Finset.disjoint_left.mp hd1) h (by simp)
  have hinner : RepN F (some y) x (RTree.node cx T1 a va T2) (insert x (i1 ∪ j1)) := by
    refine RepN.node hFx hT1' hT2' ?_ hxl1 hxj1 hxlen hx0
    exact Finset.disjoint_of_subset_right
      (fun j hj => by simp [hj]) hd1
  refine RepN.node hFy hinner hT3' ?_ ?_ hyj2 hylen hy0
  · rw [Finset.disjoint_left]
    intro j hj
    rw [Finset.mem_insert, Finset.mem_union] at hj
    rcases hj with hj | hj | hj
    · exact hj ▸ hxj2
    · exact fun hc => (Finset.disjoint_left.mp hd1) hj (by simp [hc])
    · exact fun hc => (Finset.disjoint_left.mp hd2) hj hc
  · rw [Finset.mem_insert, Finset.mem_union]
    push_neg
    exact ⟨Ne.symm hxy, hyi1, hyj1⟩

/-- The middle writes of a rotation: install `n` at `x`, then re-parent the
transferred child `l2` to `x` unless it is nil. -/
def rotMid {K V : Type} (st : RBSt K V) (x l2 : Nat) (n : RBN K V) : RBSt K V :=
  if (getN st l2).nil then setN st x n
  else setN (setN st x n) l2 { getN st l2 with parent := some x }

theorem rotMid_ne {K V : Type} (st : RBSt K V) (x l2 : Nat) (n : RBN K V)
    (j : Nat) (hjx : j ≠ x) (hjl2 : j ≠ l2) :
    getN (rotMid st x l2 n) j = getN st j := by
  unfold rotMid
  by_cases hc : (getN st l2).nil
  · rw [if_pos hc, getN_setN_ne st x j n hjx]
  · rw [if_neg hc, getN_setN_ne _ l2 j _ hjl2, getN_setN_ne st x j n hjx]

theorem rotMid_x {K V : Type} (st : RBSt K V) (x l2 : Nat) (n : RBN K V)
    (hl2x : l2 ≠ x) (hxlen : x < st.nodes.length) :
    getN (rotMid st x l2 n) x = n := by
  unfold rotMid
  by_cases hc : (getN st l2).nil
  · rw [if_pos hc, getN_setN_self st x n hxlen]
  · rw [if_neg hc, getN_setN_ne _ l2 x _ (Ne.symm hl2x), getN_setN_self st x n hxlen]

theorem rotMid_l2 {K V : Type} (st : RBSt K V) (x l2 : Nat) (n : RBN K V)
    (hc : (getN st l2).nil = false) (hl2x : l2 ≠ x) (hl2len : l2 < st.nodes.length) :
    getN (rotMid st x l2 n) l2 = { getN st l2 with parent := some x } := by
  unfold rotMid
  rw [if_neg (by rw [hc]; exact Bool.false_ne_true)]
  rw [getN_setN_self _ l2 _ (by rw [length_setN]; exact hl2len)]

theorem rotMid_len {K V : Type} (st : RBSt K V) (x l2 : Nat) (n : RBN K V) :
    (rotMid st x l2 n).nodes.length = st.nodes.length := by
  unfold rotMid
  by_cases hc : (getN st l2).nil
  · rw [if_pos hc, length_setN]
  · rw [if_neg hc, length_setN, length_setN]

theorem rotMid_nil {K V : Type} (st : RBSt K V) (x l2 : Nat) (n : RBN K V)
    (h : n.nil = (getN st x).nil) (hxlen : x < st.nodes.length)
    (hl2len : l2 < st.nodes.length) (j : Nat) :
    (getN (rotMid st x l2 n) j).nil = (getN st j).nil := by
  unfold rotMid
  by_cases hc : (getN st l2).nil
  · rw [if_pos hc]
    exact nil_setN st x n h hxlen j
  · rw [if_neg hc]
    rw [nil_setN _ l2 _ ?hh (by rw [length_setN]; exact hl2len) j,
      nil_setN st x n h hxlen j]
    case hh =>
      show (getN st l2).nil = (getN (setN st x n) l2).nil
      by_cases hjl2 : l2 = x
      · subst hjl2
        rw [getN_setN_self st l2 n hxlen]
        exact h.symm
      · rw [getN_setN_ne st x l2 n hjl2]

theorem rotMid_root {K V : Type} (st : RBSt K V) (x l2 : Nat) (n : RBN K V) :
    (rotMid st x l2 n).root = st.root := by
  unfold rotMid
  by_cases hc : (getN st l2).nil
  · rw [if_pos hc, root_setN]
  · rw [if_neg hc, root_setN, root_setN]

theorem rotMid_size {K V : Type} (st : RBSt K V) (x l2 : Nat) (n : RBN K V) :
    (rotMid st x l2 n).size = st.size := by
  unfold rotMid
  by_cases hc : (getN st l2).nil
  · rw [if_pos hc, size_setN]
  · rw [if_neg hc, size_setN, size_setN]

/-- The final two writes of `rotateLeft`: link `x` as the LEFT child of the
promoted node `y`. -/
def rotTail {K V : Type} (st4 : RBSt K V) (x y : Nat) : RBSt K V :=
  let st5 := setN st4 y { getN st4 y with left := some x }
  setN st5 x { getN st5 x with parent := some y }

theorem rotTail_ne {K V : Type} (st4 : RBSt K V) (x y : Nat)
    (j : Nat) (hjx : j ≠ x) (hjy : j ≠ y) :
    getN (rotTail st4 x y) j = getN st4 j := by
  unfold rotTail
  rw [getN_setN_ne _ x j _ hjx, getN_setN_ne _ y j _ hjy]

theorem rotTail_y {K V : Type} (st4 : RBSt K V) (x y : Nat)
    (hxy : x ≠ y) (hylen : y < st4.nodes.length) :
    getN (rotTail st4 x y) y = { getN st4 y with left := some x } := by
  unfold rotTail
  rw [getN_setN_ne _ x y _ (Ne.symm hxy), getN_setN_self st4 y _ hylen]

theorem rotTail_x {K V : Type} (st4 : RBSt K V) (x y : Nat)
    (hxy : x ≠ y) (hxlen : x < st4.nodes.length) :
    getN (rotTail st4 x y) x = { getN st4 x with parent := some y } := by
  unfold rotTail
  rw [getN_setN_self _ x _ (by rw [length_setN]; exact hxlen),
    getN_setN_ne st4 y x _ hxy]

theorem rotTail_len {K V : Type} (st4 : RBSt K V) (x y : Nat) :
    (rotTail st4 x y).nodes.length = st4.nodes.length := by
  unfold rotTail
  rw [length_setN, length_setN]

theorem rotTail_nil {K V : Type} (st4 : RBSt K V) (x y : Nat)
    (hxlen : x < st4.nodes.length) (hylen : y < st4.nodes.length) (j : Nat) :
    (getN (rotTail st4 x y) j).nil = (getN st4 j).nil := by
  show (getN (setN (setN st4 y { getN st4 y with left := some x }) x
      { getN (setN st4 y { getN st4 y with left := some x }) x with parent := some y }) j).nil
    = (getN st4 j).nil
  rw [nil_setN _ x _
    (show ({ getN (setN st4 y { getN st4 y with left := some x }) x
        with parent := some y } : RBN K V).nil
      = (getN (setN st4 y { getN st4 y with left := some x }) x).nil from rfl)
    (by rw [length_setN]; exact hxlen) j]
  exact nil_setN st4 y { getN st4 y with left := some x }
    (show ({ getN st4 y with left := some x } : RBN K V).nil = (getN st4 y).nil from rfl)
    hylen j

theorem rotTail_root {K V : Type} (st4 : RBSt K V) (x y : Nat) :
    (rotTail st4 x y).root = st4.root := by
  unfold rotTail
  rw [root_setN, root_setN]

theorem rotTail_size {K V : Type} (st4 : RBSt K V) (x y : Nat) :
    (rotTail st4 x y).size = st4.size := by
  unfold rotTail
  rw [size_setN, size_setN]

/-- Symbolic execution of `rotateLeft` at a non-nil node `x` with non-nil
right child `y`: it succeeds and performs exactly this sequence of writes. -/
theorem rotateLeft_run {K V : Type} {st : RBSt K V} {x y l1 l2 r2 : Nat}
    {po : Option Nat} {cx cy : Color} {a b : K} {va vb : V}
    (hxr : getN st x = ⟨po, some l1, some y, cx, some a, some va, false⟩)
    (hyr : getN st y = ⟨some x, some l2, some r2, cy, some b, some vb, false⟩)
    (hxy : x ≠ y) (hl2x : l2 ≠ x) (hl2y : l2 ≠ y)
    (hp : ∀ q, po = some q → q ≠ x ∧ q ≠ y ∧ q ≠ l2)
    (hxlen : x < st.nodes.length) :
    rotateLeft st x = .ok (
      let st3 := setN (rotMid st x l2 ⟨po, some l1, some l2, cx, some a, some va, false⟩)
        y ⟨po, some l2, some r2, cy, some b, some vb, false⟩
      let st4 := match po with
        | none => { st3 with root := y }
        | some p =>
          if (getN st p).left = some x
          then setN st3 p { getN st p with left := some y }
          else setN st3 p { getN st p with right := some y }
      rotTail st4 x y) := by
  have hyx : y ≠ x := Ne.symm hxy
  have hxl2 : x ≠ l2 := Ne.symm hl2x
  have hyl2 : y ≠ l2 := Ne.symm hl2y
  simp only [rotateLeft, hxr, hyr, deref, ok_bind]
  rw [getN_setN_ne st x y _ hyx, hyr]
  simp only [deref, ok_bind]
  rw [getN_setN_ne st x l2 _ hl2x]
  cases po with
  | none =>
    by_cases hc : (getN st l2).nil
    · simp [hc, rotMid, rotTail, getN_setN_ne _ _ _ _ hyx, getN_setN_ne _ _ _ _ hxy,
        getN_setN_self st x _ hxlen, getN_root_set, hyr, pure_eq_ok]
    · simp [hc, rotMid, rotTail, getN_setN_ne _ _ _ _ hyx, getN_setN_ne _ _ _ _ hxy,
        getN_setN_ne _ _ _ _ hxl2, getN_setN_ne _ _ _ _ hyl2,
        getN_setN_self st x _ hxlen, getN_root_set, hyr, pure_eq_ok]
  | some p =>
    obtain ⟨hpx, hpy, hpl2⟩ := hp p rfl
    have hxp : x ≠ p := Ne.symm hpx
    by_cases hc : (getN st l2).nil
    · by_cases hpl : (getN st p).left = some x
      · simp [hc, hpl, rotMid, rotTail, getN_setN_ne _ _ _ _ hyx, getN_setN_ne _ _ _ _ hxy,
          getN_setN_ne _ _ _ _ hpx, getN_setN_ne _ _ _ _ hpy,
          getN_setN_ne _ _ _ _ hxp,
          getN_setN_self st x _ hxlen, hyr, pure_eq_ok]
      · simp [hc, hpl, rotMid, rotTail, getN_setN_ne _ _ _ _ hyx, getN_setN_ne _ _ _ _ hxy,
          getN_setN_ne _ _ _ _ hpx, getN_setN_ne _ _ _ _ hpy,
          getN_setN_ne _ _ _ _ hxp,
          getN_setN_self st x _ hxlen, hyr, pure_eq_ok]
    · by_cases hpl : (getN st p).left = some x
      · simp [hc, hpl, rotMid, rotTail, getN_setN_ne _ _ _ _ hyx, getN_setN_ne _ _ _ _ hxy,
          getN_setN_ne _ _ _ _ hpx, getN_setN_ne _ _ _ _ hpy,
          getN_setN_ne _ _ _ _ hpl2, getN_setN_ne _ _ _ _ hxp,
          getN_setN_ne _ _ _ _ hxl2, getN_setN_ne _ _ _ _ hyl2,
          getN_setN_self st x _ hxlen, hyr, pure_eq_ok]
      · simp [hc, hpl, rotMid, rotTail, getN_setN_ne _ _ _ _ hyx, getN_setN_ne _ _ _ _ hxy,
          getN_setN_ne _ _ _ _ hpx, getN_setN_ne _ _ _ _ hpy,
          getN_setN_ne _ _ _ _ hpl2, getN_setN_ne _ _ _ _ hxp,
          getN_setN_ne _ _ _ _ hxl2, getN_setN_ne _ _ _ _ hyl2,
          getN_setN_self st x _ hxlen, hyr, pure_eq_ok]

set_option maxHeartbeats 1000000 in
/-- `rotateLeft` on a zipper focused at a node with a non-nil right child:
it succeeds, and the heap refocuses at the promoted child, with the same
context and slot sets, all nil flags, the arena length and `_size`
unchanged. -/
theorem rotateLeft_zip {K V : Type} {st : RBSt K V} {ctx : RCtx K V} {x : Nat}
    {cx cy : Color} {a b : K} {va vb : V} {T1 T2 T3 : RTree K V}
    {cids sids : Finset Nat}
    (hz : Zip st ctx x (RTree.node cx T1 a va (RTree.node cy T2 b vb T3)) cids sids) :
    ∃ (st2 : RBSt K V) (y : Nat),
      rotateLeft st x = .ok st2 ∧
      Zip st2 ctx y (RTree.node cy (RTree.node cx T1 a va T2) b vb T3) cids sids ∧
      (∀ j, (getN st2 j).nil = (getN st j).nil) ∧
      st2.nodes.length = st.nodes.length ∧
      st2.size = st.size := by
  obtain ⟨hole, hsub, hdisj, hx, hxlen, hpar⟩ := hz
  cases hsub with
  | node hxr hT1 hyrep hdA hxl1 hxiy hxlen2 hx0 =>
    rename_i l1 y i1 iy
    cases hyrep with
    | node hyr hT2 hT3 hd2 hyj1 hyj2 hylen hy0 =>
      rename_i l2 r2 j1 j2
      have hxy : x ≠ y := fun h => hxiy (by simp [h])
      have hyx : y ≠ x := Ne.symm hxy
      have hl2c := repN_root_cases hT2
      have hl2x : l2 ≠ x := by
        rcases hl2c with h | h
        · intro he; rw [he, hxr] at h; simp at h
        · intro he; apply hxiy; rw [← he]; simp [h]
      have hl2y : l2 ≠ y := by
        rcases hl2c with h | h
        · intro he; rw [he, hyr] at h; simp at h
        · intro he; exact hyj1 (he ▸ h)
      have hl1len := repN_lt hT1
      have hl2len := repN_lt hT2
      have hr2len := repN_lt hT3
      have hysids : y ∈ insert x (i1 ∪ insert y (j1 ∪ j2)) := by simp
      have hycids : y ∉ cids := fun h => (Finset.disjoint_left.mp hdisj h) hysids
      have hids : insert y (insert x (i1 ∪ j1) ∪ j2)
          = insert x (i1 ∪ insert y (j1 ∪ j2)) := by
        ext z
        simp only [Finset.mem_insert, Finset.mem_union]
        tauto
      cases hole with
      | root hroot =>
        simp only [holePO] at hxr
        have hp' : ∀ q, (none : Option Nat) = some q → q ≠ x ∧ q ≠ y ∧ q ≠ l2 :=
          fun q h => Option.noConfusion h
        have hrun := rotateLeft_run hxr hyr hxy hl2x hl2y hp' hxlen
        obtain ⟨M, hMdef⟩ : ∃ M, M
            = rotMid st x l2 ⟨none, some l1, some l2, cx, some a, some va, false⟩ :=
          ⟨_, rfl⟩
        obtain ⟨S3, hS3def⟩ : ∃ S3, S3
            = setN M y ⟨none, some l2, some r2, cy, some b, some vb, false⟩ := ⟨_, rfl⟩
        obtain ⟨F, hFdef⟩ : ∃ F, F = rotTail { S3 with root := y } x y := ⟨_, rfl⟩
        have hF : rotateLeft st x = .ok F := by
          rw [hFdef, hS3def, hMdef]
          exact hrun
        have hMne : ∀ j, j ≠ x → j ≠ l2 → getN M j = getN st j := by
          intro j hjx hjl2
          rw [hMdef]
          exact rotMid_ne st x l2 _ j hjx hjl2
        have hMx : getN M x = ⟨none, some l1, some l2, cx, some a, some va, false⟩ := by
          rw [hMdef]
          exact rotMid_x st x l2 _ hl2x hxlen
        have hMl2 : (getN st l2).nil = false →
            getN M l2 = { getN st l2 with parent := some x } := by
          intro hc
          rw [hMdef]
          exact rotMid_l2 st x l2 _ hc hl2x hl2len
        have hMlen : M.nodes.length = st.nodes.length := by
          rw [hMdef]
          exact rotMid_len st x l2 _
        have hMnil : ∀ j, (getN M j).nil = (getN st j).nil := by
          intro j
          rw [hMdef]
          exact rotMid_nil st x l2 _ (by rw [hxr]) hxlen hl2len j
        have hMsize : M.size = st.size := by
          rw [hMdef]
          exact rotMid_size st x l2 _
        have hS3ne : ∀ j, j ≠ x → j ≠ l2 → j ≠ y → getN S3 j = getN st j := by
          intro j hjx hjl2 hjy
          rw [hS3def, getN_setN_ne M y j _ hjy]
          exact hMne j hjx hjl2
        have hS3y : getN S3 y = ⟨none, some l2, some r2, cy, some b, some vb, false⟩ := by
          rw [hS3def]
          exact getN_setN_self M y _ (by rw [hMlen]; exact hylen)
        have hS3x : getN S3 x = ⟨none, some l1, some l2, cx, some a, some va, false⟩ := by
          rw [hS3def, getN_setN_ne M y x _ hxy]
          exact hMx
        have hS3l2 : (getN st l2).nil = false →
            getN S3 l2 = { getN st l2 with parent := some x } := by
          intro hc
          rw [hS3def, getN_setN_ne M y l2 _ hl2y]
          exact hMl2 hc
        have hS3len : S3.nodes.length = st.nodes.length := by
          rw [hS3def, length_setN]
          exact hMlen
        have hS3nil : ∀ j, (getN S3 j).nil = (getN st j).nil := by
          intro j
          rw [hS3def, nil_setN M y _ (by rw [hMne y hyx (Ne.symm hl2y), hyr])
            (by rw [hMlen]; exact hylen) j]
          exact hMnil j
        have hS3size : S3.size = st.size := by
          rw [hS3def, size_setN]
          exact hMsize
        have hFne : ∀ j, j ≠ x → j ≠ y → j ≠ l2 → getN F j = getN st j := by
          intro j hjx hjy hjl2
          rw [hFdef, rotTail_ne _ x y j hjx hjy, getN_root_set]
          exact hS3ne j hjx hjl2 hjy
        have hS4len : ({ S3 with root := y } : RBSt K V).nodes.length = st.nodes.length :=
          hS3len
        have hFy : getN F y = ⟨none, some x, some r2, cy, some b, some vb, false⟩ := by
          rw [hFdef, rotTail_y _ x y hxy (by rw [hS4len]; exact hylen), getN_root_set, hS3y]
        have hFx : getN F x = ⟨some y, some l1, some l2, cx, some a, some va, false⟩ := by
          rw [hFdef, rotTail_x _ x y hxy (by rw [hS4len]; exact hxlen), getN_root_set, hS3x]
        have hFl2 : l2 ∈ j1 → getN F l2 = { getN st l2 with parent := some x } := by
          intro hmem
          rw [hFdef, rotTail_ne _ x y l2 hl2x hl2y, getN_root_set]
          exact hS3l2 (repN_ids_nonnil hT2 l2 hmem)
        have hFnil : ∀ j, (getN F j).nil = (getN st j).nil := by
          intro j
          rw [hFdef, rotTail_nil _ x y (by rw [hS4len]; exact hxlen)
            (by rw [hS4len]; exact hylen) j, getN_root_set]
          exact hS3nil j
        have hFlen : F.nodes.length = st.nodes.length := by
          rw [hFdef, rotTail_len]
          exact hS4len
        have hFsize : F.size = st.size := by
          rw [hFdef, rotTail_size]
          exact hS3size
        have hFroot : F.root = y := by
          rw [hFdef, rotTail_root, hS3def]
        have hFagree : ∀ j, j ∈ i1 ∨ j ∈ j1 ∨ j ∈ j2 → j ≠ l2 → getN F j = getN st j := by
          intro j hj hjl2
          refine hFne j ?_ ?_ hjl2
          · intro he
            rw [he] at hj
            rcases hj with hj | hj | hj
            · exact hxl1 hj
            · exact hxiy (by simp [hj])
            · exact hxiy (by simp [hj])
          · intro he
            rw [he] at hj
            rcases hj with hj | hj | hj
            · exact (Finset.disjoint_left.mp hdA hj) (by simp)
            · exact hyj1 hj
            · exact hyj2 hj
        have hsubNew := rot_subL hT1 hT2 hT3 hdA hd2 hxl1 hxiy hyj1 hyj2 hx0 hy0
          hFx hFy hFl2 hFagree hFnil (by omega) (by rw [hFlen]; exact hxlen)
          (by rw [hFlen]; exact hylen)
        rw [hids] at hsubNew
        refine ⟨F, y, hF, ⟨RepHole.root hFroot, hsubNew, disjoint_bot_left,
          Finset.not_mem_empty y,
          by rw [hFlen]; exact hylen, fun q hq => Option.noConfusion hq⟩,
          hFnil, hFlen, hFsize⟩
      | left hup hnp hsib hdC hp1 hp2 hplen hpne0 =>
        rename_i up c k v p sib sibT upids sibids
        simp only [holePO] at hxr
        have hole2 : RepHole st (RCtx.left c k v p sib sibT up) x
            (insert p (upids ∪ sibids)) :=
          RepHole.left hup hnp hsib hdC hp1 hp2 hplen hpne0
        have hpcids : p ∈ insert p (upids ∪ sibids) := by simp
        have hpx : p ≠ x := fun h => hx (h ▸ hpcids)
        have hpy : p ≠ y := fun h =>
          (Finset.disjoint_left.mp hdisj hpcids) (by rw [h]; exact hysids)
        have hpl2 : p ≠ l2 := by
          rcases hl2c with hn | hmem
          · intro he; rw [← he, hnp] at hn; simp at hn
          · intro he
            exact (Finset.disjoint_left.mp hdisj hpcids) (by rw [he]; simp [hmem])
        have hp' : ∀ q, (some p : Option Nat) = some q → q ≠ x ∧ q ≠ y ∧ q ≠ l2 := by
          intro q h
          cases h
          exact ⟨hpx, hpy, hpl2⟩
        have hrun := rotateLeft_run hxr hyr hxy hl2x hl2y hp' hxlen
        have hplft : (getN st p).left = some x := by rw [hnp]
        obtain ⟨M, hMdef⟩ : ∃ M, M
            = rotMid st x l2 ⟨some p, some l1, some l2, cx, some a, some va, false⟩ :=
          ⟨_, rfl⟩
        obtain ⟨S3, hS3def⟩ : ∃ S3, S3
            = setN M y ⟨some p, some l2, some r2, cy, some b, some vb, false⟩ := ⟨_, rfl⟩
        obtain ⟨S4, hS4def⟩ : ∃ S4, S4 = setN S3 p { getN st p with left := some y } :=
          ⟨_, rfl⟩
        obtain ⟨F, hFdef⟩ : ∃ F, F = rotTail S4 x y := ⟨_, rfl⟩
        have hF : rotateLeft st x = .ok F := by
          rw [hrun]
          show Except.ok (rotTail (if (getN st p).left = some x
              then setN (setN
                  (rotMid st x l2 ⟨some p, some l1, some l2, cx, some a, some va, false⟩)
                  y ⟨some p, some l2, some r2, cy, some b, some vb, false⟩)
                p { getN st p with left := some y }
              else setN (setN
                  (rotMid st x l2 ⟨some p, some l1, some l2, cx, some a, some va, false⟩)
                  y ⟨some p, some l2, some r2, cy, some b, some vb, false⟩)
                p { getN st p with right := some y }) x y)
            = Except.ok F
          rw [hplft, if_pos rfl, hFdef, hS4def, hS3def, hMdef]
        have hMne : ∀ j, j ≠ x → j ≠ l2 → getN M j = getN st j := by
          intro j hjx hjl2
          rw [hMdef]
          exact rotMid_ne st x l2 _ j hjx hjl2
        have hMx : getN M x = ⟨some p, some l1, some l2, cx, some a, some va, false⟩ := by
          rw [hMdef]
          exact rotMid_x st x l2 _ hl2x hxlen
        have hMl2 : (getN st l2).nil = false →
            getN M l2 = { getN st l2 with parent := some x } := by
          intro hc
          rw [hMdef]
          exact rotMid_l2 st x l2 _ hc hl2x hl2len
        have hMlen : M.nodes.length = st.nodes.length := by
          rw [hMdef]
          exact rotMid_len st x l2 _
        have hMnil : ∀ j, (getN M j).nil = (getN st j).nil := by
          intro j
          rw [hMdef]
          exact rotMid_nil st x l2 _ (by rw [hxr]) hxlen hl2len j
        have hMsize : M.size = st.size := by
          rw [hMdef]
          exact rotMid_size st x l2 _
        have hS3ne : ∀ j, j ≠ x → j ≠ l2 → j ≠ y → getN S3 j = getN st j := by
          intro j hjx hjl2 hjy
          rw [hS3def, getN_setN_ne M y j _ hjy]
          exact hMne j hjx hjl2
        have hS3y : getN S3 y = ⟨some p, some l2, some r2, cy, some b, some vb, false⟩ := by
          rw [hS3def]
          exact getN_setN_self M y _ (by rw [hMlen]; exact hylen)
        have hS3x : getN S3 x = ⟨some p, some l1, some l2, cx, some a, some va, false⟩ := by
          rw [hS3def, getN_setN_ne M y x _ hxy]
          exact hMx
        have hS3l2 : (getN st l2).nil = false →
            getN S3 l2 = { getN st l2 with parent := some x } := by
          intro hc
          rw [hS3def, getN_setN_ne M y l2 _ hl2y]
          exact hMl2 hc
        have hS3len : S3.nodes.length = st.nodes.length := by
          rw [hS3def, length_setN]
          exact hMlen
        have hS3nil : ∀ j, (getN S3 j).nil = (getN st j).nil := by
          intro j
          rw [hS3def, nil_setN M y _ (by rw [hMne y hyx (Ne.symm hl2y), hyr])
            (by rw [hMlen]; exact hylen) j]
          exact hMnil j
        have hS3size : S3.size = st.size := by
          rw [hS3def, size_setN]
          exact hMsize
        have hS4ne : ∀ j, j ≠ p → getN S4 j = getN S3 j := by
          intro j hjp
          rw [hS4def, getN_setN_ne S3 p j _ hjp]
        have hS4p : getN S4 p = { getN st p with left := some y } := by
          rw [hS4def]
          exact getN_setN_self S3 p _ (by rw [hS3len]; exact hplen)
        have hS4len : S4.nodes.length = st.nodes.length := by
          rw [hS4def, length_setN]
          exact hS3len
        have hS4nil : ∀ j, (getN S4 j).nil = (getN st j).nil := by
          intro j
          rw [hS4def, nil_setN S3 p _ (by rw [hS3nil p]) (by rw [hS3len]; exact hplen) j]
          exact hS3nil j
        have hS4root : S4.root = st.root := by
          rw [hS4def, root_setN, hS3def, root_setN, hMdef, rotMid_root]
        have hS4size : S4.size = st.size := by
          rw [hS4def, size_setN]
          exact hS3size
        have hFne : ∀ j, j ≠ x → j ≠ y → j ≠ l2 → j ≠ p → getN F j = getN st j := by
          intro j hjx hjy hjl2 hjp
          rw [hFdef, rotTail_ne S4 x y j hjx hjy, hS4ne j hjp]
          exact hS3ne j hjx hjl2 hjy
        have hFy : getN F y = ⟨some p, some x, some r2, cy, some b, some vb, false⟩ := by
          rw [hFdef, rotTail_y S4 x y hxy (by rw [hS4len]; exact hylen),
            hS4ne y (Ne.symm hpy), hS3y]
        have hFx : getN F x = ⟨some y, some l1, some l2, cx, some a, some va, false⟩ := by
          rw [hFdef, rotTail_x S4 x y hxy (by rw [hS4len]; exact hxlen),
            hS4ne x (Ne.symm hpx), hS3x]
        have hFl2 : l2 ∈ j1 → getN F l2 = { getN st l2 with parent := some x } := by
          intro hmem
          rw [hFdef, rotTail_ne S4 x y l2 hl2x hl2y, hS4ne l2 (Ne.symm hpl2)]
          exact hS3l2 (repN_ids_nonnil hT2 l2 hmem)
        have hFp : getN F p = ⟨holePO up, some y, some sib, c, some k, some v, false⟩ := by
          rw [hFdef, rotTail_ne S4 x y p hpx hpy, hS4p, hnp]
        have hFnil : ∀ j, (getN F j).nil = (getN st j).nil := by
          intro j
          rw [hFdef, rotTail_nil S4 x y (by rw [hS4len]; exact hxlen)
            (by rw [hS4len]; exact hylen) j]
          exact hS4nil j
        have hFlen : F.nodes.length = st.nodes.length := by
          rw [hFdef, rotTail_len]
          exact hS4len
        have hFsize : F.size = st.size := by
          rw [hFdef, rotTail_size]
          exact hS4size
        have hFroot : F.root = st.root := by
          rw [hFdef, rotTail_root]
          exact hS4root
        have hFagree : ∀ j, j ∈ i1 ∨ j ∈ j1 ∨ j ∈ j2 → j ≠ l2 → getN F j = getN st j := by
          intro j hj hjl2
          have hjsids : j ∈ insert x (i1 ∪ insert y (j1 ∪ j2)) := by
            rcases hj with hj | hj | hj <;> simp [hj]
          refine hFne j ?_ ?_ hjl2 ?_
          · intro he
            rw [he] at hj
            rcases hj with hj | hj | hj
            · exact hxl1 hj
            · exact hxiy (by simp [hj])
            · exact hxiy (by simp [hj])
          · intro he
            rw [he] at hj
            rcases hj with hj | hj | hj
            · exact (Finset.disjoint_left.mp hdA hj) (by simp)
            · exact hyj1 hj
            · exact hyj2 hj
          · intro he
            exact (Finset.disjoint_left.mp hdisj hpcids) (he ▸ hjsids)
        have hsubNew := rot_subL hT1 hT2 hT3 hdA hd2 hxl1 hxiy hyj1 hyj2 hx0 hy0
          hFx hFy hFl2 hFagree hFnil (by omega) (by rw [hFlen]; exact hxlen)
          (by rw [hFlen]; exact hylen)
        rw [hids] at hsubNew
        have hcidFagree : ∀ j ∈ insert p (upids ∪ sibids), j ≠ p →
            getN F j = getN st j := by
          intro j hj hjp
          refine hFne j ?_ ?_ ?_ hjp
          · intro he; rw [he] at hj; exact hx hj
          · intro he; rw [he] at hj; exact hycids hj
          · intro he
            rw [he] at hj
            rcases hl2c with hn | hmem
            · rw [repHole_ids_nonnil hole2 l2 hj] at hn
              exact Bool.false_ne_true hn
            · exact (Finset.disjoint_left.mp hdisj hj) (by simp [hmem])
        have hup2 : RepHole F up p upids :=
          repHole_congr hup
            (fun j hj => hcidFagree j (by simp [hj]) (fun he => hp1 (he ▸ hj)))
            hFnil (by omega) hFroot
        have hsib2 : RepN F (some p) sib sibT sibids :=
          repN_congr hsib
            (fun j hj => hcidFagree j (by simp [hj]) (fun he => hp2 (he ▸ hj)))
            hFnil (by omega)
        refine ⟨F, y, hF, ⟨RepHole.left hup2 hFp hsib2 hdC hp1 hp2
          (by rw [hFlen]; exact hplen) hpne0, hsubNew, hdisj, hycids,
          (by rw [hFlen]; exact hylen), ?_⟩, hFnil, hFlen, hFsize⟩
        intro q hq
        simp only [holePO] at hq
        cases hq
        rw [hFy]
      | right hup hnp hsib hdC hp1 hp2 hplen hpne0 =>
        rename_i up c k v p sib sibT upids sibids
        simp only [holePO] at hxr
        have hole2 : RepHole st (RCtx.right c k v p sib sibT up) x
            (insert p (upids ∪ sibids)) :=
          RepHole.right hup hnp hsib hdC hp1 hp2 hplen hpne0
        have hpcids : p ∈ insert p (upids ∪ sibids) := by simp
        have hpx : p ≠ x := fun h => hx (h ▸ hpcids)
        have hpy : p ≠ y := fun h =>
          (Finset.disjoint_left.mp hdisj hpcids) (by rw [h]; exact hysids)
        have hpl2 : p ≠ l2 := by
          rcases hl2c with hn | hmem
          · intro he; rw [← he, hnp] at hn; simp at hn
          · intro he
            exact (Finset.disjoint_left.mp hdisj hpcids) (by rw [he]; simp [hmem])
        have hp' : ∀ q, (some p : Option Nat) = some q → q ≠ x ∧ q ≠ y ∧ q ≠ l2 := by
          intro q h
          cases h
          exact ⟨hpx, hpy, hpl2⟩
        have hrun := rotateLeft_run hxr hyr hxy hl2x hl2y hp' hxlen
        have hplft : (getN st p).left = some sib := by rw [hnp]
        have hsibc := repN_root_cases hsib
        have hsibx : sib ≠ x := by
          rcases hsibc with hn | hmem
          · intro he; rw [he, hxr] at hn; simp at hn
          · intro he
            rw [he] at hmem
            exact hx (by simp [hmem])
        obtain ⟨M, hMdef⟩ : ∃ M, M
            = rotMid st x l2 ⟨some p, some l1, some l2, cx, some a, some va, false⟩ :=
          ⟨_, rfl⟩
        obtain ⟨S3, hS3def⟩ : ∃ S3, S3
            = setN M y ⟨some p, some l2, some r2, cy, some b, some vb, false⟩ := ⟨_, rfl⟩
        obtain ⟨S4, hS4def⟩ : ∃ S4, S4 = setN S3 p { getN st p with right := some y } :=
          ⟨_, rfl⟩
        obtain ⟨F, hFdef⟩ : ∃ F, F = rotTail S4 x y := ⟨_, rfl⟩
        have hF : rotateLeft st x = .ok F := by
          rw [hrun]
          show Except.ok (rotTail (if (getN st p).left = some x
              then setN (setN
                  (rotMid st x l2 ⟨some p, some l1, some l2, cx, some a, some va, false⟩)
                  y ⟨some p, some l2, some r2, cy, some b, some vb, false⟩)
                p { getN st p with left := some y }
              else setN (setN
                  (rotMid st x l2 ⟨some p, some l1, some l2, cx, some a, some va, false⟩)
                  y ⟨some p, some l2, some r2, cy, some b, some vb, false⟩)
                p { getN st p with right := some y }) x y)
            = Except.ok F
          rw [hplft, if_neg (fun hcon => hsibx (Option.some.inj hcon)),
            hFdef, hS4def, hS3def, hMdef]
        have hMne : ∀ j, j ≠ x → j ≠ l2 → getN M j = getN st j := by
          intro j hjx hjl2
          rw [hMdef]
          exact rotMid_ne st x l2 _ j hjx hjl2
        have hMx : getN M x = ⟨some p, some l1, some l2, cx, some a, some va, false⟩ := by
          rw [hMdef]
          exact rotMid_x st x l2 _ hl2x hxlen
        have hMl2 : (getN st l2).nil = false →
            getN M l2 = { getN st l2 with parent := some x } := by
          intro hc
          rw [hMdef]
          exact rotMid_l2 st x l2 _ hc hl2x hl2len
        have hMlen : M.nodes.length = st.nodes.length := by
          rw [hMdef]
          exact rotMid_len st x l2 _
        have hMnil : ∀ j, (getN M j).nil = (getN st j).nil := by
          intro j
          rw [hMdef]
          exact rotMid_nil st x l2 _ (by rw [hxr]) hxlen hl2len j
        have hMsize : M.size = st.size := by
          rw [hMdef]
          exact rotMid_size st x l2 _
        have hS3ne : ∀ j, j ≠ x → j ≠ l2 → j ≠ y → getN S3 j = getN st j := by
          intro j hjx hjl2 hjy
          rw [hS3def, getN_setN_ne M y j _ hjy]
          exact hMne j hjx hjl2
        have hS3y : getN S3 y = ⟨some p, some l2, some r2, cy, some b, some vb, false⟩ := by
          rw [hS3def]
          exact getN_setN_self M y _ (by rw [hMlen]; exact hylen)
        have hS3x : getN S3 x = ⟨some p, some l1, some l2, cx, some a, some va, false⟩ := by
          rw [hS3def, getN_setN_ne M y x _ hxy]
          exact hMx
        have hS3l2 : (getN st l2).nil = false →
            getN S3 l2 = { getN st l2 with parent := some x } := by
          intro hc
          rw [hS3def, getN_setN_ne M y l2 _ hl2y]
          exact hMl2 hc
        have hS3len : S3.nodes.length = st.nodes.length := by
          rw [hS3def, length_setN]
          exact hMlen
        have hS3nil : ∀ j, (getN S3 j).nil = (getN st j).nil := by
          intro j
          rw [hS3def, nil_setN M y _ (by rw [hMne y hyx (Ne.symm hl2y), hyr])
            (by rw [hMlen]; exact hylen) j]
          exact hMnil j
        have hS3size : S3.size = st.size := by
          rw [hS3def, size_setN]
          exact hMsize
        have hS4ne : ∀ j, j ≠ p → getN S4 j = getN S3 j := by
          intro j hjp
          rw [hS4def, getN_setN_ne S3 p j _ hjp]
        have hS4p : getN S4 p = { getN st p with right := some y } := by
          rw [hS4def]
          exact getN_setN_self S3 p _ (by rw [hS3len]; exact hplen)
        have hS4len : S4.nodes.length = st.nodes.length := by
          rw [hS4def, length_setN]
          exact hS3len
        have hS4nil : ∀ j, (getN S4 j).nil = (getN st j).nil := by
          intro j
          rw [hS4def, nil_setN S3 p _ (by rw [hS3nil p]) (by rw [hS3len]; exact hplen) j]
          exact hS3nil j
        have hS4root : S4.root = st.root := by
          rw [hS4def, root_setN, hS3def, root_setN, hMdef, rotMid_root]
        have hS4size : S4.size = st.size := by
          rw [hS4def, size_setN]
          exact hS3size
        have hFne : ∀ j, j ≠ x → j ≠ y → j ≠ l2 → j ≠ p → getN F j = getN st j := by
          intro j hjx hjy hjl2 hjp
          rw [hFdef, rotTail_ne S4 x y j hjx hjy, hS4ne j hjp]
          exact hS3ne j hjx hjl2 hjy
        have hFy : getN F y = ⟨some p, some x, some r2, cy, some b, some vb, false⟩ := by
          rw [hFdef, rotTail_y S4 x y hxy (by rw [hS4len]; exact hylen),
            hS4ne y (Ne.symm hpy), hS3y]
        have hFx : getN F x = ⟨some y, some l1, some l2, cx, some a, some va, false⟩ := by
          rw [hFdef, rotTail_x S4 x y hxy (by rw [hS4len]; exact hxlen),
            hS4ne x (Ne.symm hpx), hS3x]
        have hFl2 : l2 ∈ j1 → getN F l2 = { getN st l2 with parent := some x } := by
          intro hmem
          rw [hFdef, rotTail_ne S4 x y l2 hl2x hl2y, hS4ne l2 (Ne.symm hpl2)]
          exact hS3l2 (repN_ids_nonnil hT2 l2 hmem)
        have hFp : getN F p = ⟨holePO up, some sib, some y, c, some k, some v, false⟩ := by
          rw [hFdef, rotTail_ne S4 x y p hpx hpy, hS4p, hnp]
        have hFnil : ∀ j, (getN F j).nil = (getN st j).nil := by
          intro j
          rw [hFdef, rotTail_nil S4 x y (by rw [hS4len]; exact hxlen)
            (by rw [hS4len]; exact hylen) j]
          exact hS4nil j
        have hFlen : F.nodes.length = st.nodes.length := by
          rw [hFdef, rotTail_len]
          exact hS4len
        have hFsize : F.size = st.size := by
          rw [hFdef, rotTail_size]
          exact hS4size
        have hFroot : F.root = st.root := by
          rw [hFdef, rotTail_root]
          exact hS4root
        have hFagree : ∀ j, j ∈ i1 ∨ j ∈ j1 ∨ j ∈ j2 → j ≠ l2 → getN F j = getN st j := by
          intro j hj hjl2
          have hjsids : j ∈ insert x (i1 ∪ insert y (j1 ∪ j2)) := by
            rcases hj with hj | hj | hj <;> simp [hj]
          refine hFne j ?_ ?_ hjl2 ?_
          · intro he
            rw [he] at hj
            rcases hj with hj | hj | hj
            · exact hxl1 hj
            · exact hxiy (by simp [hj])
            · exact hxiy (by simp [hj])
          · intro he
            rw [he] at hj
            rcases hj with hj | hj | hj
            · exact (Finset.disjoint_left.mp hdA hj) (by simp)
            · exact hyj1 hj
            · exact hyj2 hj
          · intro he
            exact (Finset.disjoint_left.mp hdisj hpcids) (he ▸ hjsids)
        have hsubNew := rot_subL hT1 hT2 hT3 hdA hd2 hxl1 hxiy hyj1 hyj2 hx0 hy0
          hFx hFy hFl2 hFagree hFnil (by omega) (by rw [hFlen]; exact hxlen)
          (by rw [hFlen]; exact hylen)
        rw [hids] at hsubNew
        have hcidFagree : ∀ j ∈ insert p (upids ∪ sibids), j ≠ p →
            getN F j = getN st j := by
          intro j hj hjp
          refine hFne j ?_ ?_ ?_ hjp
          · intro he; rw [he] at hj; exact hx hj
          · intro he; rw [he] at hj; exact hycids hj
          · intro he
            rw [he] at hj
            rcases hl2c with hn | hmem
            · rw [repHole_ids_nonnil hole2 l2 hj] at hn
              exact Bool.false_ne_true hn
            · exact (Finset.disjoint_left.mp hdisj hj) (by simp [hmem])
        have hup2 : RepHole F up p upids :=
          repHole_congr hup
            (fun j hj => hcidFagree j (by simp [hj]) (fun he => hp1 (he ▸ hj)))
            hFnil (by omega) hFroot
        have hsib2 : RepN F (some p) sib sibT sibids :=
          repN_congr hsib
            (fun j hj => hcidFagree j (by simp [hj]) (fun he => hp2 (he ▸ hj)))
            hFnil (by omega)
        refine ⟨F, y, hF, ⟨RepHole.right hup2 hFp hsib2 hdC hp1 hp2
          (by rw [hFlen]; exact hplen) hpne0, hsubNew, hdisj, hycids,
          (by rw [hFlen]; exact hylen), ?_⟩, hFnil, hFlen, hFsize⟩
        intro q hq
        simp only [holePO] at hq
        cases hq
        rw [hFy]
/-- The final two writes of `rotateRight`: link `x` as the LEFT child of the
promoted node `y`. -/
def rotTailR {K V : Type} (st4 : RBSt K V) (x y : Nat) : RBSt K V :=
  let st5 := setN st4 y { getN st4 y with right := some x }
  setN st5 x { getN st5 x with parent := some y }

theorem rotTailR_ne {K V : Type} (st4 : RBSt K V) (x y : Nat)
    (j : Nat) (hjx : j ≠ x) (hjy : j ≠ y) :
    getN (rotTailR st4 x y) j = getN st4 j := by
  unfold rotTailR
  rw [getN_setN_ne _ x j _ hjx, getN_setN_ne _ y j _ hjy]

theorem rotTailR_y {K V : Type} (st4 : RBSt K V) (x y : Nat)
    (hxy : x ≠ y) (hylen : y < st4.nodes.length) :
    getN (rotTailR st4 x y) y = { getN st4 y with right := some x } := by
  unfold rotTailR
  rw [getN_setN_ne _ x y _ (Ne.symm hxy), getN_setN_self st4 y _ hylen]

theorem rotTailR_x {K V : Type} (st4 : RBSt K V) (x y : Nat)
    (hxy : x ≠ y) (hxlen : x < st4.nodes.length) :
    getN (rotTailR st4 x y) x = { getN st4 x with parent := some y } := by
  unfold rotTailR
  rw [getN_setN_self _ x _ (by rw [length_setN]; exact hxlen),
    getN_setN_ne st4 y x _ hxy]

theorem rotTailR_len {K V : Type} (st4 : RBSt K V) (x y : Nat) :
    (rotTailR st4 x y).nodes.length = st4.nodes.length := by
  unfold rotTailR
  rw [length_setN, length_setN]

theorem rotTailR_nil {K V : Type} (st4 : RBSt K V) (x y : Nat)
    (hxlen : x < st4.nodes.length) (hylen : y < st4.nodes.length) (j : Nat) :
    (getN (rotTailR st4 x y) j).nil = (getN st4 j).nil := by
  show (getN (setN (setN st4 y { getN st4 y with right := some x }) x
      { getN (setN st4 y { getN st4 y with right := some x }) x with parent := some y }) j).nil
    = (getN st4 j).nil
  rw [nil_setN _ x _
    (show ({ getN (setN st4 y { getN st4 y with right := some x }) x
        with parent := some y } : RBN K V).nil
      = (getN (setN st4 y { getN st4 y with right := some x }) x).nil from rfl)
    (by rw [length_setN]; exact hxlen) j]
  exact nil_setN st4 y { getN st4 y with right := some x }
    (show ({ getN st4 y with right := some x } : RBN K V).nil = (getN st4 y).nil from rfl)
    hylen j

theorem rotTailR_root {K V : Type} (st4 : RBSt K V) (x y : Nat) :
    (rotTailR st4 x y).root = st4.root := by
  unfold rotTailR
  rw [root_setN, root_setN]

theorem rotTailR_size {K V : Type} (st4 : RBSt K V) (x y : Nat) :
    (rotTailR st4 x y).size = st4.size := by
  unfold rotTailR
  rw [size_setN, size_setN]


/-- Symbolic execution of `rotateRight` at a non-nil node `x` with non-nil
right child `y`: it succeeds and performs exactly this sequence of writes. -/
theorem rotateRight_run {K V : Type} {st : RBSt K V} {x y r1 r2 l2 : Nat}
    {po : Option Nat} {cx cy : Color} {a b : K} {va vb : V}
    (hxr : getN st x = ⟨po, some y, some r1, cx, some a, some va, false⟩)
    (hyr : getN st y = ⟨some x, some l2, some r2, cy, some b, some vb, false⟩)
    (hxy : x ≠ y) (hr2x : r2 ≠ x) (hr2y : r2 ≠ y)
    (hp : ∀ q, po = some q → q ≠ x ∧ q ≠ y ∧ q ≠ r2)
    (hxlen : x < st.nodes.length) :
    rotateRight st x = .ok (
      let st3 := setN (rotMid st x r2 ⟨po, some r2, some r1, cx, some a, some va, false⟩)
        y ⟨po, some l2, some r2, cy, some b, some vb, false⟩
      let st4 := match po with
        | none => { st3 with root := y }
        | some p =>
          if (getN st p).right = some x
          then setN st3 p { getN st p with right := some y }
          else setN st3 p { getN st p with left := some y }
      rotTailR st4 x y) := by
  have hyx : y ≠ x := Ne.symm hxy
  have hxr2 : x ≠ r2 := Ne.symm hr2x
  have hyr2 : y ≠ r2 := Ne.symm hr2y
  simp only [rotateRight, hxr, hyr, deref, ok_bind]
  rw [getN_setN_ne st x y _ hyx, hyr]
  simp only [deref, ok_bind]
  rw [getN_setN_ne st x r2 _ hr2x]
  cases po with
  | none =>
    by_cases hc : (getN st r2).nil
    · simp [hc, rotMid, rotTailR, getN_setN_ne _ _ _ _ hyx, getN_setN_ne _ _ _ _ hxy,
        getN_setN_self st x _ hxlen, getN_root_set, hyr, pure_eq_ok]
    · simp [hc, rotMid, rotTailR, getN_setN_ne _ _ _ _ hyx, getN_setN_ne _ _ _ _ hxy,
        getN_setN_ne _ _ _ _ hxr2, getN_setN_ne _ _ _ _ hyr2,
        getN_setN_self st x _ hxlen, getN_root_set, hyr, pure_eq_ok]
  | some p =>
    obtain ⟨hpx, hpy, hpr2⟩ := hp p rfl
    have hxp : x ≠ p := Ne.symm hpx
    by_cases hc : (getN st r2).nil
    · by_cases hpl : (getN st p).right = some x
      · simp [hc, hpl, rotMid, rotTailR, getN_setN_ne _ _ _ _ hyx, getN_setN_ne _ _ _ _ hxy,
          getN_setN_ne _ _ _ _ hpx, getN_setN_ne _ _ _ _ hpy,
          getN_setN_ne _ _ _ _ hxp,
          getN_setN_self st x _ hxlen, hyr, pure_eq_ok]
      · simp [hc, hpl, rotMid, rotTailR, getN_setN_ne _ _ _ _ hyx, getN_setN_ne _ _ _ _ hxy,
          getN_setN_ne _ _ _ _ hpx, getN_setN_ne _ _ _ _ hpy,
          getN_setN_ne _ _ _ _ hxp,
          getN_setN_self st x _ hxlen, hyr, pure_eq_ok]
    · by_cases hpl : (getN st p).right = some x
      · simp [hc, hpl, rotMid, rotTailR, getN_setN_ne _ _ _ _ hyx, getN_setN_ne _ _ _ _ hxy,
          getN_setN_ne _ _ _ _ hpx, getN_setN_ne _ _ _ _ hpy,
          getN_setN_ne _ _ _ _ hpr2, getN_setN_ne _ _ _ _ hxp,
          getN_setN_ne _ _ _ _ hxr2, getN_setN_ne _ _ _ _ hyr2,
          getN_setN_self st x _ hxlen, hyr, pure_eq_ok]
      · simp [hc, hpl, rotMid, rotTailR, getN_setN_ne _ _ _ _ hyx, getN_setN_ne _ _ _ _ hxy,
          getN_setN_ne _ _ _ _ hpx, getN_setN_ne _ _ _ _ hpy,
          getN_setN_ne _ _ _ _ hpr2, getN_setN_ne _ _ _ _ hxp,
          getN_setN_ne _ _ _ _ hxr2, getN_setN_ne _ _ _ _ hyr2,
          getN_setN_self st x _ hxlen, hyr, pure_eq_ok]


/-- Reassemble the rotated subtree after `rotateRight`'s writes: the new
subtree root is `y`, its right child the old root `x`. -/
theorem rot_subR {K V : Type} {st F : RBSt K V} {po : Option Nat}
    {x y r1 r2 l2 : Nat} {cx cy : Color} {a b : K} {va vb : V}
    {T1 T2 T3 : RTree K V} {i1 j2 j1 : Finset Nat}
    (hT1 : RepN st (some y) l2 T1 j1)
    (hT2 : RepN st (some y) r2 T2 j2)
    (hT3 : RepN st (some x) r1 T3 i1)
    (hd1 : Disjoint (insert y (j1 ∪ j2)) i1)
    (hd2 : Disjoint j1 j2)
    (hxiy : x ∉ insert y (j1 ∪ j2)) (hxi1 : x ∉ i1)
    (hyj1 : y ∉ j1) (hyj2 : y ∉ j2)
    (hx0 : x ≠ 0) (hy0 : y ≠ 0)
    (hFx : getN F x = ⟨some y, some r2, some r1, cx, some a, some va, false⟩)
    (hFy : getN F y = ⟨po, some l2, some x, cy, some b, some vb, false⟩)
    (hFr2 : r2 ∈ j2 → getN F r2 = { getN st r2 with parent := some x })
    (hFagree : ∀ j, j ∈ j1 ∨ j ∈ j2 ∨ j ∈ i1 → j ≠ r2 → getN F j = getN st j)
    (hFnil : ∀ j, (getN F j).nil = (getN st j).nil)
    (hFlen : st.nodes.length ≤ F.nodes.length)
    (hxlen : x < F.nodes.length) (hylen : y < F.nodes.length) :
    RepN F po y (RTree.node cy T1 b vb (RTree.node cx T2 a va T3))
      (insert y (j1 ∪ insert x (j2 ∪ i1))) := by
  have hxy : x ≠ y := fun h => hxiy (by simp [h])
  have hr2c := repN_root_cases hT2
  -- the three subtrees in the final heap
  have hT1' : RepN F (some y) l2 T1 j1 := by
    refine repN_congr hT1 (fun j hj => hFagree j (Or.inl hj) ?_) hFnil hFlen
    rcases hr2c with h | h
    · intro he
      rw [← he] at h
      rw [repN_ids_nonnil hT1 j hj] at h
      exact Bool.false_ne_true h
    · intro he
      exact (Finset.disjoint_left.mp hd2) hj (he ▸ h)
  have hT2' : RepN F (some x) r2 T2 j2 := by
    cases hT2 with
    | nil hf hlenl2 =>
      exact RepN.nil (by rw [hFnil]; exact hf) (by omega)
    | node hn hl hr hd hil hir hlen h0 =>
      exact repN_parent_congr (RepN.node hn hl hr hd hil hir hlen h0)
        (hFr2 (by simp)) (fun j hj hne => hFagree j (Or.inr (Or.inl hj)) hne)
        hFnil hFlen
  have hT3' : RepN F (some x) r1 T3 i1 := by
    refine repN_congr hT3 (fun j hj => hFagree j (Or.inr (Or.inr hj)) ?_) hFnil hFlen
    rcases hr2c with h | h
    · intro he
      rw [← he] at h
      rw [repN_ids_nonnil hT3 j hj] at h
      exact Bool.false_ne_true h
    · intro he
      exact (Finset.disjoint_left.mp hd1) (by simp [h]) (he ▸ hj)
  -- the new right child: the old subtree root x
  have hxj2 : x ∉ j2 := fun h => hxiy (by simp [h])
  have hxj1 : x ∉ j1 := fun h => hxiy (by simp [h])
  have hyi1 : y ∉ i1 := fun h => (Finset.disjoint_left.mp hd1 (by simp)) h
  have hinner : RepN F (some y) x (RTree.node cx T2 a va T3) (insert x (j2 ∪ i1)) := by
    refine RepN.node hFx hT2' hT3' ?_ hxj2 hxi1 hxlen hx0
    exact Finset.disjoint_of_subset_left (fun j hj => by simp [hj]) hd1
  refine RepN.node hFy hT1' hinner ?_ hyj1 ?_ hylen hy0
  · rw [Finset.disjoint_right]
    intro j hj
    rw [Finset.mem_insert, Finset.mem_union] at hj
    rcases hj with hj | hj | hj
    · exact hj ▸ hxj1
    · exact fun hc => (Finset.disjoint_left.mp hd2 hc) hj
    · exact fun hc => (Finset.disjoint_left.mp hd1 (by simp [hc])) hj
  · rw [Finset.mem_insert, Finset.mem_union]
    push_neg
    exact ⟨Ne.symm hxy, hyj2, hyi1⟩

set_option maxHeartbeats 1000000 in
/-- `rotateRight` on a zipper focused at a node with a non-nil right child:
it succeeds, and the heap refocuses at the promoted child, with the same
context and slot sets, all nil flags, the arena length and `_size`
unchanged. -/
theorem rotateRight_zip {K V : Type} {st : RBSt K V} {ctx : RCtx K V} {x : Nat}
    {cx cy : Color} {a b : K} {va vb : V} {T3 T2 T1 : RTree K V}
    {cids sids : Finset Nat}
    (hz : Zip st ctx x (RTree.node cx (RTree.node cy T1 b vb T2) a va T3) cids sids) :
    ∃ (st2 : RBSt K V) (y : Nat),
      rotateRight st x = .ok st2 ∧
      Zip st2 ctx y (RTree.node cy T1 b vb (RTree.node cx T2 a va T3)) cids sids ∧
      (∀ j, (getN st2 j).nil = (getN st j).nil) ∧
      st2.nodes.length = st.nodes.length ∧
      st2.size = st.size := by
  obtain ⟨hole, hsub, hdisj, hx, hxlen, hpar⟩ := hz
  cases hsub with
  | node hxr hyrep hT3 hdA hxiy hxi1 hxlen2 hx0 =>
    rename_i y r1 iy i1
    cases hyrep with
    | node hyr hT1 hT2 hd2 hyj1 hyj2 hylen hy0 =>
      rename_i l2 r2 j1 j2
      have hxy : x ≠ y := fun h => hxiy (by simp [h])
      have hyx : y ≠ x := Ne.symm hxy
      have hr2c := repN_root_cases hT2
      have hr2x : r2 ≠ x := by
        rcases hr2c with h | h
        · intro he; rw [he, hxr] at h; simp at h
        · intro he; apply hxiy; rw [← he]; simp [h]
      have hr2y : r2 ≠ y := by
        rcases hr2c with h | h
        · intro he; rw [he, hyr] at h; simp at h
        · intro he; exact hyj2 (he ▸ h)
      have hr1len := repN_lt hT3
      have hr2len := repN_lt hT2
      have hl2len := repN_lt hT1
      have hysids : y ∈ insert x (insert y (j1 ∪ j2) ∪ i1) := by simp
      have hycids : y ∉ cids := fun h => (Finset.disjoint_left.mp hdisj h) hysids
      have hids : insert y (j1 ∪ insert x (j2 ∪ i1))
          = insert x (insert y (j1 ∪ j2) ∪ i1) := by
        ext z
        simp only [Finset.mem_insert, Finset.mem_union]
        tauto
      cases hole with
      | root hroot =>
        simp only [holePO] at hxr
        have hp' : ∀ q, (none : Option Nat) = some q → q ≠ x ∧ q ≠ y ∧ q ≠ r2 :=
          fun q h => Option.noConfusion h
        have hrun := rotateRight_run hxr hyr hxy hr2x hr2y hp' hxlen
        obtain ⟨M, hMdef⟩ : ∃ M, M
            = rotMid st x r2 ⟨none, some r2, some r1, cx, some a, some va, false⟩ :=
          ⟨_, rfl⟩
        obtain ⟨S3, hS3def⟩ : ∃ S3, S3
            = setN M y ⟨none, some l2, some r2, cy, some b, some vb, false⟩ := ⟨_, rfl⟩
        obtain ⟨F, hFdef⟩ : ∃ F, F = rotTailR { S3 with root := y } x y := ⟨_, rfl⟩
        have hF : rotateRight st x = .ok F := by
          rw [hFdef, hS3def, hMdef]
          exact hrun
        have hMne : ∀ j, j ≠ x → j ≠ r2 → getN M j = getN st j := by
          intro j hjx hjr2
          rw [hMdef]
          exact rotMid_ne st x r2 _ j hjx hjr2
        have hMx : getN M x = ⟨none, some r2, some r1, cx, some a, some va, false⟩ := by
          rw [hMdef]
          exact rotMid_x st x r2 _ hr2x hxlen
        have hMr2 : (getN st r2).nil = false →
            getN M r2 = { getN st r2 with parent := some x } := by
          intro hc
          rw [hMdef]
          exact rotMid_l2 st x r2 _ hc hr2x hr2len
        have hMlen : M.nodes.length = st.nodes.length := by
          rw [hMdef]
          exact rotMid_len st x r2 _
        have hMnil : ∀ j, (getN M j).nil = (getN st j).nil := by
          intro j
          rw [hMdef]
          exact rotMid_nil st x r2 _ (by rw [hxr]) hxlen hr2len j
        have hMsize : M.size = st.size := by
          rw [hMdef]
          exact rotMid_size st x r2 _
        have hS3ne : ∀ j, j ≠ x → j ≠ r2 → j ≠ y → getN S3 j = getN st j := by
          intro j hjx hjr2 hjy
          rw [hS3def, getN_setN_ne M y j _ hjy]
          exact hMne j hjx hjr2
        have hS3y : getN S3 y = ⟨none, some l2, some r2, cy, some b, some vb, false⟩ := by
          rw [hS3def]
          exact getN_setN_self M y _ (by rw [hMlen]; exact hylen)
        have hS3x : getN S3 x = ⟨none, some r2, some r1, cx, some a, some va, false⟩ := by
          rw [hS3def, getN_setN_ne M y x _ hxy]
          exact hMx
        have hS3r2 : (getN st r2).nil = false →
            getN S3 r2 = { getN st r2 with parent := some x } := by
          intro hc
          rw [hS3def, getN_setN_ne M y r2 _ hr2y]
          exact hMr2 hc
        have hS3len : S3.nodes.length = st.nodes.length := by
          rw [hS3def, length_setN]
          exact hMlen
        have hS3nil : ∀ j, (getN S3 j).nil = (getN st j).nil := by
          intro j
          rw [hS3def, nil_setN M y _ (by rw [hMne y hyx (Ne.symm hr2y), hyr])
            (by rw [hMlen]; exact hylen) j]
          exact hMnil j
        have hS3size : S3.size = st.size := by
          rw [hS3def, size_setN]
          exact hMsize
        have hFne : ∀ j, j ≠ x → j ≠ y → j ≠ r2 → getN F j = getN st j := by
          intro j hjx hjy hjr2
          rw [hFdef, rotTailR_ne _ x y j hjx hjy, getN_root_set]
          exact hS3ne j hjx hjr2 hjy
        have hS4len : ({ S3 with root := y } : RBSt K V).nodes.length = st.nodes.length :=
          hS3len
        have hFy : getN F y = ⟨none, some l2, some x, cy, some b, some vb, false⟩ := by
          rw [hFdef, rotTailR_y _ x y hxy (by rw [hS4len]; exact hylen), getN_root_set, hS3y]
        have hFx : getN F x = ⟨some y, some r2, some r1, cx, some a, some va, false⟩ := by
          rw [hFdef, rotTailR_x _ x y hxy (by rw [hS4len]; exact hxlen), getN_root_set, hS3x]
        have hFr2 : r2 ∈ j2 → getN F r2 = { getN st r2 with parent := some x } := by
          intro hmem
          rw [hFdef, rotTailR_ne _ x y r2 hr2x hr2y, getN_root_set]
          exact hS3r2 (repN_ids_nonnil hT2 r2 hmem)
        have hFnil : ∀ j, (getN F j).nil = (getN st j).nil := by
          intro j
          rw [hFdef, rotTailR_nil _ x y (by rw [hS4len]; exact hxlen)
            (by rw [hS4len]; exact hylen) j, getN_root_set]
          exact hS3nil j
        have hFlen : F.nodes.length = st.nodes.length := by
          rw [hFdef, rotTailR_len]
          exact hS4len
        have hFsize : F.size = st.size := by
          rw [hFdef, rotTailR_size]
          exact hS3size
        have hFroot : F.root = y := by
          rw [hFdef, rotTailR_root, hS3def]
        have hFagree : ∀ j, j ∈ j1 ∨ j ∈ j2 ∨ j ∈ i1 → j ≠ r2 → getN F j = getN st j := by
          intro j hj hjr2
          refine hFne j ?_ ?_ hjr2
          · intro he
            rw [he] at hj
            rcases hj with hj | hj | hj
            · exact hxiy (by simp [hj])
            · exact hxiy (by simp [hj])
            · exact hxi1 hj
          · intro he
            rw [he] at hj
            rcases hj with hj | hj | hj
            · exact hyj1 hj
            · exact hyj2 hj
            · exact (Finset.disjoint_left.mp hdA (by simp)) hj
        have hsubNew := rot_subR hT1 hT2 hT3 hdA hd2 hxiy hxi1 hyj1 hyj2 hx0 hy0
          hFx hFy hFr2 hFagree hFnil (by omega) (by rw [hFlen]; exact hxlen)
          (by rw [hFlen]; exact hylen)
        rw [hids] at hsubNew
        refine ⟨F, y, hF, ⟨RepHole.root hFroot, hsubNew, disjoint_bot_left,
          Finset.not_mem_empty y,
          by rw [hFlen]; exact hylen, fun q hq => Option.noConfusion hq⟩,
          hFnil, hFlen, hFsize⟩
      | right hup hnp hsib hdC hp1 hp2 hplen hpne0 =>
        rename_i up c k v p sib sibT upids sibids
        simp only [holePO] at hxr
        have hole2 : RepHole st (RCtx.right c k v p sib sibT up) x
            (insert p (upids ∪ sibids)) :=
          RepHole.right hup hnp hsib hdC hp1 hp2 hplen hpne0
        have hpcids : p ∈ insert p (upids ∪ sibids) := by simp
        have hpx : p ≠ x := fun h => hx (h ▸ hpcids)
        have hpy : p ≠ y := fun h =>
          (Finset.disjoint_left.mp hdisj hpcids) (by rw [h]; exact hysids)
        have hpr2 : p ≠ r2 := by
          rcases hr2c with hn | hmem
          · intro he; rw [← he, hnp] at hn; simp at hn
          · intro he
            exact (Finset.disjoint_left.mp hdisj hpcids) (by rw [he]; simp [hmem])
        have hp' : ∀ q, (some p : Option Nat) = some q → q ≠ x ∧ q ≠ y ∧ q ≠ r2 := by
          intro q h
          cases h
          exact ⟨hpx, hpy, hpr2⟩
        have hrun := rotateRight_run hxr hyr hxy hr2x hr2y hp' hxlen
        have hprt : (getN st p).right = some x := by rw [hnp]
        obtain ⟨M, hMdef⟩ : ∃ M, M
            = rotMid st x r2 ⟨some p, some r2, some r1, cx, some a, some va, false⟩ :=
          ⟨_, rfl⟩
        obtain ⟨S3, hS3def⟩ : ∃ S3, S3
            = setN M y ⟨some p, some l2, some r2, cy, some b, some vb, false⟩ := ⟨_, rfl⟩
        obtain ⟨S4, hS4def⟩ : ∃ S4, S4 = setN S3 p { getN st p with right := some y } :=
          ⟨_, rfl⟩
        obtain ⟨F, hFdef⟩ : ∃ F, F = rotTailR S4 x y := ⟨_, rfl⟩
        have hF : rotateRight st x = .ok F := by
          rw [hrun]
          show Except.ok (rotTailR (if (getN st p).right = some x
              then setN (setN
                  (rotMid st x r2 ⟨some p, some r2, some r1, cx, some a, some va, false⟩)
                  y ⟨some p, some l2, some r2, cy, some b, some vb, false⟩)
                p { getN st p with right := some y }
              else setN (setN
                  (rotMid st x r2 ⟨some p, some r2, some r1, cx, some a, some va, false⟩)
                  y ⟨some p, some l2, some r2, cy, some b, some vb, false⟩)
                p { getN st p with left := some y }) x y)
            = Except.ok F
          rw [hprt, if_pos rfl, hFdef, hS4def, hS3def, hMdef]
        have hMne : ∀ j, j ≠ x → j ≠ r2 → getN M j = getN st j := by
          intro j hjx hjr2
          rw [hMdef]
          exact rotMid_ne st x r2 _ j hjx hjr2
        have hMx : getN M x = ⟨some p, some r2, some r1, cx, some a, some va, false⟩ := by
          rw [hMdef]
          exact rotMid_x st x r2 _ hr2x hxlen
        have hMr2 : (getN st r2).nil = false →
            getN M r2 = { getN st r2 with parent := some x } := by
          intro hc
          rw [hMdef]
          exact rotMid_l2 st x r2 _ hc hr2x hr2len
        have hMlen : M.nodes.length = st.nodes.length := by
          rw [hMdef]
          exact rotMid_len st x r2 _
        have hMnil : ∀ j, (getN M j).nil = (getN st j).nil := by
          intro j
          rw [hMdef]
          exact rotMid_nil st x r2 _ (by rw [hxr]) hxlen hr2len j
        have hMsize : M.size = st.size := by
          rw [hMdef]
          exact rotMid_size st x r2 _
        have hS3ne : ∀ j, j ≠ x → j ≠ r2 → j ≠ y → getN S3 j = getN st j := by
          intro j hjx hjr2 hjy
          rw [hS3def, getN_setN_ne M y j _ hjy]
          exact hMne j hjx hjr2
        have hS3y : getN S3 y = ⟨some p, some l2, some r2, cy, some b, some vb, false⟩ := by
          rw [hS3def]
          exact getN_setN_self M y _ (by rw [hMlen]; exact hylen)
        have hS3x : getN S3 x = ⟨some p, some r2, some r1, cx, some a, some va, false⟩ := by
          rw [hS3def, getN_setN_ne M y x _ hxy]
          exact hMx
        have hS3r2 : (getN st r2).nil = false →
            getN S3 r2 = { getN st r2 with parent := some x } := by
          intro hc
          rw [hS3def, getN_setN_ne M y r2 _ hr2y]
          exact hMr2 hc
        have hS3len : S3.nodes.length = st.nodes.length := by
          rw [hS3def, length_setN]
          exact hMlen
        have hS3nil : ∀ j, (getN S3 j).nil = (getN st j).nil := by
          intro j
          rw [hS3def, nil_setN M y _ (by rw [hMne y hyx (Ne.symm hr2y), hyr])
            (by rw [hMlen]; exact hylen) j]
          exact hMnil j
        have hS3size : S3.size = st.size := by
          rw [hS3def, size_setN]
          exact hMsize
        have hS4ne : ∀ j, j ≠ p → getN S4 j = getN S3 j := by
          intro j hjp
          rw [hS4def, getN_setN_ne S3 p j _ hjp]
        have hS4p : getN S4 p = { getN st p with right := some y } := by
          rw [hS4def]
          exact getN_setN_self S3 p _ (by rw [hS3len]; exact hplen)
        have hS4len : S4.nodes.length = st.nodes.length := by
          rw [hS4def, length_setN]
          exact hS3len
        have hS4nil : ∀ j, (getN S4 j).nil = (getN st j).nil := by
          intro j
          rw [hS4def, nil_setN S3 p _ (by rw [hS3nil p]) (by rw [hS3len]; exact hplen) j]
          exact hS3nil j
        have hS4root : S4.root = st.root := by
          rw [hS4def, root_setN, hS3def, root_setN, hMdef, rotMid_root]
        have hS4size : S4.size = st.size := by
          rw [hS4def, size_setN]
          exact hS3size
        have hFne : ∀ j, j ≠ x → j ≠ y → j ≠ r2 → j ≠ p → getN F j = getN st j := by
          intro j hjx hjy hjr2 hjp
          rw [hFdef, rotTailR_ne S4 x y j hjx hjy, hS4ne j hjp]
          exact hS3ne j hjx hjr2 hjy
        have hFy : getN F y = ⟨some p, some l2, some x, cy, some b, some vb, false⟩ := by
          rw [hFdef, rotTailR_y S4 x y hxy (by rw [hS4len]; exact hylen),
            hS4ne y (Ne.symm hpy), hS3y]
        have hFx : getN F x = ⟨some y, some r2, some r1, cx, some a, some va, false⟩ := by
          rw [hFdef, rotTailR_x S4 x y hxy (by rw [hS4len]; exact hxlen),
            hS4ne x (Ne.symm hpx), hS3x]
        have hFr2 : r2 ∈ j2 → getN F r2 = { getN st r2 with parent := some x } := by
          intro hmem
          rw [hFdef, rotTailR_ne S4 x y r2 hr2x hr2y, hS4ne r2 (Ne.symm hpr2)]
          exact hS3r2 (repN_ids_nonnil hT2 r2 hmem)
        have hFp : getN F p = ⟨holePO up, some sib, some y, c, some k, some v, false⟩ := by
          rw [hFdef, rotTailR_ne S4 x y p hpx hpy, hS4p, hnp]
        have hFnil : ∀ j, (getN F j).nil = (getN st j).nil := by
          intro j
          rw [hFdef, rotTailR_nil S4 x y (by rw [hS4len]; exact hxlen)
            (by rw [hS4len]; exact hylen) j]
          exact hS4nil j
        have hFlen : F.nodes.length = st.nodes.length := by
          rw [hFdef, rotTailR_len]
          exact hS4len
        have hFsize : F.size = st.size := by
          rw [hFdef, rotTailR_size]
          exact hS4size
        have hFroot : F.root = st.root := by
          rw [hFdef, rotTailR_root]
          exact hS4root
        have hFagree : ∀ j, j ∈ j1 ∨ j ∈ j2 ∨ j ∈ i1 → j ≠ r2 → getN F j = getN st j := by
          intro j hj hjr2
          have hjsids : j ∈ insert x (insert y (j1 ∪ j2) ∪ i1) := by
            rcases hj with hj | hj | hj <;> simp [hj]
          refine hFne j ?_ ?_ hjr2 ?_
          · intro he
            rw [he] at hj
            rcases hj with hj | hj | hj
            · exact hxiy (by simp [hj])
            · exact hxiy (by simp [hj])
            · exact hxi1 hj
          · intro he
            rw [he] at hj
            rcases hj with hj | hj | hj
            · exact hyj1 hj
            · exact hyj2 hj
            · exact (Finset.disjoint_left.mp hdA (by simp)) hj
          · intro he
            exact (Finset.disjoint_left.mp hdisj hpcids) (he ▸ hjsids)
        have hsubNew := rot_subR hT1 hT2 hT3 hdA hd2 hxiy hxi1 hyj1 hyj2 hx0 hy0
          hFx hFy hFr2 hFagree hFnil (by omega) (by rw [hFlen]; exact hxlen)
          (by rw [hFlen]; exact hylen)
        rw [hids] at hsubNew
        have hcidFagree : ∀ j ∈ insert p (upids ∪ sibids), j ≠ p →
            getN F j = getN st j := by
          intro j hj hjp
          refine hFne j ?_ ?_ ?_ hjp
          · intro he; rw [he] at hj; exact hx hj
          · intro he; rw [he] at hj; exact hycids hj
          · intro he
            rw [he] at hj
            rcases hr2c with hn | hmem
            · rw [repHole_ids_nonnil hole2 r2 hj] at hn
              exact Bool.false_ne_true hn
            · exact (Finset.disjoint_left.mp hdisj hj) (by simp [hmem])
        have hup2 : RepHole F up p upids :=
          repHole_congr hup
            (fun j hj => hcidFagree j (by simp [hj]) (fun he => hp1 (he ▸ hj)))
            hFnil (by omega) hFroot
        have hsib2 : RepN F (some p) sib sibT sibids :=
          repN_congr hsib
            (fun j hj => hcidFagree j (by simp [hj]) (fun he => hp2 (he ▸ hj)))
            hFnil (by omega)
        refine ⟨F, y, hF, ⟨RepHole.right hup2 hFp hsib2 hdC hp1 hp2
          (by rw [hFlen]; exact hplen) hpne0, hsubNew, hdisj, hycids,
          (by rw [hFlen]; exact hylen), ?_⟩, hFnil, hFlen, hFsize⟩
        intro q hq
        simp only [holePO] at hq
        cases hq
        rw [hFy]
      | left hup hnp hsib hdC hp1 hp2 hplen hpne0 =>
        rename_i up c k v p sib sibT upids sibids
        simp only [holePO] at hxr
        have hole2 : RepHole st (RCtx.left c k v p sib sibT up) x
            (insert p (upids ∪ sibids)) :=
          RepHole.left hup hnp hsib hdC hp1 hp2 hplen hpne0
        have hpcids : p ∈ insert p (upids ∪ sibids) := by simp
        have hpx : p ≠ x := fun h => hx (h ▸ hpcids)
        have hpy : p ≠ y := fun h =>
          (Finset.disjoint_left.mp hdisj hpcids) (by rw [h]; exact hysids)
        have hpr2 : p ≠ r2 := by
          rcases hr2c with hn | hmem
          · intro he; rw [← he, hnp] at hn; simp at hn
          · intro he
            exact (Finset.disjoint_left.mp hdisj hpcids) (by rw [he]; simp [hmem])
        have hp' : ∀ q, (some p : Option Nat) = some q → q ≠ x ∧ q ≠ y ∧ q ≠ r2 := by
          intro q h
          cases h
          exact ⟨hpx, hpy, hpr2⟩
        have hrun := rotateRight_run hxr hyr hxy hr2x hr2y hp' hxlen
        have hprt : (getN st p).right = some sib := by rw [hnp]
        have hsibc := repN_root_cases hsib
        have hsibx : sib ≠ x := by
          rcases hsibc with hn | hmem
          · intro he; rw [he, hxr] at hn; simp at hn
          · intro he
            rw [he] at hmem
            exact hx (by simp [hmem])
        obtain ⟨M, hMdef⟩ : ∃ M, M
            = rotMid st x r2 ⟨some p, some r2, some r1, cx, some a, some va, false⟩ :=
          ⟨_, rfl⟩
        obtain ⟨S3, hS3def⟩ : ∃ S3, S3
            = setN M y ⟨some p, some l2, some r2, cy, some b, some vb, false⟩ := ⟨_, rfl⟩
        obtain ⟨S4, hS4def⟩ : ∃ S4, S4 = setN S3 p { getN st p with left := some y } :=
          ⟨_, rfl⟩
        obtain ⟨F, hFdef⟩ : ∃ F, F = rotTailR S4 x y := ⟨_, rfl⟩
        have hF : rotateRight st x = .ok F := by
          rw [hrun]
          show Except.ok (rotTailR (if (getN st p).right = some x
              then setN (setN
                  (rotMid st x r2 ⟨some p, some r2, some r1, cx, some a, some va, false⟩)
                  y ⟨some p, some l2, some r2, cy, some b, some vb, false⟩)
                p { getN st p with right := some y }
              else setN (setN
                  (rotMid st x r2 ⟨some p, some r2, some r1, cx, some a, some va, false⟩)
                  y ⟨some p, some l2, some r2, cy, some b, some vb, false⟩)
                p { getN st p with left := some y }) x y)
            = Except.ok F
          rw [hprt, if_neg (fun hcon => hsibx (Option.some.inj hcon)),
            hFdef, hS4def, hS3def, hMdef]
        have hMne : ∀ j, j ≠ x → j ≠ r2 → getN M j = getN st j := by
          intro j hjx hjr2
          rw [hMdef]
          exact rotMid_ne st x r2 _ j hjx hjr2
        have hMx : getN M x = ⟨some p, some r2, some r1, cx, some a, some va, false⟩ := by
          rw [hMdef]
          exact rotMid_x st x r2 _ hr2x hxlen
        have hMr2 : (getN st r2).nil = false →
            getN M r2 = { getN st r2 with parent := some x } := by
          intro hc
          rw [hMdef]
          exact rotMid_l2 st x r2 _ hc hr2x hr2len
        have hMlen : M.nodes.length = st.nodes.length := by
          rw [hMdef]
          exact rotMid_len st x r2 _
        have hMnil : ∀ j, (getN M j).nil = (getN st j).nil := by
          intro j
          rw [hMdef]
          exact rotMid_nil st x r2 _ (by rw [hxr]) hxlen hr2len j
        have hMsize : M.size = st.size := by
          rw [hMdef]
          exact rotMid_size st x r2 _
        have hS3ne : ∀ j, j ≠ x → j ≠ r2 → j ≠ y → getN S3 j = getN st j := by
          intro j hjx hjr2 hjy
          rw [hS3def, getN_setN_ne M y j _ hjy]
          exact hMne j hjx hjr2
        have hS3y : getN S3 y = ⟨some p, some l2, some r2, cy, some b, some vb, false⟩ := by
          rw [hS3def]
          exact getN_setN_self M y _ (by rw [hMlen]; exact hylen)
        have hS3x : getN S3 x = ⟨some p, some r2, some r1, cx, some a, some va, false⟩ := by
          rw [hS3def, getN_setN_ne M y x _ hxy]
          exact hMx
        have hS3r2 : (getN st r2).nil = false →
            getN S3 r2 = { getN st r2 with parent := some x } := by
          intro hc
          rw [hS3def, getN_setN_ne M y r2 _ hr2y]
          exact hMr2 hc
        have hS3len : S3.nodes.length = st.nodes.length := by
          rw [hS3def, length_setN]
          exact hMlen
        have hS3nil : ∀ j, (getN S3 j).nil = (getN st j).nil := by
          intro j
          rw [hS3def, nil_setN M y _ (by rw [hMne y hyx (Ne.symm hr2y), hyr])
            (by rw [hMlen]; exact hylen) j]
          exact hMnil j
        have hS3size : S3.size = st.size := by
          rw [hS3def, size_setN]
          exact hMsize
        have hS4ne : ∀ j, j ≠ p → getN S4 j = getN S3 j := by
          intro j hjp
          rw [hS4def, getN_setN_ne S3 p j _ hjp]
        have hS4p : getN S4 p = { getN st p with left := some y } := by
          rw [hS4def]
          exact getN_setN_self S3 p _ (by rw [hS3len]; exact hplen)
        have hS4len : S4.nodes.length = st.nodes.length := by
          rw [hS4def, length_setN]
          exact hS3len
        have hS4nil : ∀ j, (getN S4 j).nil = (getN st j).nil := by
          intro j
          rw [hS4def, nil_setN S3 p _ (by rw [hS3nil p]) (by rw [hS3len]; exact hplen) j]
          exact hS3nil j
        have hS4root : S4.root = st.root := by
          rw [hS4def, root_setN, hS3def, root_setN, hMdef, rotMid_root]
        have hS4size : S4.size = st.size := by
          rw [hS4def, size_setN]
          exact hS3size
        have hFne : ∀ j, j ≠ x → j ≠ y → j ≠ r2 → j ≠ p → getN F j = getN st j := by
          intro j hjx hjy hjr2 hjp
          rw [hFdef, rotTailR_ne S4 x y j hjx hjy, hS4ne j hjp]
          exact hS3ne j hjx hjr2 hjy
        have hFy : getN F y = ⟨some p, some l2, some x, cy, some b, some vb, false⟩ := by
          rw [hFdef, rotTailR_y S4 x y hxy (by rw [hS4len]; exact hylen),
            hS4ne y (Ne.symm hpy), hS3y]
        have hFx : getN F x = ⟨some y, some r2, some r1, cx, some a, some va, false⟩ := by
          rw [hFdef, rotTailR_x S4 x y hxy (by rw [hS4len]; exact hxlen),
            hS4ne x (Ne.symm hpx), hS3x]
        have hFr2 : r2 ∈ j2 → getN F r2 = { getN st r2 with parent := some x } := by
          intro hmem
          rw [hFdef, rotTailR_ne S4 x y r2 hr2x hr2y, hS4ne r2 (Ne.symm hpr2)]
          exact hS3r2 (repN_ids_nonnil hT2 r2 hmem)
        have hFp : getN F p = ⟨holePO up, some y, some sib, c, some k, some v, false⟩ := by
          rw [hFdef, rotTailR_ne S4 x y p hpx hpy, hS4p, hnp]
        have hFnil : ∀ j, (getN F j).nil = (getN st j).nil := by
          intro j
          rw [hFdef, rotTailR_nil S4 x y (by rw [hS4len]; exact hxlen)
            (by rw [hS4len]; exact hylen) j]
          exact hS4nil j
        have hFlen : F.nodes.length = st.nodes.length := by
          rw [hFdef, rotTailR_len]
          exact hS4len
        have hFsize : F.size = st.size := by
          rw [hFdef, rotTailR_size]
          exact hS4size
        have hFroot : F.root = st.root := by
          rw [hFdef, rotTailR_root]
          exact hS4root
        have hFagree : ∀ j, j ∈ j1 ∨ j ∈ j2 ∨ j ∈ i1 → j ≠ r2 → getN F j = getN st j := by
          intro j hj hjr2
          have hjsids : j ∈ insert x (insert y (j1 ∪ j2) ∪ i1) := by
            rcases hj with hj | hj | hj <;> simp [hj]
          refine hFne j ?_ ?_ hjr2 ?_
          · intro he
            rw [he] at hj
            rcases hj with hj | hj | hj
            · exact hxiy (by simp [hj])
            · exact hxiy (by simp [hj])
            · exact hxi1 hj
          · intro he
            rw [he] at hj
            rcases hj with hj | hj | hj
            · exact hyj1 hj
            · exact hyj2 hj
            · exact (Finset.disjoint_left.mp hdA (by simp)) hj
          · intro he
            exact (Finset.disjoint_left.mp hdisj hpcids) (he ▸ hjsids)
        have hsubNew := rot_subR hT1 hT2 hT3 hdA hd2 hxiy hxi1 hyj1 hyj2 hx0 hy0
          hFx hFy hFr2 hFagree hFnil (by omega) (by rw [hFlen]; exact hxlen)
          (by rw [hFlen]; exact hylen)
        rw [hids] at hsubNew
        have hcidFagree : ∀ j ∈ insert p (upids ∪ sibids), j ≠ p →
            getN F j = getN st j := by
          intro j hj hjp
          refine hFne j ?_ ?_ ?_ hjp
          · intro he; rw [he] at hj; exact hx hj
          · intro he; rw [he] at hj; exact hycids hj
          · intro he
            rw [he] at hj
            rcases hr2c with hn | hmem
            · rw [repHole_ids_nonnil hole2 r2 hj] at hn
              exact Bool.false_ne_true hn
            · exact (Finset.disjoint_left.mp hdisj hj) (by simp [hmem])
        have hup2 : RepHole F up p upids :=
          repHole_congr hup
            (fun j hj => hcidFagree j (by simp [hj]) (fun he => hp1 (he ▸ hj)))
            hFnil (by omega) hFroot
        have hsib2 : RepN F (some p) sib sibT sibids :=
          repN_congr hsib
            (fun j hj => hcidFagree j (by simp [hj]) (fun he => hp2 (he ▸ hj)))
            hFnil (by omega)
        refine ⟨F, y, hF, ⟨RepHole.left hup2 hFp hsib2 hdC hp1 hp2
          (by rw [hFlen]; exact hplen) hpne0, hsubNew, hdisj, hycids,
          (by rw [hFlen]; exact hylen), ?_⟩, hFnil, hFlen, hFsize⟩
        intro q hq
        simp only [holePO] at hq
        cases hq
        rw [hFy]

